import Mathlib

/-
Verification development for rustc/middle/trans/reachable.rs: the pass that
finds items that are externally reachable, to determine which items need to
have their metadata (and possibly their AST) serialized.

Shallow embedding conventions:
- node ids are Nat; `def_id` is a pair of crate number and node id;
- the externally supplied tables (export map, ast map / item tree, def map,
  method map) are association lists keyed by node id;
- the mutable HashMap `rmap` is threaded explicitly as a list of node ids with
  idempotent insertion (membership is the only observable);
- `fail` / `span_bug` (both of which unwind and abort the analysis) are
  modelled by an `Except Err` result; since the original recursion has no
  structural termination argument (the item tree is looked up by id and can be
  reference-cyclic), every traversal function consumes one unit of fuel per
  call, and `Err.out_of_fuel` marks runs whose recursion depth exceeds the
  fuel. A run of the original program diverges exactly when the embedding
  yields `Err.out_of_fuel` at every fuel.
- type-parameter lists are represented by their length (the source only ever
  queries `tps.len() > 0`); the inline attribute query
  `attr::find_inline_attr(attrs) != attr::ia_none` is represented by a Bool.
-/

/-- A definition reference: owning crate number plus node id
(syntax::ast::def_id). -/
structure def_id where
  crate : Nat
  node : Nat
deriving DecidableEq

/-- The current compilation unit's crate number (syntax::ast::local_crate). -/
def local_crate : Nat := 0

/-- The node id of the crate's top-level module (syntax::ast::crate_node_id). -/
def crate_node_id : Nat := 0

/-- A name-resolution result (syntax::ast::def), collapsed to the two shapes
the pass distinguishes: `def_prim_ty` names a primitive/built-in type and
carries no definition reference; every other variant carries a `def_id`
(for the variants naming locals and other node-level bindings,
`ast_util::def_id_of_def` packs the node id into a local-crate `def_id`). -/
inductive Def where
  | def_prim_ty
  | def_other (did : def_id)
deriving DecidableEq

/-- Modelled from the spec: `ast_util::def_id_of_def` is not part of this
repository's sources. Per the spec's interface, a name-resolution binding is a
definition reference; a primitive-type binding names no definition at all, so
it yields no `def_id` (the pass checks for `def_prim_ty` before asking for the
id in the one place a type binding can be primitive). -/
def def_id_of_def : Def → Option def_id
  | .def_prim_ty => none
  | .def_other did => some did

/-- The origin of a statically resolved method call
(typeck::method_origin): `method_static` is a concrete, non-dynamically
dispatched target; every other origin is skipped by this pass. -/
inductive method_origin where
  | method_static (did : def_id)
  | method_other
deriving DecidableEq

/-- A type expression (syntax::ast::Ty). `ty_path` is a named-type reference
with its list of type arguments and the path's node id `p_id` (the key into
the def map); every other type shape is walked structurally, so only its
child type expressions are kept. Each node carries its own id (marked by the
type walker). -/
inductive Ty where
  | ty_path (id : Nat) (types : List Ty) (p_id : Nat)
  | ty_other (id : Nat) (kids : List Ty)

/-- The id of a type-expression node. -/
def Ty.id : Ty → Nat
  | .ty_path id _ _ => id
  | .ty_other id _ => id

mutual
/-- An item node (syntax::ast::item), restricted to the shapes
`traverse_public_item` dispatches on. `item_fn` keeps its type-parameter
count, inline-attribute flag and body; `item_impl` keeps the impl's
type-parameter count and its optional list of associated methods;
`item_class` keeps the type-parameter count, the optional destructor and the
methods of the struct; `item_ty` keeps the aliased type expression;
`item_foreign_mod` keeps the node ids of its foreign items (declarations
only, never bodies). `item_const`, `item_enum` and `item_trait` carry nothing
this pass looks at. -/
inductive Item where
  | item_mod (id : Nat) (items : List Item)
  | item_foreign_mod (id : Nat) (fitem_ids : List Nat)
  | item_fn (id : Nat) (tps : Nat) (inl : Bool) (blk : Block)
  | item_impl (id : Nat) (tps : Nat) (ms_opt : Option (List Method))
  | item_class (id : Nat) (tps : Nat) (dtor : Option Dtor) (methods : List Method)
  | item_ty (id : Nat) (t : Ty)
  | item_const (id : Nat)
  | item_enum (id : Nat)
  | item_trait (id : Nat)
  | item_mac (id : Nat)
/-- An associated method (syntax::ast::method): its id, type-parameter count,
inline-attribute flag and body. -/
inductive Method where
  | mk (id : Nat) (tps : Nat) (inl : Bool) (body : Block)
/-- A class destructor (syntax::ast::class_dtor): its id, inline-attribute
flag and body. -/
inductive Dtor where
  | mk (id : Nat) (inl : Bool) (body : Block)
/-- A block (syntax::ast::blk): its statements; the optional trailing
expression is folded into the statement list as a trailing `stmt_expr`. -/
inductive Block where
  | mk (stmts : List Stmt)
/-- A statement: an expression statement (`stmt_expr` / `stmt_semi`, and the
block's trailing expression) or a nested item declaration
(`stmt_decl(decl_item)`); local declarations contain no items and are folded
into `stmt_expr`-shaped children where their initializers matter. -/
inductive Stmt where
  | stmt_expr (e : Expr)
  | stmt_item (i : Item)
/-- An expression (syntax::ast::expr). `expr_path` is a symbol reference with
its node id and span; `expr_field` is a field access / method call with its
node id (the key into the method map) and its child expressions; every other
expression shape keeps its child expressions and child blocks (blocks hang
off expressions such as `if`, loops and closures, and are where nested items
live). -/
inductive Expr where
  | expr_path (id : Nat) (sp : Nat)
  | expr_field (id : Nat) (kids : List Expr)
  | expr_other (id : Nat) (kids : List Expr) (blks : List Block)
end

/-- The id of an item node. -/
def Item.id : Item → Nat
  | .item_mod id _ => id
  | .item_foreign_mod id _ => id
  | .item_fn id _ _ _ => id
  | .item_impl id _ _ => id
  | .item_class id _ _ _ => id
  | .item_ty id _ => id
  | .item_const id => id
  | .item_enum id => id
  | .item_trait id => id
  | .item_mac id => id

/-- The id of a method. -/
def Method.id : Method → Nat
  | .mk id _ _ _ => id

/-- The type-parameter count of a method. -/
def Method.tps : Method → Nat
  | .mk _ tps _ _ => tps

/-- The inline-attribute flag of a method. -/
def Method.inl : Method → Bool
  | .mk _ _ inl _ => inl

/-- The body of a method. -/
def Method.body : Method → Block
  | .mk _ _ _ body => body

/-- The id of a destructor. -/
def Dtor.id : Dtor → Nat
  | .mk id _ _ => id

/-- The inline-attribute flag of a destructor. -/
def Dtor.inl : Dtor → Bool
  | .mk _ inl _ => inl

/-- The body of a destructor. -/
def Dtor.body : Dtor → Block
  | .mk _ _ body => body

/-- A node of the item tree (syntax::ast_map::ast_node), restricted to the
shapes `traverse_def_id` dispatches on: a full item, a method node carrying
the `def_id` of its enclosing impl, a foreign item (only its id is used), a
variant (only its id is used), or any other node kind. -/
inductive ast_map_node where
  | node_item (item : Item)
  | node_method (impl_did : def_id)
  | node_foreign_item (id : Nat)
  | node_variant (id : Nat)
  | node_other

/-- Association-list lookup, standing for the HashMap `find` of the
externally supplied tables. -/
def lookupA {α : Type} : List (Nat × α) → Nat → Option α
  | [], _ => none
  | (k, v) :: rest, n => if k = n then some v else lookupA rest n

/-- The read-only context threaded through the traversal (the `ctx` record
minus the mutable `rmap`, which is threaded explicitly): the export table
`exp_map2`, the item tree `tcx.items`, the name-resolution table
`tcx.def_map` and the method resolution table `method_map`. -/
structure ctx where
  exp_map2 : List (Nat × List def_id)
  items : List (Nat × ast_map_node)
  def_map : List (Nat × Def)
  method_map : List (Nat × method_origin)

/-- The reachability map: the set of reachable node ids, as the list of ids
inserted so far (`std::map::HashMap<node_id, ()>` with only membership
observable). -/
abbrev RMap := List Nat

/-- Idempotent insertion into the reachability map. -/
def rinsert (id : Nat) (r : RMap) : RMap :=
  if id ∈ r then r else id :: r

/-- Insertion of a list of ids (the `for vec::each(nm.items)` loop of the
foreign-module case). -/
def rinsert_each : List Nat → RMap → RMap
  | [], r => r
  | id :: ids, r => rinsert_each ids (rinsert id r)

/-- How a run of the analysis aborts. `span_bug` is
`cx.tcx.sess.span_bug(e.span, fmt!("Unbound node id %? while traversing %s",
e.id, expr_to_str(e, ...)))`: it carries the offending node's span, its node
id and the offending expression itself (standing for its printed rendering).
`mac_item` is `fail ~"item macros unimplemented"`. `out_of_fuel` is not an
abort of the original program: it marks a run whose recursion depth exceeds
the fuel, and a run that yields it at every fuel is a diverging run of the
original program. -/
inductive Err where
  | span_bug (sp : Nat) (id : Nat) (rendering : Expr)
  | mac_item
  | out_of_fuel

/- The fueled traversal. Each function consumes one unit of fuel per call
(`Err.out_of_fuel` when it runs out); apart from the fuel and the explicit
`rmap`/`Except` threading, each function is a direct transcription of the
function of the same name in reachable.rs. The `..._list` helpers transcribe
the source's `for ... each` loops, `traverse_mod_items` the loop of
`traverse_public_mod`, and `traverse_block` / `traverse_stmts` /
`traverse_expr` / `traverse_expr_children` / `traverse_exprs` /
`traverse_blocks` the `visit::visit_block` walk started by
`traverse_inline_body` with `visit_expr := traverse_expr` and
`visit_item := traverse_item` (which just calls `traverse_public_item`, so
nested items inside a body are not ignored). -/
set_option maxHeartbeats 1000000 in
mutual

def traverse_exports (cx : ctx) : Nat → Nat → RMap → Except Err (Bool × RMap)
  | 0, _, _ => .error .out_of_fuel
  | n + 1, mod_id, r =>
    match lookupA cx.exp_map2 mod_id with
    | some exp2s => do
      -- found_export is set once per listed export, so it ends up true
      -- exactly when the entry's collection is nonempty
      let r ← traverse_exports_list cx n exp2s r
      .ok (!exp2s.isEmpty, r)
    | none => .ok (false, r)
  termination_by structural n => n

def traverse_exports_list (cx : ctx) : Nat → List def_id → RMap → Except Err RMap
  | 0, _, _ => .error .out_of_fuel
  | _ + 1, [], r => .ok r
  | n + 1, e2 :: e2s, r => do
    let r ← traverse_def_id cx n e2 r
    traverse_exports_list cx n e2s r
  termination_by structural n => n

def traverse_def_id (cx : ctx) : Nat → def_id → RMap → Except Err RMap
  | 0, _, _ => .error .out_of_fuel
  | n + 1, did, r =>
    if did.crate ≠ local_crate then .ok r else
    match lookupA cx.items did.node with
    | none => .ok r    -- This can happen for self, for example
    | some (.node_item item) => traverse_public_item cx n item r
    | some (.node_method impl_did) => traverse_def_id cx n impl_did r
    | some (.node_foreign_item fid) => .ok (rinsert fid r)
    | some (.node_variant vid) => .ok (rinsert vid r)
    | some .node_other => .ok r
  termination_by structural n => n

def traverse_public_mod (cx : ctx) : Nat → Nat → List Item → RMap → Except Err RMap
  | 0, _, _, _ => .error .out_of_fuel
  | n + 1, mod_id, m, r => do
    let (found_export, r) ← traverse_exports cx n mod_id r
    if !found_export then
      -- No exports, so every local item is exported
      traverse_mod_items cx n m r
    else
      .ok r
  termination_by structural n => n

def traverse_mod_items (cx : ctx) : Nat → List Item → RMap → Except Err RMap
  | 0, _, _ => .error .out_of_fuel
  | _ + 1, [], r => .ok r
  | n + 1, item :: items, r => do
    let r ← traverse_public_item cx n item r
    traverse_mod_items cx n items r
  termination_by structural n => n

def traverse_public_item (cx : ctx) : Nat → Item → RMap → Except Err RMap
  | 0, _, _ => .error .out_of_fuel
  | n + 1, item, r =>
    if item.id ∈ r then .ok r else
    let r := rinsert item.id r
    match item with
    | .item_mod id m => traverse_public_mod cx n id m r
    | .item_foreign_mod id fitem_ids => do
      let (found_export, r) ← traverse_exports cx n id r
      if !found_export then
        .ok (rinsert_each fitem_ids r)
      else
        .ok r
    | .item_fn _ tps inl blk =>
      if tps > 0 ∨ inl then
        traverse_inline_body cx n blk r
      else
        .ok r
    | .item_impl _ tps ms_opt =>
      match ms_opt with
      | some ms => traverse_impl_methods cx n tps ms r
      | none => .ok r
    | .item_class _ tps dtor methods => do
      let r ← (match dtor with
        | some d =>
          let r := rinsert d.id r
          if tps > 0 ∨ d.inl then
            traverse_inline_body cx n d.body r
          else
            .ok r
        | none => .ok r)
      traverse_class_methods cx n tps methods r
    | .item_ty _ t => traverse_ty cx n t r
    | .item_const _ => .ok r
    | .item_enum _ => .ok r
    | .item_trait _ => .ok r
    | .item_mac _ => .error .mac_item    -- fail: unexpanded item-level macs
  termination_by structural n => n

def traverse_impl_methods (cx : ctx) : Nat → Nat → List Method → RMap → Except Err RMap
  | 0, _, _, _ => .error .out_of_fuel
  | _ + 1, _, [], r => .ok r
  | n + 1, tps, m :: ms, r =>
    if tps > 0 ∨ m.tps > 0 ∨ m.inl then do
      let r ← traverse_inline_body cx n m.body (rinsert m.id r)
      traverse_impl_methods cx n tps ms r
    else
      traverse_impl_methods cx n tps ms r
  termination_by structural n => n

def traverse_class_methods (cx : ctx) : Nat → Nat → List Method → RMap → Except Err RMap
  | 0, _, _, _ => .error .out_of_fuel
  | _ + 1, _, [], r => .ok r
  | n + 1, tps, m :: ms, r => do
    let r := rinsert m.id r
    let r ← (if tps > 0 ∨ m.inl then
        traverse_inline_body cx n m.body r
      else
        .ok r)
    traverse_class_methods cx n tps ms r
  termination_by structural n => n

def traverse_ty (cx : ctx) : Nat → Ty → RMap → Except Err RMap
  | 0, _, _ => .error .out_of_fuel
  | n + 1, ty, r =>
    if ty.id ∈ r then .ok r else
    let r := rinsert ty.id r
    match ty with
    | .ty_path _ types p_id => do
      let r ← (match lookupA cx.def_map p_id with
        -- Kind of a hack to check this here, but I'm not sure what else to do
        | some .def_prim_ty => .ok r    -- do nothing
        | some d =>
          match def_id_of_def d with
          | some did => traverse_def_id cx n did r
          | none => .ok r
        | none => .ok r)    -- do nothing -- but should we fail here?
      traverse_ty_list cx n types r
    | .ty_other _ kids => traverse_ty_list cx n kids r
  termination_by structural n => n

def traverse_ty_list (cx : ctx) : Nat → List Ty → RMap → Except Err RMap
  | 0, _, _ => .error .out_of_fuel
  | _ + 1, [], r => .ok r
  | n + 1, t :: ts, r => do
    let r ← traverse_ty cx n t r
    traverse_ty_list cx n ts r
  termination_by structural n => n

def traverse_inline_body (cx : ctx) : Nat → Block → RMap → Except Err RMap
  | 0, _, _ => .error .out_of_fuel
  | n + 1, body, r => traverse_block cx n body r
  termination_by structural n => n

def traverse_block (cx : ctx) : Nat → Block → RMap → Except Err RMap
  | 0, _, _ => .error .out_of_fuel
  | n + 1, .mk stmts, r => traverse_stmts cx n stmts r
  termination_by structural n => n

def traverse_stmts (cx : ctx) : Nat → List Stmt → RMap → Except Err RMap
  | 0, _, _ => .error .out_of_fuel
  | _ + 1, [], r => .ok r
  | n + 1, .stmt_expr e :: ss, r => do
    let r ← traverse_expr cx n e r
    traverse_stmts cx n ss r
  | n + 1, .stmt_item i :: ss, r => do
    -- Don't ignore nested items: a generic fn can contain a generic impl,
    -- which must be monomorphized as well (traverse_item hook)
    let r ← traverse_public_item cx n i r
    traverse_stmts cx n ss r
  termination_by structural n => n

def traverse_expr (cx : ctx) : Nat → Expr → RMap → Except Err RMap
  | 0, _, _ => .error .out_of_fuel
  | n + 1, e, r => do
    let r ← (match e with
      | .expr_path id sp =>
        match lookupA cx.def_map id with
        | some d =>
          match def_id_of_def d with
          | some did => traverse_def_id cx n did r
          | none => .ok r
        | none => .error (.span_bug sp id (.expr_path id sp))
      | .expr_field id _ =>
        match lookupA cx.method_map id with
        | some (.method_static did) => traverse_def_id cx n did r
        | _ => .ok r
      | .expr_other _ _ _ => .ok r)
    traverse_expr_children cx n e r    -- visit::visit_expr(e, cx, v)
  termination_by structural n => n

def traverse_expr_children (cx : ctx) : Nat → Expr → RMap → Except Err RMap
  | 0, _, _ => .error .out_of_fuel
  | _ + 1, .expr_path _ _, r => .ok r
  | n + 1, .expr_field _ kids, r => traverse_exprs cx n kids r
  | n + 1, .expr_other _ kids blks, r => do
    let r ← traverse_exprs cx n kids r
    traverse_blocks cx n blks r
  termination_by structural n => n

def traverse_exprs (cx : ctx) : Nat → List Expr → RMap → Except Err RMap
  | 0, _, _ => .error .out_of_fuel
  | _ + 1, [], r => .ok r
  | n + 1, e :: es, r => do
    let r ← traverse_expr cx n e r
    traverse_exprs cx n es r
  termination_by structural n => n

def traverse_blocks (cx : ctx) : Nat → List Block → RMap → Except Err RMap
  | 0, _, _ => .error .out_of_fuel
  | _ + 1, [], r => .ok r
  | n + 1, b :: bs, r => do
    let r ← traverse_block cx n b r
    traverse_blocks cx n bs r
  termination_by structural n => n

end

/- The second, unconditional sweep (`traverse_all_resources_and_impls`):
`visit::visit_mod` over the crate's top-level module with a visitor whose
`visit_expr` is stubbed out (`|_e, _cx, _v| { }`) and whose `visit_item`
first runs the default item visit (descending into nested items through
module lists and through block statements, but never through expressions,
since `visit_expr` is a no-op) and then marks the item via
`traverse_public_item` when it is a class with a destructor or an impl.
`ret_visit_block` / `ret_visit_stmts` transcribe the default
`visit::visit_block` under this visitor (statement-level nested items are
visited, expression statements are skipped); `ret_visit_methods` transcribes
the default visit of method bodies. -/
mutual

def ret_visit_item (cx : ctx) : Nat → Item → RMap → Except Err RMap
  | 0, _, _ => .error .out_of_fuel
  | n + 1, i, r => do
    -- visit::visit_item(i, cx, v) first ...
    let r ← (match i with
      | .item_mod _ items => ret_visit_items cx n items r
      | .item_fn _ _ _ blk => ret_visit_block cx n blk r
      | .item_impl _ _ ms_opt =>
        match ms_opt with
        | some ms => ret_visit_methods cx n ms r
        | none => .ok r
      | .item_class _ _ dtor methods => do
        let r ← ret_visit_methods cx n methods r
        match dtor with
        | some d => ret_visit_block cx n d.body r
        | none => .ok r
      | _ => .ok r)
    -- ... then the overridden action
    match i with
    | .item_class _ _ (some _) _ => traverse_public_item cx n i r
    | .item_impl _ _ _ => traverse_public_item cx n i r
    | _ => .ok r
  termination_by structural n => n

def ret_visit_items (cx : ctx) : Nat → List Item → RMap → Except Err RMap
  | 0, _, _ => .error .out_of_fuel
  | _ + 1, [], r => .ok r
  | n + 1, i :: is, r => do
    let r ← ret_visit_item cx n i r
    ret_visit_items cx n is r
  termination_by structural n => n

def ret_visit_methods (cx : ctx) : Nat → List Method → RMap → Except Err RMap
  | 0, _, _ => .error .out_of_fuel
  | _ + 1, [], r => .ok r
  | n + 1, m :: ms, r => do
    let r ← ret_visit_block cx n m.body r
    ret_visit_methods cx n ms r
  termination_by structural n => n

def ret_visit_block (cx : ctx) : Nat → Block → RMap → Except Err RMap
  | 0, _, _ => .error .out_of_fuel
  | n + 1, .mk stmts, r => ret_visit_stmts cx n stmts r
  termination_by structural n => n

def ret_visit_stmts (cx : ctx) : Nat → List Stmt → RMap → Except Err RMap
  | 0, _, _ => .error .out_of_fuel
  | _ + 1, [], r => .ok r
  | n + 1, .stmt_expr _ :: ss, r =>
    -- visit_expr is stubbed: expression subtrees are not descended into
    ret_visit_stmts cx n ss r
  | n + 1, .stmt_item i :: ss, r => do
    let r ← ret_visit_item cx n i r
    ret_visit_stmts cx n ss r
  termination_by structural n => n

end

/-- `traverse_all_resources_and_impls(cx, crate_mod)`: the unconditional
retention sweep over every item of the crate's top-level module. -/
def traverse_all_resources_and_impls (cx : ctx) : Nat → List Item → RMap → Except Err RMap
  | 0, _, _ => .error .out_of_fuel
  | n + 1, crate_mod, r => ret_visit_items cx n crate_mod r

/-- `find_reachable(crate_mod, exp_map2, tcx, method_map)`: starts from the
empty reachability map, runs the export-driven pass from the crate's
top-level module, then the unconditional retention sweep, and returns the
map. The extra fuel argument bounds the recursion depth. -/
def find_reachable (cx : ctx) (fuel : Nat) (crate_mod : List Item) : Except Err RMap := do
  let rmap ← traverse_public_mod cx fuel crate_node_id crate_mod []
  traverse_all_resources_and_impls cx fuel crate_mod rmap

/- Auxiliary definitions used to state and prove properties of the pass.
They collect ids and check shape conditions over the same tree the traversal
walks; none of them is part of the embedded program. -/

mutual

/-- All type-expression node ids occurring in a type (the ids `traverse_ty`
can mark). -/
def ty_ids : Ty → List Nat
  | .ty_path id types _ => id :: tys_ids types
  | .ty_other id kids => id :: tys_ids kids

/-- All type-expression node ids occurring in a list of types. -/
def tys_ids : List Ty → List Nat
  | [] => []
  | t :: ts => ty_ids t ++ tys_ids ts

end

mutual

/-- Whether every named-type reference in a type resolves to a primitive
type in the def map. -/
def all_prim_paths (cx : ctx) : Ty → Bool
  | .ty_path _ types p_id =>
    (match lookupA cx.def_map p_id with
     | some .def_prim_ty => true
     | _ => false) && all_prim_paths_list cx types
  | .ty_other _ kids => all_prim_paths_list cx kids

/-- `all_prim_paths` over a list of types. -/
def all_prim_paths_list (cx : ctx) : List Ty → Bool
  | [] => true
  | t :: ts => all_prim_paths cx t && all_prim_paths_list cx ts

end

mutual

/-- All ids the traversal can ever insert from within an item: the item's own
id, the ids of nested items (through module lists and through block
statements, including blocks hanging off expressions), method and destructor
ids, foreign-item ids, and the type-expression node ids of aliased types. -/
def item_ids : Item → List Nat
  | .item_mod id items => id :: items_ids items
  | .item_foreign_mod id fitem_ids => id :: fitem_ids
  | .item_fn id _ _ blk => id :: block_ids blk
  | .item_impl id _ ms_opt =>
    id :: (match ms_opt with
      | some ms => methods_ids ms
      | none => [])
  | .item_class id _ dtor ms =>
    id :: ((match dtor with
      | some (.mk did _ body) => did :: block_ids body
      | none => []) ++ methods_ids ms)
  | .item_ty id t => id :: ty_ids t
  | .item_const id => [id]
  | .item_enum id => [id]
  | .item_trait id => [id]
  | .item_mac id => [id]

/-- `item_ids` over a list of items. -/
def items_ids : List Item → List Nat
  | [] => []
  | i :: is => item_ids i ++ items_ids is

/-- Ids insertable from a list of methods: each method's id and the ids of
its body. -/
def methods_ids : List Method → List Nat
  | [] => []
  | .mk id _ _ body :: ms => id :: (block_ids body ++ methods_ids ms)

/-- Ids insertable from a block. -/
def block_ids : Block → List Nat
  | .mk stmts => stmts_ids stmts

/-- Ids insertable from a list of statements. -/
def stmts_ids : List Stmt → List Nat
  | [] => []
  | .stmt_expr e :: ss => expr_ids e ++ stmts_ids ss
  | .stmt_item i :: ss => item_ids i ++ stmts_ids ss

/-- Ids insertable from an expression (through the blocks hanging off it). -/
def expr_ids : Expr → List Nat
  | .expr_path _ _ => []
  | .expr_field _ kids => exprs_ids kids
  | .expr_other _ kids blks => exprs_ids kids ++ blocks_ids blks

/-- `expr_ids` over a list of expressions. -/
def exprs_ids : List Expr → List Nat
  | [] => []
  | e :: es => expr_ids e ++ exprs_ids es

/-- `block_ids` over a list of blocks. -/
def blocks_ids : List Block → List Nat
  | [] => []
  | b :: bs => block_ids b ++ blocks_ids bs

end

/-- Ids insertable from an item-tree node. -/
def node_ids : ast_map_node → List Nat
  | .node_item item => item_ids item
  | .node_method _ => []
  | .node_foreign_item id => [id]
  | .node_variant id => [id]
  | .node_other => []

/-- All ids the whole analysis can ever insert: those of the crate's items
plus those of every node of the item tree. -/
def u_of (cx : ctx) (m : List Item) : List Nat :=
  items_ids m ++ cx.items.flatMap (fun p => node_ids p.2)

/-- The number of ids of `u` not yet in `r` (the termination measure of the
marking discipline). -/
def ucount (u r : List Nat) : Nat :=
  (u.filter (fun x => !(r.contains x))).length

mutual

/-- The items visited by the unconditional retention sweep started at an
item: the item itself and every nested item reachable without passing
through an expression (the sweep's visitor stubs out `visit_expr`). -/
def ret_visited : Item → List Item
  | .item_mod id items => .item_mod id items :: ret_visited_list items
  | .item_fn id tps inl blk => .item_fn id tps inl blk :: ret_visited_block blk
  | .item_impl id tps ms_opt =>
    .item_impl id tps ms_opt :: (match ms_opt with
      | some ms => ret_visited_methods ms
      | none => [])
  | .item_class id tps dtor ms =>
    .item_class id tps dtor ms ::
      (ret_visited_methods ms ++ (match dtor with
        | some (.mk _ _ body) => ret_visited_block body
        | none => []))
  | i => [i]

/-- `ret_visited` over a list of items. -/
def ret_visited_list : List Item → List Item
  | [] => []
  | i :: is => ret_visited i ++ ret_visited_list is

/-- Items visited by the retention sweep inside method bodies. -/
def ret_visited_methods : List Method → List Item
  | [] => []
  | .mk _ _ _ body :: ms => ret_visited_block body ++ ret_visited_methods ms

/-- Items visited by the retention sweep inside a block: only the
statement-level nested items (expression statements are skipped). -/
def ret_visited_block : Block → List Item
  | .mk stmts => ret_visited_stmts stmts

/-- `ret_visited_block` over the statements of a block. -/
def ret_visited_stmts : List Stmt → List Item
  | [] => []
  | .stmt_expr _ :: ss => ret_visited_stmts ss
  | .stmt_item i :: ss => ret_visited i ++ ret_visited_stmts ss

end

/-- Whether an item is one of the two kinds the retention sweep marks
unconditionally: an impl, or a class carrying a destructor. -/
def ret_target : Item → Bool
  | .item_impl _ _ _ => true
  | .item_class _ _ (some _) _ => true
  | _ => false

mutual

/-- Whether a symbol-reference expression with node id `pid` occurs in a
position of this block that the inline-body walker visits (anywhere except
under a nested item, which is dispatched separately). -/
def path_in_block (pid : Nat) : Block → Bool
  | .mk stmts => path_in_stmts pid stmts

/-- `path_in_block` over statements. -/
def path_in_stmts (pid : Nat) : List Stmt → Bool
  | [] => false
  | .stmt_expr e :: ss => path_in_expr pid e || path_in_stmts pid ss
  | .stmt_item _ :: ss => path_in_stmts pid ss

/-- `path_in_block` over an expression. -/
def path_in_expr (pid : Nat) : Expr → Bool
  | .expr_path id _ => id == pid
  | .expr_field _ kids => path_in_exprs pid kids
  | .expr_other _ kids blks => path_in_exprs pid kids || path_in_blocks pid blks

/-- `path_in_expr` over a list of expressions. -/
def path_in_exprs (pid : Nat) : List Expr → Bool
  | [] => false
  | e :: es => path_in_expr pid e || path_in_exprs pid es

/-- `path_in_block` over a list of blocks. -/
def path_in_blocks (pid : Nat) : List Block → Bool
  | [] => false
  | b :: bs => path_in_block pid b || path_in_blocks pid bs

end

mutual

/-- Well-formedness of an item with respect to a distinguished function id
`fid` whose body contains a symbol reference with id `pid`: every id the
traversal could insert that equals `fid` belongs to a function item that has
type parameters or an inline attribute and whose body contains the `pid`
reference. (On a well-formed crate, where ids are unique, this just says
that `fid` is the id of such a function.) -/
def f_ok_item (fid pid : Nat) : Item → Bool
  | .item_mod id items => !(id == fid) && f_ok_items fid pid items
  | .item_foreign_mod id fids => !(id == fid) && fids.all (fun x => !(x == fid))
  | .item_fn id tps inl blk =>
    (if id == fid then (decide (tps > 0) || inl) && path_in_block pid blk else true) &&
      f_ok_block fid pid blk
  | .item_impl id _ ms_opt =>
    !(id == fid) && (match ms_opt with
      | some ms => f_ok_methods fid pid ms
      | none => true)
  | .item_class id _ dtor ms =>
    !(id == fid) && (match dtor with
      | some (.mk did _ body) => !(did == fid) && f_ok_block fid pid body
      | none => true) && f_ok_methods fid pid ms
  | .item_ty id t => !(id == fid) && (ty_ids t).all (fun x => !(x == fid))
  | .item_const id => !(id == fid)
  | .item_enum id => !(id == fid)
  | .item_trait id => !(id == fid)
  | .item_mac id => !(id == fid)

/-- `f_ok_item` over a list of items. -/
def f_ok_items (fid pid : Nat) : List Item → Bool
  | [] => true
  | i :: is => f_ok_item fid pid i && f_ok_items fid pid is

/-- `f_ok_item` over methods: method ids differ from `fid` and bodies are
well formed. -/
def f_ok_methods (fid pid : Nat) : List Method → Bool
  | [] => true
  | .mk id _ _ body :: ms => !(id == fid) && f_ok_block fid pid body && f_ok_methods fid pid ms

/-- `f_ok_item` over a block. -/
def f_ok_block (fid pid : Nat) : Block → Bool
  | .mk stmts => f_ok_stmts fid pid stmts

/-- `f_ok_item` over statements. -/
def f_ok_stmts (fid pid : Nat) : List Stmt → Bool
  | [] => true
  | .stmt_expr e :: ss => f_ok_expr fid pid e && f_ok_stmts fid pid ss
  | .stmt_item i :: ss => f_ok_item fid pid i && f_ok_stmts fid pid ss

/-- `f_ok_item` over an expression (through its nested blocks). -/
def f_ok_expr (fid pid : Nat) : Expr → Bool
  | .expr_path _ _ => true
  | .expr_field _ kids => f_ok_exprs fid pid kids
  | .expr_other _ kids blks => f_ok_exprs fid pid kids && f_ok_blocks fid pid blks

/-- `f_ok_expr` over a list of expressions. -/
def f_ok_exprs (fid pid : Nat) : List Expr → Bool
  | [] => true
  | e :: es => f_ok_expr fid pid e && f_ok_exprs fid pid es

/-- `f_ok_block` over a list of blocks. -/
def f_ok_blocks (fid pid : Nat) : List Block → Bool
  | [] => true
  | b :: bs => f_ok_block fid pid b && f_ok_blocks fid pid bs

end

/-- `f_ok_item` over an item-tree node. -/
def f_ok_node (fid pid : Nat) : ast_map_node → Bool
  | .node_item it => f_ok_item fid pid it
  | .node_foreign_item id => !(id == fid)
  | .node_variant id => !(id == fid)
  | .node_method _ => true
  | .node_other => true

/-- Well-formedness of the whole input with respect to `fid` and `pid`:
every occurrence of `fid` among insertable ids, in the crate's items or in
the item tree, is as a generic-or-inline function whose body contains the
`pid` symbol reference. -/
def f_shape (cx : ctx) (m : List Item) (fid pid : Nat) : Bool :=
  f_ok_items fid pid m && cx.items.all (fun p => f_ok_node fid pid p.2)

/-- Whether a definition reference, fed to the definition resolver, would
directly insert the id `hid`: it is a local reference whose item-tree node
is an item with id `hid`, or a foreign item or variant with id `hid`. -/
def did_marks_h (cx : ctx) (hid : Nat) (d : def_id) : Bool :=
  (d.crate == local_crate) &&
  (match lookupA cx.items d.node with
   | some (.node_item it) => it.id == hid
   | some (.node_foreign_item fid) => fid == hid
   | some (.node_variant vid) => vid == hid
   | _ => false)

mutual

/-- Shielding of an id `hid` (a function that must stay unreached) inside an
item: `hid` never occurs as a method, destructor, foreign-item or
type-node id; an item with id `hid` is a function and occurs only as the
direct child of a module whose export entry is explicitly nonempty (so the
export-driven pass never walks the module's children); and no nested item
with id `hid` sits at statement level inside any block. -/
def h_ok_item (cx : ctx) (hid : Nat) : Item → Bool
  | .item_mod id items =>
    !(id == hid) &&
    (!(items.any (fun c => c.id == hid)) ||
      (match lookupA cx.exp_map2 id with
       | some (_ :: _) => true
       | _ => false)) &&
    h_ok_items cx hid items
  | .item_foreign_mod id fids => !(id == hid) && fids.all (fun x => !(x == hid))
  | .item_fn _ _ _ blk => h_ok_block cx hid blk
  | .item_impl id _ ms_opt =>
    !(id == hid) && (match ms_opt with
      | some ms => h_ok_methods cx hid ms
      | none => true)
  | .item_class id _ dtor ms =>
    !(id == hid) && (match dtor with
      | some (.mk did _ body) => !(did == hid) && h_ok_block cx hid body
      | none => true) && h_ok_methods cx hid ms
  | .item_ty id t => !(id == hid) && (ty_ids t).all (fun x => !(x == hid))
  | .item_const id => !(id == hid)
  | .item_enum id => !(id == hid)
  | .item_trait id => !(id == hid)
  | .item_mac id => !(id == hid)

/-- `h_ok_item` over a list of items. -/
def h_ok_items (cx : ctx) (hid : Nat) : List Item → Bool
  | [] => true
  | i :: is => h_ok_item cx hid i && h_ok_items cx hid is

/-- `h_ok_item` over methods. -/
def h_ok_methods (cx : ctx) (hid : Nat) : List Method → Bool
  | [] => true
  | .mk id _ _ body :: ms => !(id == hid) && h_ok_block cx hid body && h_ok_methods cx hid ms

/-- `h_ok_item` over a block: no statement-level item with id `hid`. -/
def h_ok_block (cx : ctx) (hid : Nat) : Block → Bool
  | .mk stmts => h_ok_stmts cx hid stmts

/-- `h_ok_block` over statements. -/
def h_ok_stmts (cx : ctx) (hid : Nat) : List Stmt → Bool
  | [] => true
  | .stmt_expr e :: ss => h_ok_expr cx hid e && h_ok_stmts cx hid ss
  | .stmt_item i :: ss => !(i.id == hid) && h_ok_item cx hid i && h_ok_stmts cx hid ss

/-- `h_ok_block` over an expression (through its nested blocks). -/
def h_ok_expr (cx : ctx) (hid : Nat) : Expr → Bool
  | .expr_path _ _ => true
  | .expr_field _ kids => h_ok_exprs cx hid kids
  | .expr_other _ kids blks => h_ok_exprs cx hid kids && h_ok_blocks cx hid blks

/-- `h_ok_expr` over a list of expressions. -/
def h_ok_exprs (cx : ctx) (hid : Nat) : List Expr → Bool
  | [] => true
  | e :: es => h_ok_expr cx hid e && h_ok_exprs cx hid es

/-- `h_ok_block` over a list of blocks. -/
def h_ok_blocks (cx : ctx) (hid : Nat) : List Block → Bool
  | [] => true
  | b :: bs => h_ok_block cx hid b && h_ok_blocks cx hid bs

end

/-- `h_ok_item` over an item-tree node: item nodes are shielded, and method
nodes never redirect to a definition that would mark `hid`. -/
def h_ok_node (cx : ctx) (hid : Nat) : ast_map_node → Bool
  | .node_item it => h_ok_item cx hid it
  | .node_method d => !(did_marks_h cx hid d)
  | _ => true

/-- No reference anywhere in the input resolves to the id `hid`: no export
entry, no name-resolution binding, no static method target and no
method-node redirection feeds a definition reference marking `hid` to the
resolver, and every item-tree node is shielded. -/
def h_unreferenced (cx : ctx) (hid : Nat) : Bool :=
  cx.exp_map2.all (fun p => p.2.all (fun d => !(did_marks_h cx hid d))) &&
  cx.def_map.all (fun p => match p.2 with
    | .def_other d => !(did_marks_h cx hid d)
    | _ => true) &&
  cx.method_map.all (fun p => match p.2 with
    | .method_static d => !(did_marks_h cx hid d)
    | _ => true) &&
  cx.items.all (fun p => h_ok_node cx hid p.2)

/-- The method-node links of the item tree admit the rank function `rank`
bounded by `R`: every local method-to-impl redirection strictly decreases
the rank, which never exceeds `R`. (The ast map constructor guarantees this
with rank 1 for method nodes and 0 otherwise: a method node's impl
reference names the enclosing impl item, never another method node.) -/
def hops_rank_ok (rank : Nat → Nat) (R : Nat) (cx : ctx) : Bool :=
  cx.items.all (fun p => match p.2 with
    | .node_method d =>
      !(d.crate == local_crate) ||
        (decide (rank d.node < rank p.1) && decide (rank p.1 ≤ R))
    | _ => true)

/- Concrete inputs used by closed witnesses and counterexamples. -/

/-- A context whose tables are all empty. -/
def cx_empty : ctx := { exp_map2 := [], items := [], def_map := [], method_map := [] }

/-- A context whose export table maps the crate's top module to an explicit
empty collection. -/
def cx_c1 : ctx := { exp_map2 := [(0, [])], items := [], def_map := [], method_map := [] }

/-- A crate consisting of one constant item. -/
def crate_c1 : List Item := [.item_const 1]

/-- An impl without type parameters whose single method has no type
parameters and no inline attribute. -/
def impl_c2 : Item := .item_impl 1 0 (some [.mk 2 0 false (.mk [])])

/-- A crate with one non-generic, non-inline function whose body holds an
impl nested inside an expression's block. -/
def crate_c3 : List Item :=
  [.item_fn 1 0 false (.mk
    [.stmt_expr (.expr_other 2 [] [.mk [.stmt_item (.item_impl 3 0 none)]])])]

/-- A context whose item tree maps node 5 to a method node redirecting to
node 5 itself, and exports node 5 from the crate: the resolver chases the
redirection forever. -/
def cx_c4 : ctx :=
  { exp_map2 := [(0, [⟨0, 5⟩])], items := [(5, .node_method ⟨0, 5⟩)],
    def_map := [], method_map := [] }

/-- A context whose item tree has two method nodes redirecting to each
other, one of them exported from the crate. -/
def cx_c9 : ctx :=
  { exp_map2 := [(0, [⟨0, 6⟩])],
    items := [(6, .node_method ⟨0, 7⟩), (7, .node_method ⟨0, 6⟩)],
    def_map := [], method_map := [] }

/-- A crate with one generic function whose body holds a symbol reference
with no entry in the name-resolution table. -/
def crate_unbound : List Item :=
  [.item_fn 1 1 false (.mk [.stmt_expr (.expr_path 8 99)])]

/-- A crate consisting of one unexpanded macro-invocation item. -/
def crate_mac : List Item := [.item_mac 2]

/-- A generic exported function `f` whose body references node 30. -/
def f_item : Item := .item_fn 10 1 false (.mk [.stmt_expr (.expr_path 30 7)])

/-- A non-generic, non-inline, non-exported function `g`, called by `f`. -/
def g_item : Item := .item_fn 20 0 false (.mk [])

/-- A non-generic, non-inline, non-exported function `h` with no references
to it. -/
def h_item : Item := .item_fn 40 0 false (.mk [])

/-- The crate holding `f`, `g` and `h`. -/
def crate_c5 : List Item := [f_item, g_item, h_item]

/-- The context for the `f`/`g`/`h` scenario: only `f` is exported, and the
symbol reference in `f`'s body resolves to `g`. -/
def cx_c5 : ctx :=
  { exp_map2 := [(0, [⟨0, 10⟩])],
    items := [(10, .node_item f_item), (20, .node_item g_item), (40, .node_item h_item)],
    def_map := [(30, .def_other ⟨0, 20⟩)], method_map := [] }

/-- A class without type parameters, with a non-inline destructor and two
methods, the second of which carries an inline attribute. -/
def class_c6 : Item :=
  .item_class 1 0 (some (.mk 2 false (.mk [])))
    [.mk 3 0 false (.mk []), .mk 4 0 true (.mk [])]

/-- A type alias whose right-hand side is a named-type reference with one
type argument. -/
def alias_c7 : Item := .item_ty 1 (.ty_path 2 [.ty_other 3 []] 9)

/-- A context resolving the path of `alias_c7` to a primitive type. -/
def cx_c7 : ctx :=
  { exp_map2 := [], items := [], def_map := [(9, .def_prim_ty)], method_map := [] }

/-- A context resolving node 9 to a local enum item with node id 50. -/
def cx_c7b : ctx :=
  { exp_map2 := [], items := [(50, .node_item (.item_enum 50))],
    def_map := [(9, .def_other ⟨0, 50⟩)], method_map := [] }

/-- A context whose item tree maps node 5 to a method node of the impl at
node 6. -/
def cx_c10 : ctx :=
  { exp_map2 := [],
    items := [(5, .node_method ⟨0, 6⟩),
              (6, .node_item (.item_impl 6 0 (some [.mk 7 1 false (.mk [])])))],
    def_map := [], method_map := [] }

/-- The analysis terminates on the given input: some fuel completes the run
without fuel exhaustion. (The fueled embedding of a run of the original
program diverges exactly when every fuel is exhausted.) -/
def terminates (cx : ctx) (m : List Item) : Prop :=
  ∃ fuel, find_reachable cx fuel m ≠ .error .out_of_fuel

/-- The analysis diverges on the given input: every fuel is exhausted. -/
def diverges (cx : ctx) (m : List Item) : Prop :=
  ∀ fuel, find_reachable cx fuel m = .error .out_of_fuel

/-- The shapes a non-completed run can take: fuel exhaustion (the
divergence marker of the embedding), the unexpanded-macro-item failure, or
an unbound-symbol diagnostic that carries the offending expression's span,
its node id, and the offending expression itself as the rendering. -/
def diag_ok : Err → Prop
  | .out_of_fuel => True
  | .mac_item => True
  | .span_bug sp id e => e = .expr_path id sp

/-- Whether a symbol-reference expression with id `pid` occurs among the
children of an expression (the part visited by `visit::visit_expr` after the
expression's own effect). -/
def path_in_children (pid : Nat) : Expr → Bool
  | .expr_path _ _ => false
  | .expr_field _ kids => path_in_exprs pid kids
  | .expr_other _ kids blks => path_in_exprs pid kids || path_in_blocks pid blks

/- Structural size of a type expression and of a list of types (each node
and list cell counts 1). -/
mutual

def tysize : Ty → Nat
  | .ty_path _ types _ => 1 + tylsize types
  | .ty_other _ kids => 1 + tylsize kids

def tylsize : List Ty → Nat
  | [] => 0
  | t :: ts => 1 + tysize t + tylsize ts

end

/- Structural sizes of the item tree (each node and each list cell counts 1;
the destructor of a class counts 1 plus the size of its body). They drive
the termination measure of the fueled traversal. -/
mutual

def isize : Item → Nat
  | .item_mod _ items => 1 + ilsize items
  | .item_foreign_mod _ _ => 1
  | .item_fn _ _ _ blk => 1 + bsize blk
  | .item_impl _ _ ms_opt =>
    1 + (match ms_opt with
      | some ms => msize ms
      | none => 0)
  | .item_class _ _ dtor ms =>
    1 + (match dtor with
      | some (.mk _ _ body) => 1 + bsize body
      | none => 0) + msize ms
  | .item_ty _ t => 1 + tysize t
  | .item_const _ => 1
  | .item_enum _ => 1
  | .item_trait _ => 1
  | .item_mac _ => 1

def ilsize : List Item → Nat
  | [] => 0
  | i :: is => 1 + isize i + ilsize is

def msize : List Method → Nat
  | [] => 0
  | .mk _ _ _ body :: ms => 1 + bsize body + msize ms

def bsize : Block → Nat
  | .mk stmts => 1 + sssize stmts

def sssize : List Stmt → Nat
  | [] => 0
  | .stmt_expr e :: ss => 1 + esize e + sssize ss
  | .stmt_item i :: ss => 1 + isize i + sssize ss

def esize : Expr → Nat
  | .expr_path _ _ => 1
  | .expr_field _ kids => 1 + elsize kids
  | .expr_other _ kids blks => 1 + elsize kids + blsize blks

def elsize : List Expr → Nat
  | [] => 0
  | e :: es => 1 + esize e + elsize es

def blsize : List Block → Nat
  | [] => 0
  | b :: bs => 1 + bsize b + blsize bs

end

/-- Structural size of an item-tree node. -/
def nsize : ast_map_node → Nat
  | .node_item item => isize item
  | _ => 1

/-- A bound on the length of every export-entry collection of the context. -/
def EBound (cx : ctx) : Nat :=
  cx.exp_map2.foldr (fun p acc => max p.2.length acc) 0

/-- A bound on the structural size of every item-tree node and of the
crate's top-level item list. -/
def SBound (cx : ctx) (m : List Item) : Nat :=
  cx.items.foldr (fun p acc => max (nsize p.2) acc) (ilsize m)

/-- The per-marking fuel budget of the termination measure: an upper bound
(strict) on the per-task component of the measure of every task the
traversal can spawn, given the size bounds `SB` and `EB` and the
method-redirection rank bound `R`. -/
def Kc (R EB SB : Nat) : Nat := (R + 3) * (4 * (SB + EB) + 20)

/-- The sufficient-fuel statement, one conjunct per traversal function: a
run whose fuel exceeds the measure `ucount u r * Kc R EB SB + (per-task
component)` never exhausts its fuel. `u` is a universe holding every
insertable id, `rank`/`R` a rank certificate for the method-node
redirections, `EB`/`SB` the table bounds. -/
def TermConj (cx : ctx) (u : List Nat) (rank : Nat → Nat) (R EB SB N : Nat) : Prop :=
  (∀ mod_id r, ucount u r * Kc R EB SB + (R + 3) * (4 * EB + 2) < N →
    traverse_exports cx N mod_id r ≠ .error .out_of_fuel) ∧
  (∀ l r, l.length ≤ EB →
    ucount u r * Kc R EB SB + (R + 3) * (4 * l.length + 1) < N →
    traverse_exports_list cx N l r ≠ .error .out_of_fuel) ∧
  (∀ did r, ucount u r * Kc R EB SB + (min (rank did.node) R + 2) < N →
    traverse_def_id cx N did r ≠ .error .out_of_fuel) ∧
  (∀ mod_id ms r, items_ids ms ⊆ u → ilsize ms ≤ SB →
    ucount u r * Kc R EB SB + (R + 3) * (4 * (EB + ilsize ms) + 3) < N →
    traverse_public_mod cx N mod_id ms r ≠ .error .out_of_fuel) ∧
  (∀ ms r, items_ids ms ⊆ u → ilsize ms ≤ SB →
    ucount u r * Kc R EB SB + (R + 3) * (4 * ilsize ms + 2) < N →
    traverse_mod_items cx N ms r ≠ .error .out_of_fuel) ∧
  (∀ i r, item_ids i ⊆ u → isize i ≤ SB →
    ucount u r * Kc R EB SB < N →
    traverse_public_item cx N i r ≠ .error .out_of_fuel) ∧
  (∀ tps ms r, methods_ids ms ⊆ u → msize ms ≤ SB →
    ucount u r * Kc R EB SB + (R + 3) * (4 * msize ms + 11) < N →
    traverse_impl_methods cx N tps ms r ≠ .error .out_of_fuel) ∧
  (∀ tps ms r, methods_ids ms ⊆ u → msize ms ≤ SB →
    ucount u r * Kc R EB SB + (R + 3) * (4 * msize ms + 11) < N →
    traverse_class_methods cx N tps ms r ≠ .error .out_of_fuel) ∧
  (∀ t r, ty_ids t ⊆ u → tysize t ≤ SB →
    ucount u r * Kc R EB SB < N →
    traverse_ty cx N t r ≠ .error .out_of_fuel) ∧
  (∀ ts r, tys_ids ts ⊆ u → tylsize ts ≤ SB →
    ucount u r * Kc R EB SB + (R + 3) * (4 * tylsize ts + 2) < N →
    traverse_ty_list cx N ts r ≠ .error .out_of_fuel) ∧
  (∀ b r, block_ids b ⊆ u → bsize b ≤ SB →
    ucount u r * Kc R EB SB + (R + 3) * (4 * bsize b + 14) < N →
    traverse_inline_body cx N b r ≠ .error .out_of_fuel) ∧
  (∀ b r, block_ids b ⊆ u → bsize b ≤ SB →
    ucount u r * Kc R EB SB + (R + 3) * (4 * bsize b + 13) < N →
    traverse_block cx N b r ≠ .error .out_of_fuel) ∧
  (∀ ss r, stmts_ids ss ⊆ u → sssize ss ≤ SB →
    ucount u r * Kc R EB SB + (R + 3) * (4 * sssize ss + 12) < N →
    traverse_stmts cx N ss r ≠ .error .out_of_fuel) ∧
  (∀ e r, expr_ids e ⊆ u → esize e ≤ SB →
    ucount u r * Kc R EB SB + (R + 3) * (4 * esize e + 8) < N →
    traverse_expr cx N e r ≠ .error .out_of_fuel) ∧
  (∀ e r, expr_ids e ⊆ u → esize e ≤ SB →
    ucount u r * Kc R EB SB + (R + 3) * (4 * esize e + 7) < N →
    traverse_expr_children cx N e r ≠ .error .out_of_fuel) ∧
  (∀ es r, exprs_ids es ⊆ u → elsize es ≤ SB →
    ucount u r * Kc R EB SB + (R + 3) * (4 * elsize es + 6) < N →
    traverse_exprs cx N es r ≠ .error .out_of_fuel) ∧
  (∀ bs r, blocks_ids bs ⊆ u → blsize bs ≤ SB →
    ucount u r * Kc R EB SB + (R + 3) * (4 * blsize bs + 10) < N →
    traverse_blocks cx N bs r ≠ .error .out_of_fuel) ∧
  (∀ i r, item_ids i ⊆ u → isize i ≤ SB →
    ucount u r * Kc R EB SB + (R + 3) * (4 * isize i + 16) < N →
    ret_visit_item cx N i r ≠ .error .out_of_fuel) ∧
  (∀ is r, items_ids is ⊆ u → ilsize is ≤ SB →
    ucount u r * Kc R EB SB + (R + 3) * (4 * ilsize is + 16) < N →
    ret_visit_items cx N is r ≠ .error .out_of_fuel) ∧
  (∀ ms r, methods_ids ms ⊆ u → msize ms ≤ SB →
    ucount u r * Kc R EB SB + (R + 3) * (4 * msize ms + 16) < N →
    ret_visit_methods cx N ms r ≠ .error .out_of_fuel) ∧
  (∀ b r, block_ids b ⊆ u → bsize b ≤ SB →
    ucount u r * Kc R EB SB + (R + 3) * (4 * bsize b + 17) < N →
    ret_visit_block cx N b r ≠ .error .out_of_fuel) ∧
  (∀ ss r, stmts_ids ss ⊆ u → sssize ss ≤ SB →
    ucount u r * Kc R EB SB + (R + 3) * (4 * sssize ss + 15) < N →
    ret_visit_stmts cx N ss r ≠ .error .out_of_fuel)

/- ===================== Theorems ===================== -/

/-- Decomposition of a successful bind in the `Except` monad. -/
theorem bind_ok {α β γ : Type} {x : Except γ α} {f : α → Except γ β} {b : β} :
    (x >>= f) = .ok b ↔ ∃ a, x = .ok a ∧ f a = .ok b := by
  cases x <;> simp [Bind.bind, Except.bind]

/-- Decomposition of a failing bind in the `Except` monad. -/
theorem bind_error {α β γ : Type} {x : Except γ α} {f : α → Except γ β} {e : γ} :
    (x >>= f) = .error e ↔ x = .error e ∨ ∃ a, x = .ok a ∧ f a = .error e := by
  cases x <;> simp [Bind.bind, Except.bind]

/-- Insertion only grows the reachability map. -/
theorem rinsert_subset {id : Nat} {r : RMap} : r ⊆ rinsert id r := by
  unfold rinsert; split
  · exact List.Subset.refl r
  · exact List.subset_cons_self id r

/-- Membership after an insertion. -/
theorem mem_rinsert {x id : Nat} {r : RMap} : x ∈ rinsert id r ↔ x = id ∨ x ∈ r := by
  unfold rinsert; split
  · rename_i hmem
    constructor
    · exact fun h => Or.inr h
    · rintro (rfl | h)
      · exact hmem
      · exact h
  · simp [List.mem_cons]

/-- The inserted id is a member after insertion. -/
theorem mem_rinsert_self {id : Nat} {r : RMap} : id ∈ rinsert id r :=
  mem_rinsert.mpr (Or.inl rfl)

/-- Iterated insertion only grows the reachability map. -/
theorem rinsert_each_subset : ∀ {ids : List Nat} {r : RMap}, r ⊆ rinsert_each ids r := by
  intro ids
  induction ids with
  | nil => intro r; exact List.Subset.refl r
  | cons id ids ih => intro r; exact List.Subset.trans rinsert_subset ih

/-- Membership after iterated insertion. -/
theorem mem_rinsert_each : ∀ {ids : List Nat} {x : Nat} {r : RMap},
    x ∈ rinsert_each ids r ↔ x ∈ ids ∨ x ∈ r := by
  intro ids
  induction ids with
  | nil => intro x r; simp [rinsert_each]
  | cons id ids ih =>
    intro x r
    simp only [rinsert_each, ih, mem_rinsert, List.mem_cons]
    tauto

/-- A successful association-list lookup yields an entry of the list. -/
theorem lookupA_mem {α : Type} : ∀ {l : List (Nat × α)} {n : Nat} {v : α},
    lookupA l n = some v → (n, v) ∈ l := by
  intro l
  induction l with
  | nil => intro n v h; simp [lookupA] at h
  | cons p rest ih =>
    intro n v h
    simp only [lookupA] at h
    split at h
    · rename_i heq
      simp at h
      cases p
      simp_all
    · exact List.mem_cons_of_mem p (ih h)

/-- Monotonicity of the export-driven traversal: a successful run only grows
the reachability map (one statement per traversal function, proved by one
induction on the fuel). -/
theorem traverse_mono_all : ∀ (cx : ctx) (n : Nat),
    (∀ mod_id r b r', traverse_exports cx n mod_id r = .ok (b, r') → r ⊆ r') ∧
    (∀ l r r', traverse_exports_list cx n l r = .ok r' → r ⊆ r') ∧
    (∀ did r r', traverse_def_id cx n did r = .ok r' → r ⊆ r') ∧
    (∀ mod_id m r r', traverse_public_mod cx n mod_id m r = .ok r' → r ⊆ r') ∧
    (∀ m r r', traverse_mod_items cx n m r = .ok r' → r ⊆ r') ∧
    (∀ i r r', traverse_public_item cx n i r = .ok r' → r ⊆ r') ∧
    (∀ tps ms r r', traverse_impl_methods cx n tps ms r = .ok r' → r ⊆ r') ∧
    (∀ tps ms r r', traverse_class_methods cx n tps ms r = .ok r' → r ⊆ r') ∧
    (∀ t r r', traverse_ty cx n t r = .ok r' → r ⊆ r') ∧
    (∀ ts r r', traverse_ty_list cx n ts r = .ok r' → r ⊆ r') ∧
    (∀ b r r', traverse_inline_body cx n b r = .ok r' → r ⊆ r') ∧
    (∀ b r r', traverse_block cx n b r = .ok r' → r ⊆ r') ∧
    (∀ ss r r', traverse_stmts cx n ss r = .ok r' → r ⊆ r') ∧
    (∀ e r r', traverse_expr cx n e r = .ok r' → r ⊆ r') ∧
    (∀ e r r', traverse_expr_children cx n e r = .ok r' → r ⊆ r') ∧
    (∀ es r r', traverse_exprs cx n es r = .ok r' → r ⊆ r') ∧
    (∀ bs r r', traverse_blocks cx n bs r = .ok r' → r ⊆ r') := by
  intro cx n
  induction n with
  | zero =>
    refine ⟨?_, ?_, ?_, ?_, ?_, ?_, ?_, ?_, ?_, ?_, ?_, ?_, ?_, ?_, ?_, ?_, ?_⟩ <;>
      (intros; rename_i h) <;>
      simp [traverse_exports, traverse_exports_list, traverse_def_id,
        traverse_public_mod, traverse_mod_items, traverse_public_item,
        traverse_impl_methods, traverse_class_methods, traverse_ty,
        traverse_ty_list, traverse_inline_body, traverse_block, traverse_stmts,
        traverse_expr, traverse_expr_children, traverse_exprs,
        traverse_blocks] at h
  | succ n ih =>
    obtain ⟨ihexp, ihexpl, ihdef, ihpmod, ihmitems, ihpitem, ihimplm, ihclsm,
      ihty, ihtyl, ihinb, ihblk, ihstmts, ihexpr, ihechld, ihexprs, ihblks⟩ := ih
    refine ⟨?_, ?_, ?_, ?_, ?_, ?_, ?_, ?_, ?_, ?_, ?_, ?_, ?_, ?_, ?_, ?_, ?_⟩
    · -- traverse_exports
      intro mod_id r b r' h
      simp only [traverse_exports] at h
      split at h
      · rw [bind_ok] at h
        obtain ⟨r1, h1, h2⟩ := h
        simp at h2
        exact h2.2 ▸ ihexpl _ _ _ h1
      · simp at h
        exact h.2 ▸ List.Subset.refl r
    · -- traverse_exports_list
      intro l r r' h
      cases l with
      | nil => simp [traverse_exports_list] at h; exact h ▸ List.Subset.refl r
      | cons d ds =>
        simp only [traverse_exports_list] at h
        rw [bind_ok] at h
        obtain ⟨r1, h1, h2⟩ := h
        exact (ihdef _ _ _ h1).trans (ihexpl _ _ _ h2)
    · -- traverse_def_id
      intro did r r' h
      simp only [traverse_def_id] at h
      split at h
      · simp at h; exact h ▸ List.Subset.refl r
      · split at h
        · simp at h; exact h ▸ List.Subset.refl r
        · rename_i item heq
          exact ihpitem _ _ _ h
        · rename_i impl_did heq
          exact ihdef _ _ _ h
        · simp at h; exact h ▸ rinsert_subset
        · simp at h; exact h ▸ rinsert_subset
        · simp at h; exact h ▸ List.Subset.refl r
    · -- traverse_public_mod
      intro mod_id m r r' h
      simp only [traverse_public_mod] at h
      rw [bind_ok] at h
      obtain ⟨⟨b, r1⟩, h1, h2⟩ := h
      simp only at h2
      split at h2
      · exact (ihexp _ _ _ _ h1).trans (ihmitems _ _ _ h2)
      · simp at h2
        exact h2 ▸ ihexp _ _ _ _ h1
    · -- traverse_mod_items
      intro m r r' h
      cases m with
      | nil => simp [traverse_mod_items] at h; exact h ▸ List.Subset.refl r
      | cons i is =>
        simp only [traverse_mod_items] at h
        rw [bind_ok] at h
        obtain ⟨r1, h1, h2⟩ := h
        exact (ihpitem _ _ _ h1).trans (ihmitems _ _ _ h2)
    · -- traverse_public_item
      intro i r r' h
      simp only [traverse_public_item] at h
      split at h
      · simp at h; exact h ▸ List.Subset.refl r
      · cases i with
        | item_mod id m =>
          simp only [Item.id] at h
          exact List.Subset.trans rinsert_subset (ihpmod _ _ _ _ h)
        | item_foreign_mod id fids =>
          simp only [Item.id] at h
          rw [bind_ok] at h
          obtain ⟨⟨b, r1⟩, h1, h2⟩ := h
          simp only at h2
          have hsub := List.Subset.trans (@rinsert_subset id _) (ihexp _ _ _ _ h1)
          split at h2
          · simp at h2
            exact h2 ▸ hsub.trans rinsert_each_subset
          · simp at h2
            exact h2 ▸ hsub
        | item_fn id tps inl blk =>
          simp only [Item.id] at h
          split at h
          · exact List.Subset.trans rinsert_subset (ihinb _ _ _ h)
          · simp at h
            exact h ▸ rinsert_subset
        | item_impl id tps ms_opt =>
          simp only [Item.id] at h
          cases ms_opt with
          | some ms => exact List.Subset.trans rinsert_subset (ihimplm _ _ _ _ h)
          | none =>
            simp at h
            exact h ▸ rinsert_subset
        | item_class id tps dtor ms =>
          simp only [Item.id] at h
          rw [bind_ok] at h
          obtain ⟨r1, h1, h2⟩ := h
          have hsub : r ⊆ r1 := by
            cases dtor with
            | some d =>
              simp only at h1
              split at h1
              · exact List.Subset.trans rinsert_subset
                  (List.Subset.trans rinsert_subset (ihinb _ _ _ h1))
              · simp at h1
                exact h1 ▸ List.Subset.trans rinsert_subset rinsert_subset
            | none =>
              simp at h1
              exact h1 ▸ rinsert_subset
          exact hsub.trans (ihclsm _ _ _ _ h2)
        | item_ty id t =>
          simp only [Item.id] at h
          exact List.Subset.trans rinsert_subset (ihty _ _ _ h)
        | item_const id =>
          simp only [Item.id] at h
          simp at h
          exact h ▸ rinsert_subset
        | item_enum id =>
          simp only [Item.id] at h
          simp at h
          exact h ▸ rinsert_subset
        | item_trait id =>
          simp only [Item.id] at h
          simp at h
          exact h ▸ rinsert_subset
        | item_mac id =>
          simp only [Item.id] at h
          simp at h
    · -- traverse_impl_methods
      intro tps ms r r' h
      cases ms with
      | nil => simp [traverse_impl_methods] at h; exact h ▸ List.Subset.refl r
      | cons m ms =>
        simp only [traverse_impl_methods] at h
        split at h
        · rw [bind_ok] at h
          obtain ⟨r1, h1, h2⟩ := h
          exact (List.Subset.trans rinsert_subset (ihinb _ _ _ h1)).trans
            (ihimplm _ _ _ _ h2)
        · exact ihimplm _ _ _ _ h
    · -- traverse_class_methods
      intro tps ms r r' h
      cases ms with
      | nil => simp [traverse_class_methods] at h; exact h ▸ List.Subset.refl r
      | cons m ms =>
        simp only [traverse_class_methods] at h
        rw [bind_ok] at h
        obtain ⟨r1, h1, h2⟩ := h
        have hsub : r ⊆ r1 := by
          split at h1
          · exact List.Subset.trans rinsert_subset (ihinb _ _ _ h1)
          · simp at h1
            exact h1 ▸ rinsert_subset
        exact hsub.trans (ihclsm _ _ _ _ h2)
    · -- traverse_ty
      intro t r r' h
      simp only [traverse_ty] at h
      split at h
      · simp at h; exact h ▸ List.Subset.refl r
      · cases t with
        | ty_path id types p_id =>
          simp only [Ty.id] at h
          rw [bind_ok] at h
          obtain ⟨r1, h1, h2⟩ := h
          have hsub : r ⊆ r1 := by
            split at h1
            · simp at h1
              exact h1 ▸ rinsert_subset
            · split at h1
              · exact List.Subset.trans rinsert_subset (ihdef _ _ _ h1)
              · simp at h1
                exact h1 ▸ rinsert_subset
            · simp at h1
              exact h1 ▸ rinsert_subset
          exact hsub.trans (ihtyl _ _ _ h2)
        | ty_other id kids =>
          simp only [Ty.id] at h
          exact List.Subset.trans rinsert_subset (ihtyl _ _ _ h)
    · -- traverse_ty_list
      intro ts r r' h
      cases ts with
      | nil => simp [traverse_ty_list] at h; exact h ▸ List.Subset.refl r
      | cons t ts =>
        simp only [traverse_ty_list] at h
        rw [bind_ok] at h
        obtain ⟨r1, h1, h2⟩ := h
        exact (ihty _ _ _ h1).trans (ihtyl _ _ _ h2)
    · -- traverse_inline_body
      intro b r r' h
      simp only [traverse_inline_body] at h
      exact ihblk _ _ _ h
    · -- traverse_block
      intro b r r' h
      cases b with
      | mk stmts =>
        simp only [traverse_block] at h
        exact ihstmts _ _ _ h
    · -- traverse_stmts
      intro ss r r' h
      cases ss with
      | nil => simp [traverse_stmts] at h; exact h ▸ List.Subset.refl r
      | cons s ss =>
        cases s with
        | stmt_expr e =>
          simp only [traverse_stmts] at h
          rw [bind_ok] at h
          obtain ⟨r1, h1, h2⟩ := h
          exact (ihexpr _ _ _ h1).trans (ihstmts _ _ _ h2)
        | stmt_item i =>
          simp only [traverse_stmts] at h
          rw [bind_ok] at h
          obtain ⟨r1, h1, h2⟩ := h
          exact (ihpitem _ _ _ h1).trans (ihstmts _ _ _ h2)
    · -- traverse_expr
      intro e r r' h
      simp only [traverse_expr] at h
      rw [bind_ok] at h
      obtain ⟨r1, h1, h2⟩ := h
      have hsub : r ⊆ r1 := by
        cases e with
        | expr_path id sp =>
          simp only at h1
          split at h1
          · split at h1
            · exact ihdef _ _ _ h1
            · simp at h1
              exact h1 ▸ List.Subset.refl r
          · simp at h1
        | expr_field id kids =>
          simp only at h1
          split at h1
          · exact ihdef _ _ _ h1
          · simp at h1
            exact h1 ▸ List.Subset.refl r
        | expr_other id kids blks =>
          simp at h1
          exact h1 ▸ List.Subset.refl r
      exact hsub.trans (ihechld _ _ _ h2)
    · -- traverse_expr_children
      intro e r r' h
      cases e with
      | expr_path id sp =>
        simp [traverse_expr_children] at h
        exact h ▸ List.Subset.refl r
      | expr_field id kids =>
        simp only [traverse_expr_children] at h
        exact ihexprs _ _ _ h
      | expr_other id kids blks =>
        simp only [traverse_expr_children] at h
        rw [bind_ok] at h
        obtain ⟨r1, h1, h2⟩ := h
        exact (ihexprs _ _ _ h1).trans (ihblks _ _ _ h2)
    · -- traverse_exprs
      intro es r r' h
      cases es with
      | nil => simp [traverse_exprs] at h; exact h ▸ List.Subset.refl r
      | cons e es =>
        simp only [traverse_exprs] at h
        rw [bind_ok] at h
        obtain ⟨r1, h1, h2⟩ := h
        exact (ihexpr _ _ _ h1).trans (ihexprs _ _ _ h2)
    · -- traverse_blocks
      intro bs r r' h
      cases bs with
      | nil => simp [traverse_blocks] at h; exact h ▸ List.Subset.refl r
      | cons b bs =>
        simp only [traverse_blocks] at h
        rw [bind_ok] at h
        obtain ⟨r1, h1, h2⟩ := h
        exact (ihblk _ _ _ h1).trans (ihblks _ _ _ h2)

/-- Monotonicity of `traverse_public_item`. -/
theorem traverse_public_item_mono {cx : ctx} {n : Nat} {i : Item} {r r' : RMap}
    (h : traverse_public_item cx n i r = .ok r') : r ⊆ r' :=
  (traverse_mono_all cx n).2.2.2.2.2.1 i r r' h

/-- Monotonicity of `traverse_def_id`. -/
theorem traverse_def_id_mono {cx : ctx} {n : Nat} {did : def_id} {r r' : RMap}
    (h : traverse_def_id cx n did r = .ok r') : r ⊆ r' :=
  (traverse_mono_all cx n).2.2.1 did r r' h

/-- Monotonicity of `traverse_exports_list`. -/
theorem traverse_exports_list_mono {cx : ctx} {n : Nat} {l : List def_id} {r r' : RMap}
    (h : traverse_exports_list cx n l r = .ok r') : r ⊆ r' :=
  (traverse_mono_all cx n).2.1 l r r' h

/-- Monotonicity of `traverse_inline_body`. -/
theorem traverse_inline_body_mono {cx : ctx} {n : Nat} {b : Block} {r r' : RMap}
    (h : traverse_inline_body cx n b r = .ok r') : r ⊆ r' :=
  (traverse_mono_all cx n).2.2.2.2.2.2.2.2.2.2.1 b r r' h

/-- Monotonicity of the retention sweep. -/
theorem ret_mono_all : ∀ (cx : ctx) (n : Nat),
    (∀ i r r', ret_visit_item cx n i r = .ok r' → r ⊆ r') ∧
    (∀ is r r', ret_visit_items cx n is r = .ok r' → r ⊆ r') ∧
    (∀ ms r r', ret_visit_methods cx n ms r = .ok r' → r ⊆ r') ∧
    (∀ b r r', ret_visit_block cx n b r = .ok r' → r ⊆ r') ∧
    (∀ ss r r', ret_visit_stmts cx n ss r = .ok r' → r ⊆ r') := by
  intro cx n
  induction n with
  | zero =>
    refine ⟨?_, ?_, ?_, ?_, ?_⟩ <;>
      (intros; rename_i h) <;>
      simp [ret_visit_item, ret_visit_items, ret_visit_methods, ret_visit_block,
        ret_visit_stmts] at h
  | succ n ih =>
    obtain ⟨ihi, ihis, ihms, ihb, ihss⟩ := ih
    refine ⟨?_, ?_, ?_, ?_, ?_⟩
    · intro i r r' h
      simp only [ret_visit_item] at h
      rw [bind_ok] at h
      obtain ⟨r1, h1, h2⟩ := h
      have hsub : r ⊆ r1 := by
        cases i with
        | item_mod id items => exact ihis _ _ _ h1
        | item_fn id tps inl blk => exact ihb _ _ _ h1
        | item_impl id tps ms_opt =>
          cases ms_opt with
          | some ms => exact ihms _ _ _ h1
          | none => simp at h1; exact h1 ▸ List.Subset.refl r
        | item_class id tps dtor ms =>
          simp only at h1
          rw [bind_ok] at h1
          obtain ⟨r2, h3, h4⟩ := h1
          have : r ⊆ r2 := ihms _ _ _ h3
          cases dtor with
          | some d => exact this.trans (ihb _ _ _ h4)
          | none => simp at h4; exact h4 ▸ this
        | item_foreign_mod id fids => simp at h1; exact h1 ▸ List.Subset.refl r
        | item_ty id t => simp at h1; exact h1 ▸ List.Subset.refl r
        | item_const id => simp at h1; exact h1 ▸ List.Subset.refl r
        | item_enum id => simp at h1; exact h1 ▸ List.Subset.refl r
        | item_trait id => simp at h1; exact h1 ▸ List.Subset.refl r
        | item_mac id => simp at h1; exact h1 ▸ List.Subset.refl r
      have hsub2 : r1 ⊆ r' := by
        split at h2
        · exact traverse_public_item_mono h2
        · exact traverse_public_item_mono h2
        · simp at h2; exact h2 ▸ List.Subset.refl r1
      exact hsub.trans hsub2
    · intro is r r' h
      cases is with
      | nil => simp [ret_visit_items] at h; exact h ▸ List.Subset.refl r
      | cons i is =>
        simp only [ret_visit_items] at h
        rw [bind_ok] at h
        obtain ⟨r1, h1, h2⟩ := h
        exact (ihi _ _ _ h1).trans (ihis _ _ _ h2)
    · intro ms r r' h
      cases ms with
      | nil => simp [ret_visit_methods] at h; exact h ▸ List.Subset.refl r
      | cons m ms =>
        simp only [ret_visit_methods] at h
        rw [bind_ok] at h
        obtain ⟨r1, h1, h2⟩ := h
        exact (ihb _ _ _ h1).trans (ihms _ _ _ h2)
    · intro b r r' h
      cases b with
      | mk stmts =>
        simp only [ret_visit_block] at h
        exact ihss _ _ _ h
    · intro ss r r' h
      cases ss with
      | nil => simp [ret_visit_stmts] at h; exact h ▸ List.Subset.refl r
      | cons s ss =>
        cases s with
        | stmt_expr e =>
          simp only [ret_visit_stmts] at h
          exact ihss _ _ _ h
        | stmt_item i =>
          simp only [ret_visit_stmts] at h
          rw [bind_ok] at h
          obtain ⟨r1, h1, h2⟩ := h
          exact (ihi _ _ _ h1).trans (ihss _ _ _ h2)

/-- A successful `traverse_public_item` always leaves the item's id in the
map (it is inserted up front, or was already present). -/
theorem traverse_public_item_marks {cx : ctx} {n : Nat} {i : Item} {r r' : RMap}
    (h : traverse_public_item cx n i r = .ok r') : i.id ∈ r' := by
  cases n with
  | zero => simp [traverse_public_item] at h
  | succ n =>
    simp only [traverse_public_item] at h
    split at h
    · rename_i hmem
      simp at h
      exact h ▸ hmem
    · have key : rinsert i.id r ⊆ r' → i.id ∈ r' := fun hs => hs mem_rinsert_self
      apply key
      cases i with
      | item_mod id m =>
        exact (traverse_mono_all cx n).2.2.2.1 _ _ _ _ h
      | item_foreign_mod id fids =>
        simp only [Item.id] at h ⊢
        rw [bind_ok] at h
        obtain ⟨⟨b, r1⟩, h1, h2⟩ := h
        have hsub := (traverse_mono_all cx n).1 _ _ _ _ h1
        simp only at h2
        split at h2
        · simp at h2
          exact h2 ▸ hsub.trans rinsert_each_subset
        · simp at h2
          exact h2 ▸ hsub
      | item_fn id tps inl blk =>
        simp only [Item.id] at h ⊢
        split at h
        · exact traverse_inline_body_mono h
        · simp at h
          exact h ▸ List.Subset.refl _
      | item_impl id tps ms_opt =>
        simp only [Item.id] at h ⊢
        cases ms_opt with
        | some ms => exact (traverse_mono_all cx n).2.2.2.2.2.2.1 _ _ _ _ h
        | none =>
          simp at h
          exact h ▸ List.Subset.refl _
      | item_class id tps dtor ms =>
        simp only [Item.id] at h ⊢
        rw [bind_ok] at h
        obtain ⟨r1, h1, h2⟩ := h
        have hsub : rinsert id r ⊆ r1 := by
          cases dtor with
          | some d =>
            simp only at h1
            split at h1
            · exact List.Subset.trans rinsert_subset (traverse_inline_body_mono h1)
            · simp at h1
              exact h1 ▸ rinsert_subset
          | none =>
            simp at h1
            exact h1 ▸ List.Subset.refl _
        exact hsub.trans ((traverse_mono_all cx n).2.2.2.2.2.2.2.1 _ _ _ _ h2)
      | item_ty id t =>
        exact (traverse_mono_all cx n).2.2.2.2.2.2.2.2.1 _ _ _ h
      | item_const id =>
        simp at h
        exact h ▸ List.Subset.refl _
      | item_enum id =>
        simp at h
        exact h ▸ List.Subset.refl _
      | item_trait id =>
        simp at h
        exact h ▸ List.Subset.refl _
      | item_mac id =>
        simp at h

/-- A successful `traverse_def_id` on a local reference whose item-tree node
is a full item leaves that item's id in the map. -/
theorem traverse_def_id_marks_item {cx : ctx} {n : Nat} {did : def_id} {it : Item}
    {r r' : RMap} (hcrate : did.crate = local_crate)
    (hnode : lookupA cx.items did.node = some (.node_item it))
    (h : traverse_def_id cx n did r = .ok r') : it.id ∈ r' := by
  cases n with
  | zero => simp [traverse_def_id] at h
  | succ n =>
    simp only [traverse_def_id] at h
    rw [if_neg (by simp [hcrate]), hnode] at h
    exact traverse_public_item_marks h

/-- Claim C8: for every definition reference that either names an external
compilation unit or names an identifier with no entry in the local item
tree, the definition resolver `traverse_def_id` is a no-op: it raises no
error, marks nothing, and leaves the reachability map unchanged, and
traversal continues. (The `n + 1` fuel only says the call itself may run.) -/
theorem c8_def_id_benign_absence (cx : ctx) (n : Nat) (did : def_id) (r : RMap)
    (h : did.crate ≠ local_crate ∨ lookupA cx.items did.node = none) :
    traverse_def_id cx (n + 1) did r = .ok r := by
  simp only [traverse_def_id]
  rcases h with h | h
  · rw [if_pos h]
  · by_cases hc : did.crate ≠ local_crate
    · rw [if_pos hc]
    · rw [if_neg hc, h]

/-- Witness for C8: an external reference (crate 1) and a local reference
with no item-tree entry both leave the map unchanged. -/
theorem c8_witness :
    traverse_def_id cx_empty 5 ⟨1, 0⟩ [2] = .ok [2] ∧
    traverse_def_id cx_empty 5 ⟨0, 99⟩ [] = .ok [] :=
  ⟨c8_def_id_benign_absence cx_empty 4 ⟨1, 0⟩ [2] (Or.inl (by decide)),
   c8_def_id_benign_absence cx_empty 4 ⟨0, 99⟩ [] (Or.inr (by rfl))⟩

/-- Claim C10: a definition reference resolving to a method node does not
insert the method's own identifier; the resolver re-dispatches on the
enclosing implementation's definition reference, so such a method is marked
only through the implementation item's own per-method rule. -/
theorem c10_method_redispatch (cx : ctx) (n : Nat) (did impl_did : def_id) (r : RMap)
    (hcrate : did.crate = local_crate)
    (hnode : lookupA cx.items did.node = some (.node_method impl_did)) :
    traverse_def_id cx (n + 1) did r = traverse_def_id cx n impl_did r := by
  simp only [traverse_def_id]
  rw [if_neg (by simp [hcrate]), hnode]

/-- Witness for C10: node 5 is a method node of the impl at node 6; resolving
it dispatches to the impl, whose per-method rule marks the generic method 7. -/
theorem c10_witness :
    traverse_def_id cx_c10 9 ⟨0, 5⟩ [] = traverse_def_id cx_c10 8 ⟨0, 6⟩ [] ∧
    traverse_def_id cx_c10 9 ⟨0, 5⟩ [] = .ok [7, 6] :=
  ⟨c10_method_redispatch cx_c10 8 ⟨0, 5⟩ ⟨0, 6⟩ [] (by rfl) (by rfl), by rfl⟩

/-- Counterexample to claim C1 as stated: the export table maps the crate's
top module to an explicit empty collection, yet the module's child item
(the constant with id 1) is traversed and marked — an explicit empty entry
behaves exactly like an absent entry, because `found_export` is only set
inside the loop over the listed exports. -/
theorem c1_counterexample :
    lookupA cx_c1.exp_map2 crate_node_id = some [] ∧
    find_reachable cx_c1 10 crate_c1 = .ok [1] ∧ (1 : Nat) ∈ ([1] : RMap) :=
  ⟨rfl, rfl, by decide⟩

/-- Claim C1 as amended: absence of an export entry and an explicit empty
entry are treated identically — in both cases every direct child item is
traversed as implicitly exported; only an explicit nonempty entry restricts
traversal to exactly the listed definitions, with no child traversed. (The
fuel offsets account for one unit consumed per nested call.) -/
theorem c1_amended (cx : ctx) (n : Nat) (mod_id : Nat) (m : List Item) (r : RMap) :
    ((lookupA cx.exp_map2 mod_id = none ∨ lookupA cx.exp_map2 mod_id = some []) →
      traverse_public_mod cx (n + 3) mod_id m r = traverse_mod_items cx (n + 2) m r) ∧
    (∀ d ds, lookupA cx.exp_map2 mod_id = some (d :: ds) →
      traverse_public_mod cx (n + 3) mod_id m r =
        traverse_exports_list cx (n + 1) (d :: ds) r) := by
  constructor
  · intro h
    rcases h with h | h <;>
      simp [traverse_public_mod, traverse_exports, traverse_exports_list, h,
        Bind.bind, Except.bind]
  · intro d ds h
    simp only [traverse_public_mod, traverse_exports, h]
    cases hL : traverse_exports_list cx (n + 1) (d :: ds) r with
    | ok r1 => simp [Bind.bind, Except.bind, hL]
    | error e => simp [Bind.bind, Except.bind, hL]

/-- Witness for C1 amended: with an explicit empty entry the child constant
is traversed (same as under absence), and with a nonempty entry listing an
external reference no child is traversed. -/
theorem c1_witness :
    (traverse_public_mod cx_c1 10 0 crate_c1 [] = traverse_mod_items cx_c1 9 crate_c1 []) ∧
    (traverse_public_mod cx_c5 10 0 [.item_const 77] [] =
      traverse_exports_list cx_c5 8 [⟨0, 10⟩] []) :=
  ⟨(c1_amended cx_c1 7 0 crate_c1 []).1 (Or.inr (by rfl)),
   (c1_amended cx_c5 7 0 [.item_const 77] []).2 ⟨0, 10⟩ [] (by rfl)⟩

/-- Counterexample to claim C2 as stated: an impl without type parameters
whose single method (id 2) has no type parameters and no inline attribute;
the engine marks the impl's id but does not mark the method — the insertion
of the method id sits inside the generic-or-inline test, so a method
failing all three conditions is not marked by this rule. -/
theorem c2_counterexample :
    traverse_public_item cx_empty 10 impl_c2 [] = .ok [1] ∧
    (2 : Nat) ∉ ([1] : RMap) :=
  ⟨rfl, by decide⟩

/-- Claim C2 as amended: when the engine processes an impl, a method is
marked reachable and has its body walked exactly when the impl has type
parameters, or the method has type parameters, or the method carries an
inline attribute; a method failing all three conditions is neither marked
nor walked by this rule (the whole loop leaves the map unchanged when every
method fails the test). -/
theorem c2_amended (cx : ctx) (tps : Nat) :
    (∀ n ms r, tps = 0 → (∀ m ∈ ms, m.tps = 0 ∧ m.inl = false) →
      ms.length < n → traverse_impl_methods cx n tps ms r = .ok r) ∧
    (∀ n ms r r' m, m ∈ ms → (tps > 0 ∨ m.tps > 0 ∨ m.inl = true) →
      traverse_impl_methods cx n tps ms r = .ok r' → m.id ∈ r') := by
  constructor
  · intro n ms
    induction ms generalizing n with
    | nil =>
      intro r _ _ hn
      cases n with
      | zero => omega
      | succ n => simp [traverse_impl_methods]
    | cons m ms ih =>
      intro r htps hall hn
      cases n with
      | zero => omega
      | succ n =>
        have hm := hall m (List.mem_cons_self m ms)
        simp only [traverse_impl_methods]
        rw [if_neg (by simp [htps, hm.1, hm.2])]
        exact ih n r htps (fun m' hm' => hall m' (List.mem_cons_of_mem m hm'))
          (by simpa using Nat.lt_of_succ_lt_succ hn)
  · intro n ms
    induction ms generalizing n with
    | nil => intro r r' m hm; simp at hm
    | cons m0 ms ih =>
      intro r r' m hm hcond h
      cases n with
      | zero => simp [traverse_impl_methods] at h
      | succ n =>
        simp only [traverse_impl_methods] at h
        rcases List.mem_cons.mp hm with rfl | hm'
        · rw [if_pos (by rcases hcond with h1 | h1 | h1 <;> simp [h1])] at h
          rw [bind_ok] at h
          obtain ⟨r1, h1, h2⟩ := h
          have : m.id ∈ r1 := traverse_inline_body_mono h1 mem_rinsert_self
          exact (traverse_mono_all cx n).2.2.2.2.2.2.1 _ _ _ _ h2 this
        · split at h
          · rw [bind_ok] at h
            obtain ⟨r1, h1, h2⟩ := h
            exact ih n r1 r' m hm' hcond h2
          · exact ih n r r' m hm' hcond h

/-- Witness for C2 amended: a failing method leaves the map unchanged, and a
generic method of the same impl kind is marked. -/
theorem c2_witness :
    traverse_impl_methods cx_empty 2 0 [.mk 2 0 false (.mk [])] [] = .ok [] ∧
    (Method.mk 3 1 false (.mk [])).id ∈ ([3] : RMap) :=
  ⟨(c2_amended cx_empty 0).1 2 [.mk 2 0 false (.mk [])] [] rfl
      (by intro m hm; simp at hm; simp [hm, Method.tps, Method.inl]) (by decide),
   (c2_amended cx_empty 0).2 5 [.mk 3 1 false (.mk [])] [] [3] (.mk 3 1 false (.mk []))
      (List.mem_cons_self _ _) (Or.inr (Or.inl (by simp [Method.tps]))) (by rfl)⟩

/-- Every method of a class is marked by a successful run of the class
method loop (insertion is unconditional there, unlike for impl methods). -/
theorem traverse_class_methods_marks {cx : ctx} {tps : Nat} :
    ∀ {n : Nat} {ms : List Method} {r r' : RMap},
      traverse_class_methods cx n tps ms r = .ok r' → ∀ m ∈ ms, m.id ∈ r' := by
  intro n ms
  induction ms generalizing n with
  | nil => intro r r' h m hm; simp at hm
  | cons m0 ms ih =>
    intro r r' h m hm
    cases n with
    | zero => simp [traverse_class_methods] at h
    | succ n =>
      simp only [traverse_class_methods] at h
      rw [bind_ok] at h
      obtain ⟨r1, h1, h2⟩ := h
      have hmem0 : m0.id ∈ r1 := by
        split at h1
        · exact traverse_inline_body_mono h1 mem_rinsert_self
        · simp at h1
          exact h1 ▸ mem_rinsert_self
      rcases List.mem_cons.mp hm with rfl | hm'
      · exact (traverse_mono_all cx n).2.2.2.2.2.2.2.1 _ _ _ _ h2 hmem0
      · exact ih h2 m hm'

/-- Claim C6: when the engine processes a record type with a destructor, the
destructor is always marked; its body is walked exactly when the type has
type parameters or the destructor carries an inline attribute; every
ordinary method is unconditionally marked, with its body walked exactly when
the type has type parameters or that method carries an inline attribute.
Parts 1 and 2 state the unconditional markings; parts 3 and 4 pin the
destructor processing (walk vs. no walk); parts 5 and 6 pin the per-method
step. -/
theorem c6_class_rule (cx : ctx) :
    (∀ n id tps d ms r r', id ∉ r →
      traverse_public_item cx n (.item_class id tps (some d) ms) r = .ok r' →
      d.id ∈ r') ∧
    (∀ n id tps dtor ms r r', id ∉ r →
      traverse_public_item cx n (.item_class id tps dtor ms) r = .ok r' →
      ∀ m ∈ ms, m.id ∈ r') ∧
    (∀ n id tps d ms r, id ∉ r → (tps > 0 ∨ d.inl = true) →
      traverse_public_item cx (n + 1) (.item_class id tps (some d) ms) r =
        (do
          let r1 ← traverse_inline_body cx n d.body (rinsert d.id (rinsert id r))
          traverse_class_methods cx n tps ms r1)) ∧
    (∀ n id tps d ms r, id ∉ r → tps = 0 → d.inl = false →
      traverse_public_item cx (n + 1) (.item_class id tps (some d) ms) r =
        traverse_class_methods cx n tps ms (rinsert d.id (rinsert id r))) ∧
    (∀ n tps m ms r, (tps > 0 ∨ m.inl = true) →
      traverse_class_methods cx (n + 1) tps (m :: ms) r =
        (do
          let r1 ← traverse_inline_body cx n m.body (rinsert m.id r)
          traverse_class_methods cx n tps ms r1)) ∧
    (∀ n tps m ms r, tps = 0 → m.inl = false →
      traverse_class_methods cx (n + 1) tps (m :: ms) r =
        traverse_class_methods cx n tps ms (rinsert m.id r)) := by
  refine ⟨?_, ?_, ?_, ?_, ?_, ?_⟩
  · intro n id tps d ms r r' hnew h
    cases n with
    | zero => simp [traverse_public_item] at h
    | succ n =>
      simp only [traverse_public_item] at h
      rw [if_neg (by simpa [Item.id] using hnew)] at h
      simp only [Item.id] at h
      rw [bind_ok] at h
      obtain ⟨r1, h1, h2⟩ := h
      have hd : d.id ∈ r1 := by
        split at h1
        · exact traverse_inline_body_mono h1 mem_rinsert_self
        · simp at h1
          exact h1 ▸ mem_rinsert_self
      exact (traverse_mono_all cx n).2.2.2.2.2.2.2.1 _ _ _ _ h2 hd
  · intro n id tps dtor ms r r' hnew h
    cases n with
    | zero => simp [traverse_public_item] at h
    | succ n =>
      simp only [traverse_public_item] at h
      rw [if_neg (by simpa [Item.id] using hnew)] at h
      simp only [Item.id] at h
      rw [bind_ok] at h
      obtain ⟨r1, h1, h2⟩ := h
      exact traverse_class_methods_marks h2
  · intro n id tps d ms r hnew hcond
    simp only [traverse_public_item]
    rw [if_neg (by simpa [Item.id] using hnew)]
    simp only [Item.id]
    rw [if_pos (by rcases hcond with h1 | h1 <;> simp [h1])]
  · intro n id tps d ms r hnew htps hinl
    simp only [traverse_public_item]
    rw [if_neg (by simpa [Item.id] using hnew)]
    simp only [Item.id]
    rw [if_neg (by simp [htps, hinl])]
    cases hB : traverse_class_methods cx n tps ms (rinsert d.id (rinsert id r)) <;>
      simp [Bind.bind, Except.bind, hB]
  · intro n tps m ms r hcond
    simp only [traverse_class_methods]
    rw [if_pos (by rcases hcond with h1 | h1 <;> simp [h1])]
  · intro n tps m ms r htps hinl
    simp only [traverse_class_methods]
    rw [if_neg (by simp [htps, hinl])]
    cases hB : traverse_class_methods cx n tps ms (rinsert m.id r) <;>
      simp [Bind.bind, Except.bind, hB]

/-- Witness for C6, on a concrete class with a non-inline destructor and two
methods (one inline): the destructor and both methods are marked; the
destructor is not walked (part 4) and the inline method is walked (part 5). -/
theorem c6_witness :
    (2 : Nat) ∈ ([4, 3, 2, 1] : RMap) ∧
    ((Method.mk 3 0 false (.mk [])).id ∈ ([4, 3, 2, 1] : RMap) ∧
      (Method.mk 4 0 true (.mk [])).id ∈ ([4, 3, 2, 1] : RMap)) ∧
    (traverse_public_item cx_empty 10 class_c6 [] =
      traverse_class_methods cx_empty 9 0
        [.mk 3 0 false (.mk []), .mk 4 0 true (.mk [])] (rinsert 2 (rinsert 1 []))) ∧
    (traverse_class_methods cx_empty 9 0 [.mk 4 0 true (.mk [])] [3, 2, 1] =
      (do
        let r1 ← traverse_inline_body cx_empty 8 (Method.mk 4 0 true (.mk [])).body
          (rinsert 4 [3, 2, 1])
        traverse_class_methods cx_empty 8 0 [] r1)) := by
  have hrun : traverse_public_item cx_empty 10 class_c6 [] = .ok [4, 3, 2, 1] := by rfl
  refine ⟨?_, ⟨?_, ?_⟩, ?_, ?_⟩
  · exact (c6_class_rule cx_empty).1 10 1 0 (.mk 2 false (.mk []))
      [.mk 3 0 false (.mk []), .mk 4 0 true (.mk [])] [] [4, 3, 2, 1]
      (by decide) hrun
  · exact (c6_class_rule cx_empty).2.1 10 1 0 (some (.mk 2 false (.mk [])))
      [.mk 3 0 false (.mk []), .mk 4 0 true (.mk [])] [] [4, 3, 2, 1]
      (by decide) hrun (.mk 3 0 false (.mk [])) (List.mem_cons_self _ _)
  · exact (c6_class_rule cx_empty).2.1 10 1 0 (some (.mk 2 false (.mk [])))
      [.mk 3 0 false (.mk []), .mk 4 0 true (.mk [])] [] [4, 3, 2, 1]
      (by decide) hrun (.mk 4 0 true (.mk []))
      (List.mem_cons_of_mem _ (List.mem_cons_self _ _))
  · exact (c6_class_rule cx_empty).2.2.2.1 9 1 0 (.mk 2 false (.mk []))
      [.mk 3 0 false (.mk []), .mk 4 0 true (.mk [])] [] (by decide) rfl
      (by simp [Dtor.inl])
  · exact (c6_class_rule cx_empty).2.2.2.2.1 8 0 (.mk 4 0 true (.mk [])) [] [3, 2, 1]
      (Or.inr (by simp [Method.inl]))

/-- When every named-type reference of a type resolves to a primitive type,
the type walker marks only type-expression node ids: the resulting map stays
inside the visited type nodes plus the starting map. -/
theorem ty_prim_subset (cx : ctx) : ∀ (n : Nat),
    (∀ t r r', all_prim_paths cx t = true →
      traverse_ty cx n t r = .ok r' → r' ⊆ ty_ids t ++ r) ∧
    (∀ ts r r', all_prim_paths_list cx ts = true →
      traverse_ty_list cx n ts r = .ok r' → r' ⊆ tys_ids ts ++ r) := by
  intro n
  induction n with
  | zero =>
    constructor <;> (intros; rename_i h; simp [traverse_ty, traverse_ty_list] at h)
  | succ n ih =>
    obtain ⟨ihty, ihtyl⟩ := ih
    constructor
    · intro t r r' hprim h
      simp only [traverse_ty] at h
      split at h
      · simp at h
        exact h ▸ List.subset_append_right _ r
      · cases t with
        | ty_path id types p_id =>
          simp only [all_prim_paths, Bool.and_eq_true] at hprim
          obtain ⟨hlk, hlist⟩ := hprim
          simp only [Ty.id] at h
          rw [bind_ok] at h
          obtain ⟨r1, h1, h2⟩ := h
          have hr1 : r1 = rinsert id r := by
            split at hlk
            · rename_i heq
              rw [heq] at h1
              simp at h1
              exact h1.symm
            · simp at hlk
          subst hr1
          have hsub := ihtyl types _ _ hlist h2
          intro x hx
          have := hsub hx
          simp only [ty_ids, List.mem_append, List.mem_cons] at *
          rcases this with hx1 | hx2
          · exact Or.inl (Or.inr hx1)
          · rcases mem_rinsert.mp hx2 with rfl | hx3
            · exact Or.inl (Or.inl rfl)
            · exact Or.inr hx3
        | ty_other id kids =>
          simp only [all_prim_paths] at hprim
          simp only [Ty.id] at h
          have hsub := ihtyl kids _ _ hprim h
          intro x hx
          have := hsub hx
          simp only [ty_ids, List.mem_append, List.mem_cons] at *
          rcases this with hx1 | hx2
          · exact Or.inl (Or.inr hx1)
          · rcases mem_rinsert.mp hx2 with rfl | hx3
            · exact Or.inl (Or.inl rfl)
            · exact Or.inr hx3
    · intro ts r r' hprim h
      cases ts with
      | nil =>
        simp [traverse_ty_list] at h
        exact h ▸ List.subset_append_right _ r
      | cons t ts =>
        simp only [all_prim_paths_list, Bool.and_eq_true] at hprim
        obtain ⟨hp1, hp2⟩ := hprim
        simp only [traverse_ty_list] at h
        rw [bind_ok] at h
        obtain ⟨r1, h1, h2⟩ := h
        have hs1 := ihty t _ _ hp1 h1
        have hs2 := ihtyl ts _ _ hp2 h2
        intro x hx
        have := hs2 hx
        simp only [tys_ids, List.mem_append] at *
        rcases this with hx1 | hx2
        · exact Or.inl (Or.inr hx1)
        · rcases List.mem_append.mp (hs1 hx2) with hx3 | hx4
          · exact Or.inl (Or.inl hx3)
          · exact Or.inr hx4

/-- Claim C7: when the type walker visits a named-type reference whose
binding is primitive, it resolves no definition and marks no item — an alias
whose right-hand side references only primitives yields nothing beyond the
alias's own id and the visited type nodes (part 1); a non-primitive binding
is dispatched into the definition resolver / item traversal, and every type
argument is recursed into (part 2); the primitive case also recurses into
every type argument (part 3). -/
theorem c7_primitive_short_circuit (cx : ctx) :
    (∀ n id t r r', all_prim_paths cx t = true →
      traverse_public_item cx n (.item_ty id t) r = .ok r' →
      r' ⊆ id :: (ty_ids t ++ r)) ∧
    (∀ n tid types p_id did r, tid ∉ r →
      lookupA cx.def_map p_id = some (.def_other did) →
      traverse_ty cx (n + 1) (.ty_path tid types p_id) r =
        (do
          let r1 ← traverse_def_id cx n did (rinsert tid r)
          traverse_ty_list cx n types r1)) ∧
    (∀ n tid types p_id r, tid ∉ r →
      lookupA cx.def_map p_id = some .def_prim_ty →
      traverse_ty cx (n + 1) (.ty_path tid types p_id) r =
        traverse_ty_list cx n types (rinsert tid r)) := by
  refine ⟨?_, ?_, ?_⟩
  · intro n id t r r' hprim h
    cases n with
    | zero => simp [traverse_public_item] at h
    | succ n =>
      simp only [traverse_public_item] at h
      split at h
      · simp at h
        intro x hx
        exact List.mem_cons_of_mem _ (List.mem_append_right _ (h ▸ hx))
      · simp only [Item.id] at h
        have hsub := (ty_prim_subset cx n).1 t _ _ hprim h
        intro x hx
        rcases List.mem_append.mp (hsub hx) with hx1 | hx2
        · exact List.mem_cons_of_mem _ (List.mem_append_left _ hx1)
        · rcases mem_rinsert.mp hx2 with rfl | hx3
          · exact List.mem_cons_self _ _
          · exact List.mem_cons_of_mem _ (List.mem_append_right _ hx3)
  · intro n tid types p_id did r hnew hlk
    simp only [traverse_ty]
    rw [if_neg (by simpa [Ty.id] using hnew)]
    simp only [Ty.id, hlk, def_id_of_def]
  · intro n tid types p_id r hnew hlk
    simp only [traverse_ty]
    rw [if_neg (by simpa [Ty.id] using hnew)]
    simp only [Ty.id, hlk]
    cases hB : traverse_ty_list cx n types (rinsert tid r) <;>
      simp [Bind.bind, Except.bind, hB]

/-- Witness for C7: on the alias `item_ty 1 (ty_path 2 [ty_other 3 []] 9)`
with node 9 bound to a primitive, the run marks exactly the alias id and the
two type nodes; with node 9 bound to a local enum, the walker dispatches
into the resolver. -/
theorem c7_witness :
    (([3, 2, 1] : RMap) ⊆ 1 :: (ty_ids (.ty_path 2 [.ty_other 3 []] 9) ++ [])) ∧
    (traverse_ty cx_c7b 10 (.ty_path 2 [] 9) [] =
      (do
        let r1 ← traverse_def_id cx_c7b 9 ⟨0, 50⟩ (rinsert 2 [])
        traverse_ty_list cx_c7b 9 [] r1)) :=
  ⟨(c7_primitive_short_circuit cx_c7).1 10 1 (.ty_path 2 [.ty_other 3 []] 9) [] [3, 2, 1]
      (by rfl) (by rfl),
   (c7_primitive_short_circuit cx_c7b).2.1 9 2 [] 9 ⟨0, 50⟩ [] (by decide) (by rfl)⟩

/-- The retention sweep marks every impl and every destructor-carrying class
among the items it visits. -/
theorem ret_marks_all (cx : ctx) : ∀ (n : Nat),
    (∀ i r r', ret_visit_item cx n i r = .ok r' →
      ∀ j ∈ ret_visited i, ret_target j = true → j.id ∈ r') ∧
    (∀ is r r', ret_visit_items cx n is r = .ok r' →
      ∀ j ∈ ret_visited_list is, ret_target j = true → j.id ∈ r') ∧
    (∀ ms r r', ret_visit_methods cx n ms r = .ok r' →
      ∀ j ∈ ret_visited_methods ms, ret_target j = true → j.id ∈ r') ∧
    (∀ b r r', ret_visit_block cx n b r = .ok r' →
      ∀ j ∈ ret_visited_block b, ret_target j = true → j.id ∈ r') ∧
    (∀ ss r r', ret_visit_stmts cx n ss r = .ok r' →
      ∀ j ∈ ret_visited_stmts ss, ret_target j = true → j.id ∈ r') := by
  intro n
  induction n with
  | zero =>
    refine ⟨?_, ?_, ?_, ?_, ?_⟩ <;>
      (intro a r r' h; simp [ret_visit_item, ret_visit_items, ret_visit_methods,
        ret_visit_block, ret_visit_stmts] at h)
  | succ n ih =>
    obtain ⟨ihi, ihis, ihms, ihb, ihss⟩ := ih
    refine ⟨?_, ?_, ?_, ?_, ?_⟩
    · intro i r r' h j hj htgt
      simp only [ret_visit_item] at h
      rw [bind_ok] at h
      obtain ⟨r1, h1, h2⟩ := h
      cases i with
      | item_mod id items =>
        have hmono : r1 ⊆ r' := by simp at h2; exact h2 ▸ List.Subset.refl r1
        simp only [ret_visited, List.mem_cons] at hj
        rcases hj with rfl | hj'
        · simp [ret_target] at htgt
        · exact hmono (ihis _ _ _ h1 j hj' htgt)
      | item_fn id tps inl blk =>
        have hmono : r1 ⊆ r' := by simp at h2; exact h2 ▸ List.Subset.refl r1
        simp only [ret_visited, List.mem_cons] at hj
        rcases hj with rfl | hj'
        · simp [ret_target] at htgt
        · exact hmono (ihb _ _ _ h1 j hj' htgt)
      | item_impl id tps ms_opt =>
        cases ms_opt with
        | some ms =>
          simp only [ret_visited, List.mem_cons] at hj
          rcases hj with rfl | hj'
          · exact traverse_public_item_marks h2
          · exact traverse_public_item_mono h2 (ihms _ _ _ h1 j hj' htgt)
        | none =>
          simp only [ret_visited, List.mem_cons] at hj
          rcases hj with rfl | hj'
          · exact traverse_public_item_marks h2
          · simp [ret_visited_methods] at hj'
      | item_class id tps dtor ms =>
        rw [bind_ok] at h1
        obtain ⟨r2, h3, h4⟩ := h1
        cases dtor with
        | some d =>
          cases d with
          | mk did dinl dbody =>
            simp only [Dtor.body] at h4
            simp only [ret_visited, List.mem_cons, List.mem_append] at hj
            rcases hj with rfl | hjm | hjd
            · exact traverse_public_item_marks h2
            · exact traverse_public_item_mono h2
                ((ret_mono_all cx n).2.2.2.1 _ _ _ h4 (ihms _ _ _ h3 j hjm htgt))
            · exact traverse_public_item_mono h2 (ihb _ _ _ h4 j hjd htgt)
        | none =>
          simp only at h4
          simp only [ret_visited, List.mem_cons, List.mem_append] at hj
          have hr : r1 ⊆ r' := by simp at h2; exact h2 ▸ List.Subset.refl r1
          rcases hj with rfl | hjm | hjd
          · simp [ret_target] at htgt
          · have hmem := ihms _ _ _ h3 j hjm htgt
            have h4' : r2 = r1 := by simpa using h4
            exact hr (h4' ▸ hmem)
          · simp at hjd
      | item_foreign_mod id fids =>
        simp at h1
        simp only [ret_visited, List.mem_cons] at hj
        rcases hj with rfl | hj'
        · simp [ret_target] at htgt
        · simp at hj'
      | item_ty id t =>
        simp only [ret_visited, List.mem_cons] at hj
        rcases hj with rfl | hj'
        · simp [ret_target] at htgt
        · simp at hj'
      | item_const id =>
        simp only [ret_visited, List.mem_cons] at hj
        rcases hj with rfl | hj'
        · simp [ret_target] at htgt
        · simp at hj'
      | item_enum id =>
        simp only [ret_visited, List.mem_cons] at hj
        rcases hj with rfl | hj'
        · simp [ret_target] at htgt
        · simp at hj'
      | item_trait id =>
        simp only [ret_visited, List.mem_cons] at hj
        rcases hj with rfl | hj'
        · simp [ret_target] at htgt
        · simp at hj'
      | item_mac id =>
        simp only [ret_visited, List.mem_cons] at hj
        rcases hj with rfl | hj'
        · simp [ret_target] at htgt
        · simp at hj'
    · intro is r r' h j hj htgt
      cases is with
      | nil => simp [ret_visited_list] at hj
      | cons i is =>
        simp only [ret_visit_items] at h
        rw [bind_ok] at h
        obtain ⟨r1, h1, h2⟩ := h
        simp only [ret_visited_list, List.mem_append] at hj
        rcases hj with hj1 | hj2
        · exact (ret_mono_all cx n).2.1 _ _ _ h2 (ihi _ _ _ h1 j hj1 htgt)
        · exact ihis _ _ _ h2 j hj2 htgt
    · intro ms r r' h j hj htgt
      cases ms with
      | nil => simp [ret_visited_methods] at hj
      | cons m ms =>
        cases m with
        | mk mid mtps minl mbody =>
          simp only [ret_visit_methods] at h
          rw [bind_ok] at h
          obtain ⟨r1, h1, h2⟩ := h
          simp only [ret_visited_methods, Method.body, List.mem_append] at hj
          rcases hj with hj1 | hj2
          · exact (ret_mono_all cx n).2.2.1 _ _ _ h2 (ihb _ _ _ h1 j hj1 htgt)
          · exact ihms _ _ _ h2 j hj2 htgt
    · intro b r r' h j hj htgt
      cases b with
      | mk stmts =>
        simp only [ret_visit_block] at h
        simp only [ret_visited_block] at hj
        exact ihss _ _ _ h j hj htgt
    · intro ss r r' h j hj htgt
      cases ss with
      | nil => simp [ret_visited_stmts] at hj
      | cons s ss =>
        cases s with
        | stmt_expr e =>
          simp only [ret_visit_stmts] at h
          simp only [ret_visited_stmts] at hj
          exact ihss _ _ _ h j hj htgt
        | stmt_item i =>
          simp only [ret_visit_stmts] at h
          rw [bind_ok] at h
          obtain ⟨r1, h1, h2⟩ := h
          simp only [ret_visited_stmts, List.mem_append] at hj
          rcases hj with hj1 | hj2
          · exact (ret_mono_all cx n).2.2.2.2 _ _ _ h2 (ihi _ _ _ h1 j hj1 htgt)
          · exact ihss _ _ _ h2 j hj2 htgt

/-- Counterexample to claim C3 as stated: `crate_c3` holds an impl (node 3)
nested inside an expression's block in the body of a non-generic,
non-inline function. The export pass never walks that body, and the
retention sweep's visitor stubs out `visit_expr`, so the impl is never
visited: the completed run returns a set without node 3 even though the
impl item occurs in the crate. -/
theorem c3_counterexample :
    (3 : Nat) ∈ items_ids crate_c3 ∧
    find_reachable cx_empty 20 crate_c3 = .ok [1] ∧
    (3 : Nat) ∉ ([1] : RMap) :=
  ⟨by decide, by rfl, by decide⟩

/-- Claim C3 as amended: after a completed `find_reachable` run, every
type-implementation item and every destructor-carrying class among the
items the conservative retention sweep visits — the items reachable from
the crate's top module without passing through an expression, since the
sweep's visitor stubs out expressions — is in the returned set, regardless
of the export table and of any references to them. -/
theorem c3_amended (cx : ctx) (fuel : Nat) (m : List Item) (r : RMap)
    (h : find_reachable cx fuel m = .ok r) :
    ∀ j ∈ ret_visited_list m, ret_target j = true → j.id ∈ r := by
  intro j hj htgt
  simp only [find_reachable] at h
  rw [bind_ok] at h
  obtain ⟨r1, h1, h2⟩ := h
  cases fuel with
  | zero => simp [traverse_all_resources_and_impls] at h2
  | succ n =>
    simp only [traverse_all_resources_and_impls] at h2
    exact (ret_marks_all cx n).2.1 _ _ _ h2 j hj htgt

/-- Witness for C3 amended: an empty-export crate holding a plain impl and a
destructor-carrying class; both are in the returned set. -/
theorem c3_witness :
    (Item.item_impl 4 0 none).id ∈ ([3, 2, 4] : RMap) ∧
    (Item.item_class 2 0 (some (.mk 3 false (.mk []))) []).id ∈ ([3, 2, 4] : RMap) := by
  have hrun : find_reachable cx_c1 20
      [.item_impl 4 0 none, .item_class 2 0 (some (.mk 3 false (.mk []))) []] =
      .ok [3, 2, 4] := by rfl
  constructor
  · exact c3_amended cx_c1 20 _ _ hrun (.item_impl 4 0 none)
      (by simp [ret_visited_list, ret_visited]) (by rfl)
  · exact c3_amended cx_c1 20 _ _ hrun
      (.item_class 2 0 (some (.mk 3 false (.mk []))) [])
      (by simp [ret_visited_list, ret_visited, ret_visited_methods]) (by rfl)

/-- Every error produced by the export-driven traversal is fuel exhaustion,
the macro-item failure, or an unbound-symbol diagnostic carrying the span,
node id and rendering of the offending symbol-reference expression. -/
theorem traverse_diag_all : ∀ (cx : ctx) (n : Nat),
    (∀ mod_id r e, traverse_exports cx n mod_id r = .error e → diag_ok e) ∧
    (∀ l r e, traverse_exports_list cx n l r = .error e → diag_ok e) ∧
    (∀ did r e, traverse_def_id cx n did r = .error e → diag_ok e) ∧
    (∀ mod_id m r e, traverse_public_mod cx n mod_id m r = .error e → diag_ok e) ∧
    (∀ m r e, traverse_mod_items cx n m r = .error e → diag_ok e) ∧
    (∀ i r e, traverse_public_item cx n i r = .error e → diag_ok e) ∧
    (∀ tps ms r e, traverse_impl_methods cx n tps ms r = .error e → diag_ok e) ∧
    (∀ tps ms r e, traverse_class_methods cx n tps ms r = .error e → diag_ok e) ∧
    (∀ t r e, traverse_ty cx n t r = .error e → diag_ok e) ∧
    (∀ ts r e, traverse_ty_list cx n ts r = .error e → diag_ok e) ∧
    (∀ b r e, traverse_inline_body cx n b r = .error e → diag_ok e) ∧
    (∀ b r e, traverse_block cx n b r = .error e → diag_ok e) ∧
    (∀ ss r e, traverse_stmts cx n ss r = .error e → diag_ok e) ∧
    (∀ ex r e, traverse_expr cx n ex r = .error e → diag_ok e) ∧
    (∀ ex r e, traverse_expr_children cx n ex r = .error e → diag_ok e) ∧
    (∀ es r e, traverse_exprs cx n es r = .error e → diag_ok e) ∧
    (∀ bs r e, traverse_blocks cx n bs r = .error e → diag_ok e) := by
  intro cx n
  induction n with
  | zero =>
    refine ⟨?_, ?_, ?_, ?_, ?_, ?_, ?_, ?_, ?_, ?_, ?_, ?_, ?_, ?_, ?_, ?_, ?_⟩ <;>
      (intros; rename_i h;
        simp [traverse_exports, traverse_exports_list, traverse_def_id,
          traverse_public_mod, traverse_mod_items, traverse_public_item,
          traverse_impl_methods, traverse_class_methods, traverse_ty,
          traverse_ty_list, traverse_inline_body, traverse_block, traverse_stmts,
          traverse_expr, traverse_expr_children, traverse_exprs,
          traverse_blocks] at h) <;>
      (rw [← h]; trivial)
  | succ n ih =>
    obtain ⟨ihexp, ihexpl, ihdef, ihpmod, ihmitems, ihpitem, ihimplm, ihclsm,
      ihty, ihtyl, ihinb, ihblk, ihstmts, ihexpr, ihechld, ihexprs, ihblks⟩ := ih
    refine ⟨?_, ?_, ?_, ?_, ?_, ?_, ?_, ?_, ?_, ?_, ?_, ?_, ?_, ?_, ?_, ?_, ?_⟩
    · intro mod_id r e h
      simp only [traverse_exports] at h
      split at h
      · rw [bind_error] at h
        rcases h with h | ⟨a, h1, h2⟩
        · exact ihexpl _ _ _ h
        · simp at h2
      · simp at h
    · intro l r e h
      cases l with
      | nil => simp [traverse_exports_list] at h
      | cons d ds =>
        simp only [traverse_exports_list] at h
        rw [bind_error] at h
        rcases h with h | ⟨a, h1, h2⟩
        · exact ihdef _ _ _ h
        · exact ihexpl _ _ _ h2
    · intro did r e h
      simp only [traverse_def_id] at h
      split at h
      · simp at h
      · split at h
        · simp at h
        · exact ihpitem _ _ _ h
        · exact ihdef _ _ _ h
        · simp at h
        · simp at h
        · simp at h
    · intro mod_id m r e h
      simp only [traverse_public_mod] at h
      rw [bind_error] at h
      rcases h with h | ⟨⟨b, r1⟩, h1, h2⟩
      · exact ihexp _ _ _ h
      · simp only at h2
        split at h2
        · exact ihmitems _ _ _ h2
        · simp at h2
    · intro m r e h
      cases m with
      | nil => simp [traverse_mod_items] at h
      | cons i is =>
        simp only [traverse_mod_items] at h
        rw [bind_error] at h
        rcases h with h | ⟨a, h1, h2⟩
        · exact ihpitem _ _ _ h
        · exact ihmitems _ _ _ h2
    · intro i r e h
      simp only [traverse_public_item] at h
      split at h
      · simp at h
      · cases i with
        | item_mod id m => exact ihpmod _ _ _ _ h
        | item_foreign_mod id fids =>
          simp only [Item.id] at h
          rw [bind_error] at h
          rcases h with h | ⟨⟨b, r1⟩, h1, h2⟩
          · exact ihexp _ _ _ h
          · simp only at h2
            split at h2 <;> simp at h2
        | item_fn id tps inl blk =>
          simp only [Item.id] at h
          split at h
          · exact ihinb _ _ _ h
          · simp at h
        | item_impl id tps ms_opt =>
          simp only [Item.id] at h
          cases ms_opt with
          | some ms => exact ihimplm _ _ _ _ h
          | none => simp at h
        | item_class id tps dtor ms =>
          simp only [Item.id] at h
          rw [bind_error] at h
          rcases h with h | ⟨r1, h1, h2⟩
          · cases dtor with
            | some d =>
              simp only at h
              split at h
              · exact ihinb _ _ _ h
              · simp at h
            | none => simp at h
          · exact ihclsm _ _ _ _ h2
        | item_ty id t => exact ihty _ _ _ h
        | item_const id => simp at h
        | item_enum id => simp at h
        | item_trait id => simp at h
        | item_mac id =>
          simp only [Item.id] at h
          simp at h
          rw [← h]
          trivial
    · intro tps ms r e h
      cases ms with
      | nil => simp [traverse_impl_methods] at h
      | cons m ms =>
        simp only [traverse_impl_methods] at h
        split at h
        · rw [bind_error] at h
          rcases h with h | ⟨a, h1, h2⟩
          · exact ihinb _ _ _ h
          · exact ihimplm _ _ _ _ h2
        · exact ihimplm _ _ _ _ h
    · intro tps ms r e h
      cases ms with
      | nil => simp [traverse_class_methods] at h
      | cons m ms =>
        simp only [traverse_class_methods] at h
        rw [bind_error] at h
        rcases h with h | ⟨a, h1, h2⟩
        · split at h
          · exact ihinb _ _ _ h
          · simp at h
        · exact ihclsm _ _ _ _ h2
    · intro t r e h
      simp only [traverse_ty] at h
      split at h
      · simp at h
      · cases t with
        | ty_path id types p_id =>
          simp only [Ty.id] at h
          rw [bind_error] at h
          rcases h with h | ⟨r1, h1, h2⟩
          · split at h
            · simp at h
            · split at h
              · exact ihdef _ _ _ h
              · simp at h
            · simp at h
          · exact ihtyl _ _ _ h2
        | ty_other id kids => exact ihtyl _ _ _ h
    · intro ts r e h
      cases ts with
      | nil => simp [traverse_ty_list] at h
      | cons t ts =>
        simp only [traverse_ty_list] at h
        rw [bind_error] at h
        rcases h with h | ⟨a, h1, h2⟩
        · exact ihty _ _ _ h
        · exact ihtyl _ _ _ h2
    · intro b r e h
      simp only [traverse_inline_body] at h
      exact ihblk _ _ _ h
    · intro b r e h
      cases b with
      | mk stmts =>
        simp only [traverse_block] at h
        exact ihstmts _ _ _ h
    · intro ss r e h
      cases ss with
      | nil => simp [traverse_stmts] at h
      | cons s ss =>
        cases s with
        | stmt_expr ex =>
          simp only [traverse_stmts] at h
          rw [bind_error] at h
          rcases h with h | ⟨a, h1, h2⟩
          · exact ihexpr _ _ _ h
          · exact ihstmts _ _ _ h2
        | stmt_item i =>
          simp only [traverse_stmts] at h
          rw [bind_error] at h
          rcases h with h | ⟨a, h1, h2⟩
          · exact ihpitem _ _ _ h
          · exact ihstmts _ _ _ h2
    · intro ex r e h
      simp only [traverse_expr] at h
      rw [bind_error] at h
      rcases h with h | ⟨a, h1, h2⟩
      · cases ex with
        | expr_path id sp =>
          simp only at h
          split at h
          · split at h
            · exact ihdef _ _ _ h
            · simp at h
          · simp at h
            rw [← h]
            simp [diag_ok]
        | expr_field id kids =>
          simp only at h
          split at h
          · exact ihdef _ _ _ h
          · simp at h
        | expr_other id kids blks => simp at h
      · exact ihechld _ _ _ h2
    · intro ex r e h
      cases ex with
      | expr_path id sp => simp [traverse_expr_children] at h
      | expr_field id kids =>
        simp only [traverse_expr_children] at h
        exact ihexprs _ _ _ h
      | expr_other id kids blks =>
        simp only [traverse_expr_children] at h
        rw [bind_error] at h
        rcases h with h | ⟨a, h1, h2⟩
        · exact ihexprs _ _ _ h
        · exact ihblks _ _ _ h2
    · intro es r e h
      cases es with
      | nil => simp [traverse_exprs] at h
      | cons ex es =>
        simp only [traverse_exprs] at h
        rw [bind_error] at h
        rcases h with h | ⟨a, h1, h2⟩
        · exact ihexpr _ _ _ h
        · exact ihexprs _ _ _ h2
    · intro bs r e h
      cases bs with
      | nil => simp [traverse_blocks] at h
      | cons b bs =>
        simp only [traverse_blocks] at h
        rw [bind_error] at h
        rcases h with h | ⟨a, h1, h2⟩
        · exact ihblk _ _ _ h
        · exact ihblks _ _ _ h2

/-- Every error produced by the retention sweep also has one of the allowed
shapes. -/
theorem ret_diag_all : ∀ (cx : ctx) (n : Nat),
    (∀ i r e, ret_visit_item cx n i r = .error e → diag_ok e) ∧
    (∀ is r e, ret_visit_items cx n is r = .error e → diag_ok e) ∧
    (∀ ms r e, ret_visit_methods cx n ms r = .error e → diag_ok e) ∧
    (∀ b r e, ret_visit_block cx n b r = .error e → diag_ok e) ∧
    (∀ ss r e, ret_visit_stmts cx n ss r = .error e → diag_ok e) := by
  intro cx n
  induction n with
  | zero =>
    refine ⟨?_, ?_, ?_, ?_, ?_⟩ <;>
      (intros; rename_i h;
        simp [ret_visit_item, ret_visit_items, ret_visit_methods, ret_visit_block,
          ret_visit_stmts] at h) <;>
      (rw [← h]; trivial)
  | succ n ih =>
    obtain ⟨ihi, ihis, ihms, ihb, ihss⟩ := ih
    have hfin : ∀ (i : Item) (r1 : RMap) e,
        (match i with
          | .item_class _ _ (some _) _ => traverse_public_item cx n i r1
          | .item_impl _ _ _ => traverse_public_item cx n i r1
          | _ => Except.ok r1) = .error e → diag_ok e := by
      intro i r1 e h
      split at h
      · exact (traverse_diag_all cx n).2.2.2.2.2.1 _ _ _ h
      · exact (traverse_diag_all cx n).2.2.2.2.2.1 _ _ _ h
      · simp at h
    refine ⟨?_, ?_, ?_, ?_, ?_⟩
    · intro i r e h
      simp only [ret_visit_item] at h
      rw [bind_error] at h
      rcases h with h | ⟨r1, h1, h2⟩
      · cases i with
        | item_mod id items => exact ihis _ _ _ h
        | item_fn id tps inl blk => exact ihb _ _ _ h
        | item_impl id tps ms_opt =>
          cases ms_opt with
          | some ms => exact ihms _ _ _ h
          | none => simp at h
        | item_class id tps dtor ms =>
          rw [bind_error] at h
          rcases h with h | ⟨r2, h3, h4⟩
          · exact ihms _ _ _ h
          · cases dtor with
            | some d => exact ihb _ _ _ h4
            | none => simp at h4
        | item_foreign_mod id fids => simp at h
        | item_ty id t => simp at h
        | item_const id => simp at h
        | item_enum id => simp at h
        | item_trait id => simp at h
        | item_mac id => simp at h
      · exact hfin i r1 e h2
    · intro is r e h
      cases is with
      | nil => simp [ret_visit_items] at h
      | cons i is =>
        simp only [ret_visit_items] at h
        rw [bind_error] at h
        rcases h with h | ⟨a, h1, h2⟩
        · exact ihi _ _ _ h
        · exact ihis _ _ _ h2
    · intro ms r e h
      cases ms with
      | nil => simp [ret_visit_methods] at h
      | cons m ms =>
        simp only [ret_visit_methods] at h
        rw [bind_error] at h
        rcases h with h | ⟨a, h1, h2⟩
        · exact ihb _ _ _ h
        · exact ihms _ _ _ h2
    · intro b r e h
      cases b with
      | mk stmts =>
        simp only [ret_visit_block] at h
        exact ihss _ _ _ h
    · intro ss r e h
      cases ss with
      | nil => simp [ret_visit_stmts] at h
      | cons s ss =>
        cases s with
        | stmt_expr ex =>
          simp only [ret_visit_stmts] at h
          exact ihss _ _ _ h
        | stmt_item i =>
          simp only [ret_visit_stmts] at h
          rw [bind_error] at h
          rcases h with h | ⟨a, h1, h2⟩
          · exact ihi _ _ _ h
          · exact ihss _ _ _ h2

/-- Every error of a whole `find_reachable` run is fuel exhaustion, the
macro-item failure, or an unbound-symbol diagnostic carrying the offending
expression's span, node id and rendering. -/
theorem find_reachable_diag {cx : ctx} {fuel : Nat} {m : List Item} {e : Err}
    (h : find_reachable cx fuel m = .error e) : diag_ok e := by
  simp only [find_reachable] at h
  rw [bind_error] at h
  rcases h with h | ⟨r1, h1, h2⟩
  · exact (traverse_diag_all cx fuel).2.2.2.1 _ _ _ _ h
  · cases fuel with
    | zero =>
      simp [traverse_all_resources_and_impls] at h2
      rw [← h2]
      trivial
    | succ n =>
      simp only [traverse_all_resources_and_impls] at h2
      exact (ret_diag_all cx n).2.1 _ _ _ h2

/-- Claim C4 as amended: on every run that does not exhaust its fuel (i.e.
on every input on which the analysis terminates), the pass either completes
with a full reachability map or aborts with one of exactly two
diagnostics — the unbound-symbol diagnostic, which carries the offending
node's span, its id, and the offending symbol-reference expression itself
as the rendering, or the unexpanded-macro-item failure; no partial map is
ever produced (an abort returns no map at all). The second and third parts
exhibit the two aborts: a walked body holding a symbol reference absent
from the resolution table aborts with its span (99), id (8) and rendering,
and an unexpanded macro-invocation item aborts the item traversal. -/
theorem c4_amended :
    (∀ (cx : ctx) (fuel : Nat) (m : List Item),
      find_reachable cx fuel m ≠ .error .out_of_fuel →
      (∃ r, find_reachable cx fuel m = .ok r) ∨
      (∃ sp id, find_reachable cx fuel m = .error (.span_bug sp id (.expr_path id sp))) ∨
      find_reachable cx fuel m = .error .mac_item) ∧
    find_reachable cx_empty 10 crate_unbound = .error (.span_bug 99 8 (.expr_path 8 99)) ∧
    find_reachable cx_empty 10 crate_mac = .error .mac_item := by
  refine ⟨?_, by rfl, by rfl⟩
  intro cx fuel m hne
  cases hres : find_reachable cx fuel m with
  | ok r => exact Or.inl ⟨r, rfl⟩
  | error e =>
    have hd := find_reachable_diag hres
    cases e with
    | out_of_fuel => exact absurd hres hne
    | mac_item => exact Or.inr (Or.inr rfl)
    | span_bug sp id ex =>
      simp only [diag_ok] at hd
      subst hd
      exact Or.inr (Or.inl ⟨sp, id, rfl⟩)

/-- Witness for C4 amended: a run that completes (the explicit-empty-export
crate of `cx_c1`) satisfies the trichotomy through its first disjunct. -/
theorem c4_witness :
    (∃ r, find_reachable cx_c1 10 crate_c1 = .ok r) ∨
    (∃ sp id, find_reachable cx_c1 10 crate_c1 = .error (.span_bug sp id (.expr_path id sp))) ∨
    find_reachable cx_c1 10 crate_c1 = .error .mac_item :=
  c4_amended.1 cx_c1 10 crate_c1
    (by rw [show find_reachable cx_c1 10 crate_c1 = .ok [1] from rfl]; simp)

/-- A bind whose scrutinee exhausts the fuel exhausts the fuel. -/
theorem oof_bind {α β : Type} (k : α → Except Err β) (x : Except Err α)
    (hx : x = .error .out_of_fuel) : (x >>= k) = .error .out_of_fuel := by
  rw [hx]; rfl

/-- Counterexample to claim C4 as stated: the input `cx_c4` (an item tree
whose node 5 is a method node redirecting to node 5 itself, exported from
the crate's empty top module) contains no unbound symbol reference and no
macro-invocation item, yet the pass neither completes nor aborts with a
diagnostic: it chases the method redirection forever (every fuel is
exhausted), so "for all other inputs the pass completes" is false. -/
theorem c4_counterexample : diverges cx_c4 [] := by
  have cyc : ∀ (n : Nat) (r : RMap),
      traverse_def_id cx_c4 n ⟨0, 5⟩ r = .error .out_of_fuel := by
    intro n
    induction n with
    | zero => intro r; rfl
    | succ n ih =>
      intro r
      have step : traverse_def_id cx_c4 (n + 1) ⟨0, 5⟩ r =
          traverse_def_id cx_c4 n ⟨0, 5⟩ r := rfl
      rw [step, ih]
  intro fuel
  match fuel with
  | 0 => rfl
  | 1 => rfl
  | 2 => rfl
  | (j + 3) =>
    exact oof_bind _ _ (oof_bind _ _ (oof_bind _ _ (oof_bind _ _ (cyc j []))))

/-- Counterexample to claim C9 as stated: the item tree of `cx_c9` maps
nodes 6 and 7 to method nodes redirecting to each other, and node 6 is
exported; this finite input makes the resolver bounce between the two
method nodes forever — `find_reachable` does not terminate on every finite
input, because `traverse_def_id`'s method-node redirection is not protected
by the already-marked guard. -/
theorem c9_counterexample : diverges cx_c9 [] := by
  have cyc : ∀ (n : Nat) (r : RMap),
      traverse_def_id cx_c9 n ⟨0, 6⟩ r = .error .out_of_fuel ∧
      traverse_def_id cx_c9 n ⟨0, 7⟩ r = .error .out_of_fuel := by
    intro n
    induction n with
    | zero => intro r; exact ⟨rfl, rfl⟩
    | succ n ih =>
      intro r
      constructor
      · have step : traverse_def_id cx_c9 (n + 1) ⟨0, 6⟩ r =
            traverse_def_id cx_c9 n ⟨0, 7⟩ r := rfl
        rw [step, (ih r).2]
      · have step : traverse_def_id cx_c9 (n + 1) ⟨0, 7⟩ r =
            traverse_def_id cx_c9 n ⟨0, 6⟩ r := rfl
        rw [step, (ih r).1]
  intro fuel
  match fuel with
  | 0 => rfl
  | 1 => rfl
  | 2 => rfl
  | (j + 3) =>
    exact oof_bind _ _ (oof_bind _ _ (oof_bind _ _ (oof_bind _ _ (cyc j []).1)))

/-- Monotonicity of `traverse_expr_children`. -/
theorem traverse_expr_children_mono {cx : ctx} {n : Nat} {e : Expr} {r r' : RMap}
    (h : traverse_expr_children cx n e r = .ok r') : r ⊆ r' :=
  (traverse_mono_all cx n).2.2.2.2.2.2.2.2.2.2.2.2.2.2.1 e r r' h

/-- Monotonicity of `traverse_stmts`. -/
theorem traverse_stmts_mono {cx : ctx} {n : Nat} {ss : List Stmt} {r r' : RMap}
    (h : traverse_stmts cx n ss r = .ok r') : r ⊆ r' :=
  (traverse_mono_all cx n).2.2.2.2.2.2.2.2.2.2.2.2.1 ss r r' h

/-- Monotonicity of `traverse_exprs`. -/
theorem traverse_exprs_mono {cx : ctx} {n : Nat} {es : List Expr} {r r' : RMap}
    (h : traverse_exprs cx n es r = .ok r') : r ⊆ r' :=
  (traverse_mono_all cx n).2.2.2.2.2.2.2.2.2.2.2.2.2.2.2.1 es r r' h

/-- Monotonicity of `traverse_blocks`. -/
theorem traverse_blocks_mono {cx : ctx} {n : Nat} {bs : List Block} {r r' : RMap}
    (h : traverse_blocks cx n bs r = .ok r') : r ⊆ r' :=
  (traverse_mono_all cx n).2.2.2.2.2.2.2.2.2.2.2.2.2.2.2.2 bs r r' h

/-- Monotonicity of `traverse_class_methods`. -/
theorem traverse_class_methods_mono {cx : ctx} {n : Nat} {tps : Nat} {ms : List Method}
    {r r' : RMap} (h : traverse_class_methods cx n tps ms r = .ok r') : r ⊆ r' :=
  (traverse_mono_all cx n).2.2.2.2.2.2.2.1 tps ms r r' h

/-- Monotonicity of `traverse_mod_items`. -/
theorem traverse_mod_items_mono {cx : ctx} {n : Nat} {m : List Item} {r r' : RMap}
    (h : traverse_mod_items cx n m r = .ok r') : r ⊆ r' :=
  (traverse_mono_all cx n).2.2.2.2.1 m r r' h

/-- If a symbol reference with id `pid` occurs in a walked position of a
body (not under a nested item), and `pid` resolves in the def map to a local
definition whose item-tree node is the item `gitem`, then every successful
walk of that body marks `gitem`: the inline-body walker visits every such
position and feeds the resolved reference to the resolver. -/
theorem occurs_marks_all (cx : ctx) (pid : Nat) (gdid : def_id) (gitem : Item)
    (hdm : lookupA cx.def_map pid = some (.def_other gdid))
    (hgc : gdid.crate = local_crate)
    (hgit : lookupA cx.items gdid.node = some (.node_item gitem)) : ∀ (n : Nat),
    (∀ b r r', path_in_block pid b = true →
      traverse_inline_body cx n b r = .ok r' → gitem.id ∈ r') ∧
    (∀ b r r', path_in_block pid b = true →
      traverse_block cx n b r = .ok r' → gitem.id ∈ r') ∧
    (∀ ss r r', path_in_stmts pid ss = true →
      traverse_stmts cx n ss r = .ok r' → gitem.id ∈ r') ∧
    (∀ e r r', path_in_expr pid e = true →
      traverse_expr cx n e r = .ok r' → gitem.id ∈ r') ∧
    (∀ e r r', path_in_children pid e = true →
      traverse_expr_children cx n e r = .ok r' → gitem.id ∈ r') ∧
    (∀ es r r', path_in_exprs pid es = true →
      traverse_exprs cx n es r = .ok r' → gitem.id ∈ r') ∧
    (∀ bs r r', path_in_blocks pid bs = true →
      traverse_blocks cx n bs r = .ok r' → gitem.id ∈ r') := by
  intro n
  induction n with
  | zero =>
    refine ⟨?_, ?_, ?_, ?_, ?_, ?_, ?_⟩ <;>
      (intro a r r' hp h;
        simp [traverse_inline_body, traverse_block, traverse_stmts, traverse_expr,
          traverse_expr_children, traverse_exprs, traverse_blocks] at h)
  | succ n ih =>
    obtain ⟨ihinb, ihblk, ihss, ihe, ihchld, ihes, ihbs⟩ := ih
    refine ⟨?_, ?_, ?_, ?_, ?_, ?_, ?_⟩
    · intro b r r' hp h
      simp only [traverse_inline_body] at h
      exact ihblk b r r' hp h
    · intro b r r' hp h
      cases b with
      | mk stmts =>
        simp only [traverse_block] at h
        simp only [path_in_block] at hp
        exact ihss stmts r r' hp h
    · intro ss r r' hp h
      cases ss with
      | nil => simp [path_in_stmts] at hp
      | cons s ss =>
        cases s with
        | stmt_expr e =>
          simp only [path_in_stmts, Bool.or_eq_true] at hp
          simp only [traverse_stmts] at h
          rw [bind_ok] at h
          obtain ⟨r1, h1, h2⟩ := h
          rcases hp with hp | hp
          · exact traverse_stmts_mono h2 (ihe e r r1 hp h1)
          · exact ihss ss r1 r' hp h2
        | stmt_item i =>
          simp only [path_in_stmts] at hp
          simp only [traverse_stmts] at h
          rw [bind_ok] at h
          obtain ⟨r1, h1, h2⟩ := h
          exact ihss ss r1 r' hp h2
    · intro e r r' hp h
      simp only [traverse_expr] at h
      rw [bind_ok] at h
      obtain ⟨r1, h1, h2⟩ := h
      cases e with
      | expr_path id sp =>
        simp only [path_in_expr, beq_iff_eq] at hp
        subst hp
        simp only at h1
        rw [hdm] at h1
        simp only [def_id_of_def] at h1
        exact traverse_expr_children_mono h2
          (traverse_def_id_marks_item hgc hgit h1)
      | expr_field id kids =>
        simp only [path_in_expr] at hp
        exact ihchld (.expr_field id kids) r1 r'
          (by simpa [path_in_children] using hp) h2
      | expr_other id kids blks =>
        simp only [path_in_expr] at hp
        exact ihchld (.expr_other id kids blks) r1 r'
          (by simpa [path_in_children] using hp) h2
    · intro e r r' hp h
      cases e with
      | expr_path id sp => simp [path_in_children] at hp
      | expr_field id kids =>
        simp only [path_in_children] at hp
        simp only [traverse_expr_children] at h
        exact ihes kids r r' hp h
      | expr_other id kids blks =>
        simp only [path_in_children, Bool.or_eq_true] at hp
        simp only [traverse_expr_children] at h
        rw [bind_ok] at h
        obtain ⟨r1, h1, h2⟩ := h
        rcases hp with hp | hp
        · exact traverse_blocks_mono h2 (ihes kids r r1 hp h1)
        · exact ihbs blks r1 r' hp h2
    · intro es r r' hp h
      cases es with
      | nil => simp [path_in_exprs] at hp
      | cons e es =>
        simp only [path_in_exprs, Bool.or_eq_true] at hp
        simp only [traverse_exprs] at h
        rw [bind_ok] at h
        obtain ⟨r1, h1, h2⟩ := h
        rcases hp with hp | hp
        · exact traverse_exprs_mono h2 (ihe e r r1 hp h1)
        · exact ihes es r1 r' hp h2
    · intro bs r r' hp h
      cases bs with
      | nil => simp [path_in_blocks] at hp
      | cons b bs =>
        simp only [path_in_blocks, Bool.or_eq_true] at hp
        simp only [traverse_blocks] at h
        rw [bind_ok] at h
        obtain ⟨r1, h1, h2⟩ := h
        rcases hp with hp | hp
        · exact traverse_blocks_mono h2 (ihblk b r r1 hp h1)
        · exact ihbs bs r1 r' hp h2

/-- A boolean inequality test yields a propositional inequality. -/
theorem ne_of_bnot {a b : Nat} (h : (!(a == b)) = true) : a ≠ b := by
  simpa using h

/-- Processing an export list marks the item of every listed local
definition reference that resolves to a full item node. -/
theorem exports_list_marks {cx : ctx} {fdid : def_id} {fitem : Item}
    (hfc : fdid.crate = local_crate)
    (hfit : lookupA cx.items fdid.node = some (.node_item fitem)) :
    ∀ {n : Nat} {l : List def_id} {r r' : RMap}, fdid ∈ l →
      traverse_exports_list cx n l r = .ok r' → fitem.id ∈ r' := by
  intro n l
  induction l generalizing n with
  | nil => intro r r' hmem; simp at hmem
  | cons d ds ih =>
    intro r r' hmem h
    cases n with
    | zero => simp [traverse_exports_list] at h
    | succ n =>
      simp only [traverse_exports_list] at h
      rw [bind_ok] at h
      obtain ⟨r1, h1, h2⟩ := h
      rcases List.mem_cons.mp hmem with rfl | hmem'
      · exact traverse_exports_list_mono h2 (traverse_def_id_marks_item hfc hfit h1)
      · exact ih hmem' h2

/-- The key transitivity step for generic/inline reachability: fix a
function id `fid` whose every occurrence among insertable ids (crate and
item tree) is as a generic-or-inline function whose body holds the symbol
reference `pid`, resolving to the local item `gitem`. Then any traversal
step that newly inserts `fid` must have gone through
`traverse_public_item` on such a function, which walks the body and
thereby marks `gitem`: if a run starts without `fid` and ends with it,
it ends with `gitem.id` as well. -/
theorem est_all (cx : ctx) (fid pid : Nat) (gdid : def_id) (gitem : Item)
    (hdm : lookupA cx.def_map pid = some (.def_other gdid))
    (hgc : gdid.crate = local_crate)
    (hgit : lookupA cx.items gdid.node = some (.node_item gitem))
    (hmap : cx.items.all (fun p => f_ok_node fid pid p.2) = true) : ∀ (n : Nat),
    (∀ mod_id r b r', traverse_exports cx n mod_id r = .ok (b, r') →
      fid ∉ r → fid ∈ r' → gitem.id ∈ r') ∧
    (∀ l r r', traverse_exports_list cx n l r = .ok r' →
      fid ∉ r → fid ∈ r' → gitem.id ∈ r') ∧
    (∀ did r r', traverse_def_id cx n did r = .ok r' →
      fid ∉ r → fid ∈ r' → gitem.id ∈ r') ∧
    (∀ mod_id m r r', f_ok_items fid pid m = true →
      traverse_public_mod cx n mod_id m r = .ok r' →
      fid ∉ r → fid ∈ r' → gitem.id ∈ r') ∧
    (∀ m r r', f_ok_items fid pid m = true →
      traverse_mod_items cx n m r = .ok r' →
      fid ∉ r → fid ∈ r' → gitem.id ∈ r') ∧
    (∀ i r r', f_ok_item fid pid i = true →
      traverse_public_item cx n i r = .ok r' →
      fid ∉ r → fid ∈ r' → gitem.id ∈ r') ∧
    (∀ tps ms r r', f_ok_methods fid pid ms = true →
      traverse_impl_methods cx n tps ms r = .ok r' →
      fid ∉ r → fid ∈ r' → gitem.id ∈ r') ∧
    (∀ tps ms r r', f_ok_methods fid pid ms = true →
      traverse_class_methods cx n tps ms r = .ok r' →
      fid ∉ r → fid ∈ r' → gitem.id ∈ r') ∧
    (∀ t r r', (ty_ids t).all (fun x => !(x == fid)) = true →
      traverse_ty cx n t r = .ok r' →
      fid ∉ r → fid ∈ r' → gitem.id ∈ r') ∧
    (∀ ts r r', (tys_ids ts).all (fun x => !(x == fid)) = true →
      traverse_ty_list cx n ts r = .ok r' →
      fid ∉ r → fid ∈ r' → gitem.id ∈ r') ∧
    (∀ b r r', f_ok_block fid pid b = true →
      traverse_inline_body cx n b r = .ok r' →
      fid ∉ r → fid ∈ r' → gitem.id ∈ r') ∧
    (∀ b r r', f_ok_block fid pid b = true →
      traverse_block cx n b r = .ok r' →
      fid ∉ r → fid ∈ r' → gitem.id ∈ r') ∧
    (∀ ss r r', f_ok_stmts fid pid ss = true →
      traverse_stmts cx n ss r = .ok r' →
      fid ∉ r → fid ∈ r' → gitem.id ∈ r') ∧
    (∀ e r r', f_ok_expr fid pid e = true →
      traverse_expr cx n e r = .ok r' →
      fid ∉ r → fid ∈ r' → gitem.id ∈ r') ∧
    (∀ e r r', f_ok_expr fid pid e = true →
      traverse_expr_children cx n e r = .ok r' →
      fid ∉ r → fid ∈ r' → gitem.id ∈ r') ∧
    (∀ es r r', f_ok_exprs fid pid es = true →
      traverse_exprs cx n es r = .ok r' →
      fid ∉ r → fid ∈ r' → gitem.id ∈ r') ∧
    (∀ bs r r', f_ok_blocks fid pid bs = true →
      traverse_blocks cx n bs r = .ok r' →
      fid ∉ r → fid ∈ r' → gitem.id ∈ r') := by
  intro n
  induction n with
  | zero =>
    refine ⟨?_, ?_, ?_, ?_, ?_, ?_, ?_, ?_, ?_, ?_, ?_, ?_, ?_, ?_, ?_, ?_, ?_⟩ <;>
      (intros; rename_i hin;
        simp [traverse_exports, traverse_exports_list, traverse_def_id,
          traverse_public_mod, traverse_mod_items, traverse_public_item,
          traverse_impl_methods, traverse_class_methods, traverse_ty,
          traverse_ty_list, traverse_inline_body, traverse_block, traverse_stmts,
          traverse_expr, traverse_expr_children, traverse_exprs,
          traverse_blocks] at *)
  | succ n ih =>
    obtain ⟨ihexp, ihexpl, ihdef, ihpmod, ihmitems, ihpitem, ihimplm, ihclsm,
      ihty, ihtyl, ihinb, ihblk, ihstmts, ihexpr, ihechld, ihexprs, ihblks⟩ := ih
    refine ⟨?_, ?_, ?_, ?_, ?_, ?_, ?_, ?_, ?_, ?_, ?_, ?_, ?_, ?_, ?_, ?_, ?_⟩
    · -- traverse_exports
      intro mod_id r b r' h hni hin
      simp only [traverse_exports] at h
      split at h
      · rw [bind_ok] at h
        obtain ⟨r1, h1, h2⟩ := h
        simp at h2
        exact h2.2 ▸ ihexpl _ _ _ h1 hni (h2.2 ▸ hin)
      · simp at h
        exact absurd (h.2 ▸ hin) hni
    · -- traverse_exports_list
      intro l r r' h hni hin
      cases l with
      | nil =>
        simp [traverse_exports_list] at h
        exact absurd (h ▸ hin) hni
      | cons d ds =>
        simp only [traverse_exports_list] at h
        rw [bind_ok] at h
        obtain ⟨r1, h1, h2⟩ := h
        by_cases hc : fid ∈ r1
        · exact traverse_exports_list_mono h2 (ihdef _ _ _ h1 hni hc)
        · exact ihexpl _ _ _ h2 hc hin
    · -- traverse_def_id
      intro did r r' h hni hin
      simp only [traverse_def_id] at h
      split at h
      · simp at h
        exact absurd (h ▸ hin) hni
      · split at h
        · simp at h
          exact absurd (h ▸ hin) hni
        · rename_i item heq
          have hokn : f_ok_node fid pid (.node_item item) = true := by
            have := List.all_eq_true.mp hmap _ (lookupA_mem heq)
            simpa using this
          exact ihpitem _ _ _ (by simpa [f_ok_node] using hokn) h hni hin
        · exact ihdef _ _ _ h hni hin
        · rename_i fid' heq
          have hokn : f_ok_node fid pid (.node_foreign_item fid') = true := by
            have := List.all_eq_true.mp hmap _ (lookupA_mem heq)
            simpa using this
          simp only [f_ok_node] at hokn
          simp at h
          rw [← h] at hin
          rcases mem_rinsert.mp hin with rfl | hin'
          · exact absurd rfl (ne_of_bnot hokn).symm
          · exact absurd hin' hni
        · rename_i vid heq
          have hokn : f_ok_node fid pid (.node_variant vid) = true := by
            have := List.all_eq_true.mp hmap _ (lookupA_mem heq)
            simpa using this
          simp only [f_ok_node] at hokn
          simp at h
          rw [← h] at hin
          rcases mem_rinsert.mp hin with rfl | hin'
          · exact absurd rfl (ne_of_bnot hokn).symm
          · exact absurd hin' hni
        · simp at h
          exact absurd (h ▸ hin) hni
    · -- traverse_public_mod
      intro mod_id m r r' hok h hni hin
      simp only [traverse_public_mod] at h
      rw [bind_ok] at h
      obtain ⟨⟨b, r1⟩, h1, h2⟩ := h
      by_cases hc : fid ∈ r1
      · have hg := ihexp _ _ _ _ h1 hni hc
        simp only at h2
        split at h2
        · exact traverse_mod_items_mono h2 hg
        · simp at h2
          exact h2 ▸ hg
      · simp only at h2
        split at h2
        · exact ihmitems _ _ _ hok h2 hc hin
        · simp at h2
          exact absurd (h2 ▸ hin) hc
    · -- traverse_mod_items
      intro m r r' hok h hni hin
      cases m with
      | nil =>
        simp [traverse_mod_items] at h
        exact absurd (h ▸ hin) hni
      | cons i is =>
        simp only [f_ok_items, Bool.and_eq_true] at hok
        simp only [traverse_mod_items] at h
        rw [bind_ok] at h
        obtain ⟨r1, h1, h2⟩ := h
        by_cases hc : fid ∈ r1
        · exact traverse_mod_items_mono h2 (ihpitem _ _ _ hok.1 h1 hni hc)
        · exact ihmitems _ _ _ hok.2 h2 hc hin
    · -- traverse_public_item
      intro i r r' hok h hni hin
      simp only [traverse_public_item] at h
      split at h
      · simp at h
        exact absurd (h ▸ hin) hni
      · by_cases hfid : i.id = fid
        · -- the newly inserted id is fid: i must be a generic/inline fn
          cases i with
          | item_fn id tps inl blk =>
            simp only [Item.id] at hfid
            subst hfid
            simp only [Item.id] at h
            simp only [f_ok_item, beq_self_eq_true, if_true, Bool.and_eq_true,
              Bool.or_eq_true] at hok
            rw [if_pos (by
              rcases hok.1.1 with h1 | h1
              · exact Or.inl (by simpa using h1)
              · exact Or.inr h1)] at h
            exact (occurs_marks_all cx pid gdid gitem hdm hgc hgit n).1 _ _ _
              hok.1.2 h
          | item_mod id m =>
            simp only [Item.id] at hfid
            subst hfid
            simp [f_ok_item] at hok
          | item_foreign_mod id fids =>
            simp only [Item.id] at hfid
            subst hfid
            simp [f_ok_item] at hok
          | item_impl id tps ms_opt =>
            simp only [Item.id] at hfid
            subst hfid
            cases ms_opt <;> simp [f_ok_item] at hok
          | item_class id tps dtor ms =>
            simp only [Item.id] at hfid
            subst hfid
            rcases dtor with _ | ⟨did2, dinl2, dbody2⟩ <;> simp [f_ok_item] at hok
          | item_ty id t =>
            simp only [Item.id] at hfid
            subst hfid
            simp [f_ok_item] at hok
          | item_const id =>
            simp only [Item.id] at hfid
            subst hfid
            simp [f_ok_item] at hok
          | item_enum id =>
            simp only [Item.id] at hfid
            subst hfid
            simp [f_ok_item] at hok
          | item_trait id =>
            simp only [Item.id] at hfid
            subst hfid
            simp [f_ok_item] at hok
          | item_mac id =>
            simp only [Item.id] at hfid
            subst hfid
            simp [f_ok_item] at hok
        · -- the inserted id is not fid
          have hni2 : fid ∉ rinsert i.id r := by
            intro hmem
            rcases mem_rinsert.mp hmem with h1 | h1
            · exact hfid h1.symm
            · exact hni h1
          cases i with
          | item_mod id m =>
            simp only [f_ok_item, Bool.and_eq_true] at hok
            simp only [Item.id] at h hni2
            exact ihpmod _ _ _ _ hok.2 h hni2 hin
          | item_foreign_mod id fids =>
            simp only [f_ok_item, Bool.and_eq_true] at hok
            simp only [Item.id] at h hni2
            rw [bind_ok] at h
            obtain ⟨⟨b, r1⟩, h1, h2⟩ := h
            simp only at h2
            split at h2
            · simp at h2
              subst h2
              rcases mem_rinsert_each.mp hin with h3 | h3
              · have := List.all_eq_true.mp hok.2 _ h3
                exact absurd rfl (ne_of_bnot this)
              · exact rinsert_each_subset (ihexp _ _ _ _ h1 hni2 h3)
            · simp at h2
              subst h2
              exact ihexp _ _ _ _ h1 hni2 hin
          | item_fn id tps inl blk =>
            simp only [f_ok_item, Bool.and_eq_true] at hok
            simp only [Item.id] at h hni2
            split at h
            · exact ihinb _ _ _ hok.2 h hni2 hin
            · simp at h
              exact absurd (h ▸ hin) hni2
          | item_impl id tps ms_opt =>
            simp only [Item.id] at h hni2
            cases ms_opt with
            | some ms =>
              obtain ⟨hidne, hmok⟩ := by
                simpa [f_ok_item, Bool.and_eq_true] using hok
              exact ihimplm _ _ _ _ hmok h hni2 hin
            | none =>
              simp at h
              exact absurd (h ▸ hin) hni2
          | item_class id tps dtor ms =>
            simp only [Item.id] at h hni2
            rw [bind_ok] at h
            obtain ⟨r1, h1, h2⟩ := h
            cases dtor with
            | some d =>
              cases d with
              | mk did dinl dbody =>
                obtain ⟨⟨hidne, hne, hdok⟩, hmok⟩ := by
                  simpa [f_ok_item, Bool.and_eq_true] using hok
                simp only [Dtor.id, Dtor.inl, Dtor.body] at h1
                have hni3 : fid ∉ rinsert did (rinsert id r) := by
                  intro hmem
                  rcases mem_rinsert.mp hmem with h3 | h3
                  · exact hne h3.symm
                  · exact hni2 h3
                split at h1
                · by_cases hc : fid ∈ r1
                  · exact traverse_class_methods_mono h2
                      (ihinb _ _ _ hdok h1 hni3 hc)
                  · exact ihclsm _ _ _ _ hmok h2 hc hin
                · simp at h1
                  exact ihclsm _ _ _ _ hmok h2 (h1 ▸ hni3) hin
            | none =>
              obtain ⟨hidne, hmok⟩ := by
                simpa [f_ok_item, Bool.and_eq_true] using hok
              simp at h1
              exact ihclsm _ _ _ _ hmok h2 (h1 ▸ hni2) hin
          | item_ty id t =>
            simp only [f_ok_item, Bool.and_eq_true] at hok
            simp only [Item.id] at h hni2
            exact ihty _ _ _ hok.2 h hni2 hin
          | item_const id =>
            simp at h
            exact absurd (h ▸ hin) hni2
          | item_enum id =>
            simp at h
            exact absurd (h ▸ hin) hni2
          | item_trait id =>
            simp at h
            exact absurd (h ▸ hin) hni2
          | item_mac id =>
            simp at h
    · -- traverse_impl_methods
      intro tps ms r r' hok h hni hin
      cases ms with
      | nil =>
        simp [traverse_impl_methods] at h
        exact absurd (h ▸ hin) hni
      | cons m ms =>
        cases m with
        | mk mid mtps minl mbody =>
          obtain ⟨⟨hne, hbok⟩, hmok⟩ := by
            simpa [f_ok_methods, Bool.and_eq_true] using hok
          simp only [traverse_impl_methods, Method.id, Method.tps, Method.inl,
            Method.body] at h
          split at h
          · rw [bind_ok] at h
            obtain ⟨r1, h1, h2⟩ := h
            have hni2 : fid ∉ rinsert mid r := by
              intro hmem
              rcases mem_rinsert.mp hmem with h3 | h3
              · exact hne h3.symm
              · exact hni h3
            by_cases hc : fid ∈ r1
            · exact (traverse_mono_all cx n).2.2.2.2.2.2.1 _ _ _ _ h2
                (ihinb _ _ _ hbok h1 hni2 hc)
            · exact ihimplm _ _ _ _ hmok h2 hc hin
          · exact ihimplm _ _ _ _ hmok h hni hin
    · -- traverse_class_methods
      intro tps ms r r' hok h hni hin
      cases ms with
      | nil =>
        simp [traverse_class_methods] at h
        exact absurd (h ▸ hin) hni
      | cons m ms =>
        cases m with
        | mk mid mtps minl mbody =>
          obtain ⟨⟨hne, hbok⟩, hmok⟩ := by
            simpa [f_ok_methods, Bool.and_eq_true] using hok
          simp only [traverse_class_methods, Method.id, Method.inl, Method.body] at h
          rw [bind_ok] at h
          obtain ⟨r1, h1, h2⟩ := h
          have hni2 : fid ∉ rinsert mid r := by
            intro hmem
            rcases mem_rinsert.mp hmem with h3 | h3
            · exact hne h3.symm
            · exact hni h3
          by_cases hc : fid ∈ r1
          · have hg : gitem.id ∈ r1 := by
              split at h1
              · exact ihinb _ _ _ hbok h1 hni2 hc
              · simp at h1
                exact absurd (h1 ▸ hc) hni2
            exact traverse_class_methods_mono h2 hg
          · exact ihclsm _ _ _ _ hmok h2 hc hin
    · -- traverse_ty
      intro t r r' hok h hni hin
      simp only [traverse_ty] at h
      split at h
      · simp at h
        exact absurd (h ▸ hin) hni
      · have hni2 : fid ∉ rinsert t.id r := by
          intro hmem
          rcases mem_rinsert.mp hmem with h3 | h3
          · have : t.id ∈ ty_ids t := by
              cases t <;> simp [ty_ids, Ty.id]
            have := List.all_eq_true.mp hok _ this
            exact (ne_of_bnot this) h3.symm
          · exact hni h3
        cases t with
        | ty_path id types p_id =>
          simp only [ty_ids] at hok
          have hokl : (tys_ids types).all (fun x => !(x == fid)) = true := by
            simp only [List.all_cons, Bool.and_eq_true] at hok
            exact hok.2
          simp only [Ty.id] at h hni2
          rw [bind_ok] at h
          obtain ⟨r1, h1, h2⟩ := h
          by_cases hc : fid ∈ r1
          · have hg : gitem.id ∈ r1 := by
              split at h1
              · simp at h1
                exact absurd (h1 ▸ hc) hni2
              · split at h1
                · exact ihdef _ _ _ h1 hni2 hc
                · simp at h1
                  exact absurd (h1 ▸ hc) hni2
              · simp at h1
                exact absurd (h1 ▸ hc) hni2
            exact (traverse_mono_all cx n).2.2.2.2.2.2.2.2.2.1 _ _ _ h2 hg
          · exact ihtyl _ _ _ hokl h2 hc hin
        | ty_other id kids =>
          simp only [ty_ids, List.all_cons, Bool.and_eq_true] at hok
          simp only [Ty.id] at h hni2
          exact ihtyl _ _ _ hok.2 h hni2 hin
    · -- traverse_ty_list
      intro ts r r' hok h hni hin
      cases ts with
      | nil =>
        simp [traverse_ty_list] at h
        exact absurd (h ▸ hin) hni
      | cons t ts =>
        simp only [tys_ids, List.all_append, Bool.and_eq_true] at hok
        simp only [traverse_ty_list] at h
        rw [bind_ok] at h
        obtain ⟨r1, h1, h2⟩ := h
        by_cases hc : fid ∈ r1
        · exact (traverse_mono_all cx n).2.2.2.2.2.2.2.2.2.1 _ _ _ h2
            (ihty _ _ _ hok.1 h1 hni hc)
        · exact ihtyl _ _ _ hok.2 h2 hc hin
    · -- traverse_inline_body
      intro b r r' hok h hni hin
      simp only [traverse_inline_body] at h
      exact ihblk _ _ _ hok h hni hin
    · -- traverse_block
      intro b r r' hok h hni hin
      cases b with
      | mk stmts =>
        simp only [traverse_block] at h
        simp only [f_ok_block] at hok
        exact ihstmts _ _ _ hok h hni hin
    · -- traverse_stmts
      intro ss r r' hok h hni hin
      cases ss with
      | nil =>
        simp [traverse_stmts] at h
        exact absurd (h ▸ hin) hni
      | cons s ss =>
        cases s with
        | stmt_expr e =>
          simp only [f_ok_stmts, Bool.and_eq_true] at hok
          simp only [traverse_stmts] at h
          rw [bind_ok] at h
          obtain ⟨r1, h1, h2⟩ := h
          by_cases hc : fid ∈ r1
          · exact traverse_stmts_mono h2 (ihexpr _ _ _ hok.1 h1 hni hc)
          · exact ihstmts _ _ _ hok.2 h2 hc hin
        | stmt_item i =>
          simp only [f_ok_stmts, Bool.and_eq_true] at hok
          simp only [traverse_stmts] at h
          rw [bind_ok] at h
          obtain ⟨r1, h1, h2⟩ := h
          by_cases hc : fid ∈ r1
          · exact traverse_stmts_mono h2 (ihpitem _ _ _ hok.1 h1 hni hc)
          · exact ihstmts _ _ _ hok.2 h2 hc hin
    · -- traverse_expr
      intro e r r' hok h hni hin
      simp only [traverse_expr] at h
      rw [bind_ok] at h
      obtain ⟨r1, h1, h2⟩ := h
      by_cases hc : fid ∈ r1
      · have hg : gitem.id ∈ r1 := by
          cases e with
          | expr_path id sp =>
            simp only at h1
            split at h1
            · split at h1
              · exact ihdef _ _ _ h1 hni hc
              · simp at h1
                exact absurd (h1 ▸ hc) hni
            · simp at h1
          | expr_field id kids =>
            simp only at h1
            split at h1
            · exact ihdef _ _ _ h1 hni hc
            · simp at h1
              exact absurd (h1 ▸ hc) hni
          | expr_other id kids blks =>
            simp at h1
            exact absurd (h1 ▸ hc) hni
        exact traverse_expr_children_mono h2 hg
      · exact ihechld _ _ _ hok h2 hc hin
    · -- traverse_expr_children
      intro e r r' hok h hni hin
      cases e with
      | expr_path id sp =>
        simp [traverse_expr_children] at h
        exact absurd (h ▸ hin) hni
      | expr_field id kids =>
        simp only [traverse_expr_children] at h
        simp only [f_ok_expr] at hok
        exact ihexprs _ _ _ hok h hni hin
      | expr_other id kids blks =>
        simp only [traverse_expr_children] at h
        simp only [f_ok_expr, Bool.and_eq_true] at hok
        rw [bind_ok] at h
        obtain ⟨r1, h1, h2⟩ := h
        by_cases hc : fid ∈ r1
        · exact traverse_blocks_mono h2 (ihexprs _ _ _ hok.1 h1 hni hc)
        · exact ihblks _ _ _ hok.2 h2 hc hin
    · -- traverse_exprs
      intro es r r' hok h hni hin
      cases es with
      | nil =>
        simp [traverse_exprs] at h
        exact absurd (h ▸ hin) hni
      | cons e es =>
        simp only [f_ok_exprs, Bool.and_eq_true] at hok
        simp only [traverse_exprs] at h
        rw [bind_ok] at h
        obtain ⟨r1, h1, h2⟩ := h
        by_cases hc : fid ∈ r1
        · exact traverse_exprs_mono h2 (ihexpr _ _ _ hok.1 h1 hni hc)
        · exact ihexprs _ _ _ hok.2 h2 hc hin
    · -- traverse_blocks
      intro bs r r' hok h hni hin
      cases bs with
      | nil =>
        simp [traverse_blocks] at h
        exact absurd (h ▸ hin) hni
      | cons b bs =>
        simp only [f_ok_blocks, Bool.and_eq_true] at hok
        simp only [traverse_blocks] at h
        rw [bind_ok] at h
        obtain ⟨r1, h1, h2⟩ := h
        by_cases hc : fid ∈ r1
        · exact traverse_blocks_mono h2 (ihblk _ _ _ hok.1 h1 hni hc)
        · exact ihblks _ _ _ hok.2 h2 hc hin

/-- If a list-level `any` is false, its predicate is false on members. -/
theorem all_of_not_any {α : Type} {l : List α} {p : α → Bool} (h : l.any p = false) :
    ∀ c ∈ l, p c = false := by
  intro c hc
  by_contra hne
  have : l.any p = true := List.any_eq_true.mpr ⟨c, hc, by simpa using hne⟩
  rw [this] at h
  simp at h

/-- The non-marking lemma for an unreferenced, shielded function id `hid`:
if no table entry resolves to `hid`, every item-tree node is shielded, and
the traversed structures are shielded, then a traversal that starts without
`hid` in the map ends without it. -/
theorem nm_all (cx : ctx) (hid : Nat)
    (hexp_t : cx.exp_map2.all (fun p => p.2.all (fun d => !(did_marks_h cx hid d))) = true)
    (hdef_t : cx.def_map.all (fun p => match p.2 with
      | .def_other d => !(did_marks_h cx hid d)
      | _ => true) = true)
    (hmeth_t : cx.method_map.all (fun p => match p.2 with
      | .method_static d => !(did_marks_h cx hid d)
      | _ => true) = true)
    (hnode_t : cx.items.all (fun p => h_ok_node cx hid p.2) = true) : ∀ (n : Nat),
    (∀ mod_id r b r', traverse_exports cx n mod_id r = .ok (b, r') →
      hid ∉ r → hid ∉ r') ∧
    (∀ l r r', l.all (fun d => !(did_marks_h cx hid d)) = true →
      traverse_exports_list cx n l r = .ok r' → hid ∉ r → hid ∉ r') ∧
    (∀ did r r', did_marks_h cx hid did = false →
      traverse_def_id cx n did r = .ok r' → hid ∉ r → hid ∉ r') ∧
    (∀ mod_id m r r', h_ok_items cx hid m = true →
      ((m.any (fun c => c.id == hid)) = true →
        ∃ d ds, lookupA cx.exp_map2 mod_id = some (d :: ds)) →
      traverse_public_mod cx n mod_id m r = .ok r' → hid ∉ r → hid ∉ r') ∧
    (∀ m r r', h_ok_items cx hid m = true →
      m.all (fun c => !(c.id == hid)) = true →
      traverse_mod_items cx n m r = .ok r' → hid ∉ r → hid ∉ r') ∧
    (∀ i r r', h_ok_item cx hid i = true → i.id ≠ hid →
      traverse_public_item cx n i r = .ok r' → hid ∉ r → hid ∉ r') ∧
    (∀ tps ms r r', h_ok_methods cx hid ms = true →
      traverse_impl_methods cx n tps ms r = .ok r' → hid ∉ r → hid ∉ r') ∧
    (∀ tps ms r r', h_ok_methods cx hid ms = true →
      traverse_class_methods cx n tps ms r = .ok r' → hid ∉ r → hid ∉ r') ∧
    (∀ t r r', (ty_ids t).all (fun x => !(x == hid)) = true →
      traverse_ty cx n t r = .ok r' → hid ∉ r → hid ∉ r') ∧
    (∀ ts r r', (tys_ids ts).all (fun x => !(x == hid)) = true →
      traverse_ty_list cx n ts r = .ok r' → hid ∉ r → hid ∉ r') ∧
    (∀ b r r', h_ok_block cx hid b = true →
      traverse_inline_body cx n b r = .ok r' → hid ∉ r → hid ∉ r') ∧
    (∀ b r r', h_ok_block cx hid b = true →
      traverse_block cx n b r = .ok r' → hid ∉ r → hid ∉ r') ∧
    (∀ ss r r', h_ok_stmts cx hid ss = true →
      traverse_stmts cx n ss r = .ok r' → hid ∉ r → hid ∉ r') ∧
    (∀ e r r', h_ok_expr cx hid e = true →
      traverse_expr cx n e r = .ok r' → hid ∉ r → hid ∉ r') ∧
    (∀ e r r', h_ok_expr cx hid e = true →
      traverse_expr_children cx n e r = .ok r' → hid ∉ r → hid ∉ r') ∧
    (∀ es r r', h_ok_exprs cx hid es = true →
      traverse_exprs cx n es r = .ok r' → hid ∉ r → hid ∉ r') ∧
    (∀ bs r r', h_ok_blocks cx hid bs = true →
      traverse_blocks cx n bs r = .ok r' → hid ∉ r → hid ∉ r') := by
  intro n
  induction n with
  | zero =>
    refine ⟨?_, ?_, ?_, ?_, ?_, ?_, ?_, ?_, ?_, ?_, ?_, ?_, ?_, ?_, ?_, ?_, ?_⟩ <;>
      (intros; rename_i hni;
        simp [traverse_exports, traverse_exports_list, traverse_def_id,
          traverse_public_mod, traverse_mod_items, traverse_public_item,
          traverse_impl_methods, traverse_class_methods, traverse_ty,
          traverse_ty_list, traverse_inline_body, traverse_block, traverse_stmts,
          traverse_expr, traverse_expr_children, traverse_exprs,
          traverse_blocks] at *)
  | succ n ih =>
    obtain ⟨ihexp, ihexpl, ihdef, ihpmod, ihmitems, ihpitem, ihimplm, ihclsm,
      ihty, ihtyl, ihinb, ihblk, ihstmts, ihexpr, ihechld, ihexprs, ihblks⟩ := ih
    refine ⟨?_, ?_, ?_, ?_, ?_, ?_, ?_, ?_, ?_, ?_, ?_, ?_, ?_, ?_, ?_, ?_, ?_⟩
    · -- traverse_exports
      intro mod_id r b r' h hni
      simp only [traverse_exports] at h
      split at h
      · rename_i l heq
        rw [bind_ok] at h
        obtain ⟨r1, h1, h2⟩ := h
        simp at h2
        have hl : l.all (fun d => !(did_marks_h cx hid d)) = true := by
          have := List.all_eq_true.mp hexp_t _ (lookupA_mem heq)
          simpa using this
        exact h2.2 ▸ ihexpl _ _ _ hl h1 hni
      · simp at h
        exact h.2 ▸ hni
    · -- traverse_exports_list
      intro l r r' hl h hni
      cases l with
      | nil =>
        simp [traverse_exports_list] at h
        exact h ▸ hni
      | cons d ds =>
        simp only [List.all_cons, Bool.and_eq_true] at hl
        simp only [traverse_exports_list] at h
        rw [bind_ok] at h
        obtain ⟨r1, h1, h2⟩ := h
        exact ihexpl _ _ _ hl.2 h2
          (ihdef _ _ _ (by simpa using hl.1) h1 hni)
    · -- traverse_def_id
      intro did r r' hdm h hni
      simp only [traverse_def_id] at h
      split at h
      · simp at h
        exact h ▸ hni
      · rename_i hcr
        have hcrt : (did.crate == local_crate) = true := by
          simp at hcr
          simp [hcr]
        split at h
        · simp at h
          exact h ▸ hni
        · rename_i item heq
          have hokn : h_ok_item cx hid item = true := by
            have := List.all_eq_true.mp hnode_t _ (lookupA_mem heq)
            simpa [h_ok_node] using this
          have hne : item.id ≠ hid := by
            simp only [did_marks_h, hcrt, Bool.true_and, heq] at hdm
            simpa using hdm
          exact ihpitem _ _ _ hokn hne h hni
        · rename_i impl_did heq
          have hokn := List.all_eq_true.mp hnode_t _ (lookupA_mem heq)
          simp only [h_ok_node] at hokn
          exact ihdef _ _ _ (by simpa using hokn) h hni
        · rename_i fid' heq
          simp only [did_marks_h, hcrt, Bool.true_and, heq] at hdm
          simp at h hdm
          rw [← h]
          intro hmem
          rcases mem_rinsert.mp hmem with h3 | h3
          · exact hdm h3.symm
          · exact hni h3
        · rename_i vid heq
          simp only [did_marks_h, hcrt, Bool.true_and, heq] at hdm
          simp at h hdm
          rw [← h]
          intro hmem
          rcases mem_rinsert.mp hmem with h3 | h3
          · exact hdm h3.symm
          · exact hni h3
        · simp at h
          exact h ▸ hni
    · -- traverse_public_mod
      intro mod_id m r r' hok hshield h hni
      simp only [traverse_public_mod] at h
      rw [bind_ok] at h
      obtain ⟨⟨b, r1⟩, h1, h2⟩ := h
      have hni1 : hid ∉ r1 := ihexp _ _ _ _ h1 hni
      simp only at h2
      split at h2
      · rename_i hfound
        have hb : b = false := by
          simp at hfound
          exact hfound
        subst hb
        have hnoany : m.any (fun c => c.id == hid) = false := by
          by_contra hany
          have hany' : m.any (fun c => c.id == hid) = true := by
            simpa using hany
          obtain ⟨d, ds, hlk⟩ := hshield hany'
          cases hfuel : n with
          | zero => rw [hfuel] at h1; simp [traverse_exports] at h1
          | succ k =>
            rw [hfuel] at h1
            simp only [traverse_exports, hlk] at h1
            rw [bind_ok] at h1
            obtain ⟨r2, h3, h4⟩ := h1
            simp at h4
        have hall : m.all (fun c => !(c.id == hid)) = true := by
          rw [List.all_eq_true]
          intro c hc
          simpa using all_of_not_any hnoany c hc
        exact ihmitems _ _ _ hok hall h2 hni1
      · simp at h2
        exact h2 ▸ hni1
    · -- traverse_mod_items
      intro m r r' hok hall h hni
      cases m with
      | nil =>
        simp [traverse_mod_items] at h
        exact h ▸ hni
      | cons i is =>
        simp only [h_ok_items, Bool.and_eq_true] at hok
        simp only [List.all_cons, Bool.and_eq_true] at hall
        simp only [traverse_mod_items] at h
        rw [bind_ok] at h
        obtain ⟨r1, h1, h2⟩ := h
        exact ihmitems _ _ _ hok.2 hall.2 h2
          (ihpitem _ _ _ hok.1 (by simpa using hall.1) h1 hni)
    · -- traverse_public_item
      intro i r r' hok hne h hni
      simp only [traverse_public_item] at h
      split at h
      · simp at h
        exact h ▸ hni
      · have hni2 : hid ∉ rinsert i.id r := by
          intro hmem
          rcases mem_rinsert.mp hmem with h3 | h3
          · exact hne h3.symm
          · exact hni h3
        cases i with
        | item_mod id m =>
          obtain ⟨⟨hidne, hsh⟩, hoki⟩ := by
            simpa [h_ok_item, Bool.and_eq_true] using hok
          simp only [Item.id] at h hni2
          refine ihpmod _ _ _ _ hoki ?_ h hni2
          intro hany
          rcases hsh with hsh | hsh
          · obtain ⟨c, hc, hcid⟩ := List.any_eq_true.mp hany
            exact absurd (by simpa using hcid) (hsh c hc)
          · cases heq2 : lookupA cx.exp_map2 id with
            | none => rw [heq2] at hsh; simp at hsh
            | some l =>
              cases l with
              | nil => rw [heq2] at hsh; simp at hsh
              | cons d ds => exact ⟨d, ds, rfl⟩
        | item_foreign_mod id fids =>
          obtain ⟨hidne, hfok⟩ := by
            simpa [h_ok_item, Bool.and_eq_true] using hok
          simp only [Item.id] at h hni2
          rw [bind_ok] at h
          obtain ⟨⟨b, r1⟩, h1, h2⟩ := h
          have hni1 : hid ∉ r1 := ihexp _ _ _ _ h1 hni2
          simp only at h2
          split at h2
          · simp at h2
            subst h2
            intro hmem
            rcases mem_rinsert_each.mp hmem with h3 | h3
            · exact hfok _ h3 rfl
            · exact hni1 h3
          · simp at h2
            exact h2 ▸ hni1
        | item_fn id tps inl blk =>
          have hbok : h_ok_block cx hid blk = true := by
            simpa [h_ok_item] using hok
          simp only [Item.id] at h hni2
          split at h
          · exact ihinb _ _ _ hbok h hni2
          · simp at h
            exact h ▸ hni2
        | item_impl id tps ms_opt =>
          simp only [Item.id] at h hni2
          cases ms_opt with
          | some ms =>
            obtain ⟨hidne, hmok⟩ := by
              simpa [h_ok_item, Bool.and_eq_true] using hok
            exact ihimplm _ _ _ _ hmok h hni2
          | none =>
            simp at h
            exact h ▸ hni2
        | item_class id tps dtor ms =>
          simp only [Item.id] at h hni2
          rw [bind_ok] at h
          obtain ⟨r1, h1, h2⟩ := h
          cases dtor with
          | some d =>
            cases d with
            | mk did dinl dbody =>
              obtain ⟨⟨hidne, hdne, hdok⟩, hmok⟩ := by
                simpa [h_ok_item, Bool.and_eq_true] using hok
              simp only [Dtor.id, Dtor.inl, Dtor.body] at h1
              have hni3 : hid ∉ rinsert did (rinsert id r) := by
                intro hmem
                rcases mem_rinsert.mp hmem with h3 | h3
                · exact hdne h3.symm
                · exact hni2 h3
              have hni4 : hid ∉ r1 := by
                split at h1
                · exact ihinb _ _ _ hdok h1 hni3
                · simp at h1
                  exact h1 ▸ hni3
              exact ihclsm _ _ _ _ hmok h2 hni4
          | none =>
            obtain ⟨hidne, hmok⟩ := by
              simpa [h_ok_item, Bool.and_eq_true] using hok
            simp at h1
            exact ihclsm _ _ _ _ hmok h2 (h1 ▸ hni2)
        | item_ty id t =>
          obtain ⟨hidne, htok⟩ := by
            simpa [h_ok_item, Bool.and_eq_true] using hok
          simp only [Item.id] at h hni2
          refine ihty _ _ _ ?_ h hni2
          rw [List.all_eq_true]
          intro x hx
          simpa using htok x hx
        | item_const id =>
          simp at h
          exact h ▸ hni2
        | item_enum id =>
          simp at h
          exact h ▸ hni2
        | item_trait id =>
          simp at h
          exact h ▸ hni2
        | item_mac id =>
          simp at h
    · -- traverse_impl_methods
      intro tps ms r r' hok h hni
      cases ms with
      | nil =>
        simp [traverse_impl_methods] at h
        exact h ▸ hni
      | cons m ms =>
        cases m with
        | mk mid mtps minl mbody =>
          obtain ⟨⟨hne, hbok⟩, hmok⟩ := by
            simpa [h_ok_methods, Bool.and_eq_true] using hok
          simp only [traverse_impl_methods, Method.id, Method.tps, Method.inl,
            Method.body] at h
          split at h
          · rw [bind_ok] at h
            obtain ⟨r1, h1, h2⟩ := h
            have hni2 : hid ∉ rinsert mid r := by
              intro hmem
              rcases mem_rinsert.mp hmem with h3 | h3
              · exact hne h3.symm
              · exact hni h3
            exact ihimplm _ _ _ _ hmok h2 (ihinb _ _ _ hbok h1 hni2)
          · exact ihimplm _ _ _ _ hmok h hni
    · -- traverse_class_methods
      intro tps ms r r' hok h hni
      cases ms with
      | nil =>
        simp [traverse_class_methods] at h
        exact h ▸ hni
      | cons m ms =>
        cases m with
        | mk mid mtps minl mbody =>
          obtain ⟨⟨hne, hbok⟩, hmok⟩ := by
            simpa [h_ok_methods, Bool.and_eq_true] using hok
          simp only [traverse_class_methods, Method.id, Method.inl, Method.body] at h
          rw [bind_ok] at h
          obtain ⟨r1, h1, h2⟩ := h
          have hni2 : hid ∉ rinsert mid r := by
            intro hmem
            rcases mem_rinsert.mp hmem with h3 | h3
            · exact hne h3.symm
            · exact hni h3
          have hni3 : hid ∉ r1 := by
            split at h1
            · exact ihinb _ _ _ hbok h1 hni2
            · simp at h1
              exact h1 ▸ hni2
          exact ihclsm _ _ _ _ hmok h2 hni3
    · -- traverse_ty
      intro t r r' hok h hni
      simp only [traverse_ty] at h
      split at h
      · simp at h
        exact h ▸ hni
      · have hni2 : hid ∉ rinsert t.id r := by
          intro hmem
          rcases mem_rinsert.mp hmem with h3 | h3
          · have hmem2 : t.id ∈ ty_ids t := by
              cases t <;> simp [ty_ids, Ty.id]
            have := List.all_eq_true.mp hok _ hmem2
            exact (ne_of_bnot this) h3.symm
          · exact hni h3
        cases t with
        | ty_path id types p_id =>
          have hokl : (tys_ids types).all (fun x => !(x == hid)) = true := by
            simp only [ty_ids, List.all_cons, Bool.and_eq_true] at hok
            exact hok.2
          simp only [Ty.id] at h hni2
          rw [bind_ok] at h
          obtain ⟨r1, h1, h2⟩ := h
          have hni3 : hid ∉ r1 := by
            cases heq : lookupA cx.def_map p_id with
            | none =>
              rw [heq] at h1
              simp at h1
              exact h1 ▸ hni2
            | some d =>
              rw [heq] at h1
              cases d with
              | def_prim_ty =>
                simp at h1
                exact h1 ▸ hni2
              | def_other d2 =>
                simp only [def_id_of_def] at h1
                have hd : did_marks_h cx hid d2 = false := by
                  have := List.all_eq_true.mp hdef_t _ (lookupA_mem heq)
                  simpa using this
                exact ihdef _ _ _ hd h1 hni2
          exact ihtyl _ _ _ hokl h2 hni3
        | ty_other id kids =>
          simp only [ty_ids, List.all_cons, Bool.and_eq_true] at hok
          simp only [Ty.id] at h hni2
          exact ihtyl _ _ _ hok.2 h hni2
    · -- traverse_ty_list
      intro ts r r' hok h hni
      cases ts with
      | nil =>
        simp [traverse_ty_list] at h
        exact h ▸ hni
      | cons t ts =>
        simp only [tys_ids, List.all_append, Bool.and_eq_true] at hok
        simp only [traverse_ty_list] at h
        rw [bind_ok] at h
        obtain ⟨r1, h1, h2⟩ := h
        exact ihtyl _ _ _ hok.2 h2 (ihty _ _ _ hok.1 h1 hni)
    · -- traverse_inline_body
      intro b r r' hok h hni
      simp only [traverse_inline_body] at h
      exact ihblk _ _ _ hok h hni
    · -- traverse_block
      intro b r r' hok h hni
      cases b with
      | mk stmts =>
        simp only [traverse_block] at h
        simp only [h_ok_block] at hok
        exact ihstmts _ _ _ hok h hni
    · -- traverse_stmts
      intro ss r r' hok h hni
      cases ss with
      | nil =>
        simp [traverse_stmts] at h
        exact h ▸ hni
      | cons s ss =>
        cases s with
        | stmt_expr e =>
          simp only [h_ok_stmts, Bool.and_eq_true] at hok
          simp only [traverse_stmts] at h
          rw [bind_ok] at h
          obtain ⟨r1, h1, h2⟩ := h
          exact ihstmts _ _ _ hok.2 h2 (ihexpr _ _ _ hok.1 h1 hni)
        | stmt_item i =>
          obtain ⟨⟨hine, hiok⟩, hsok⟩ := by
            simpa [h_ok_stmts, Bool.and_eq_true] using hok
          simp only [traverse_stmts] at h
          rw [bind_ok] at h
          obtain ⟨r1, h1, h2⟩ := h
          exact ihstmts _ _ _ hsok h2
            (ihpitem _ _ _ hiok (by simpa using hine) h1 hni)
    · -- traverse_expr
      intro e r r' hok h hni
      simp only [traverse_expr] at h
      rw [bind_ok] at h
      obtain ⟨r1, h1, h2⟩ := h
      have hni1 : hid ∉ r1 := by
        cases e with
        | expr_path id sp =>
          simp only at h1
          cases heq : lookupA cx.def_map id with
          | none =>
            rw [heq] at h1
            simp at h1
          | some d =>
            rw [heq] at h1
            cases d with
            | def_prim_ty =>
              simp [def_id_of_def] at h1
              exact h1 ▸ hni
            | def_other d2 =>
              simp only [def_id_of_def] at h1
              have hd : did_marks_h cx hid d2 = false := by
                have := List.all_eq_true.mp hdef_t _ (lookupA_mem heq)
                simpa using this
              exact ihdef _ _ _ hd h1 hni
        | expr_field id kids =>
          simp only at h1
          split at h1
          · rename_i did heq
            have hd : did_marks_h cx hid did = false := by
              have := List.all_eq_true.mp hmeth_t _ (lookupA_mem heq)
              simpa using this
            exact ihdef _ _ _ hd h1 hni
          · simp at h1
            exact h1 ▸ hni
        | expr_other id kids blks =>
          simp at h1
          exact h1 ▸ hni
      exact ihechld _ _ _ hok h2 hni1
    · -- traverse_expr_children
      intro e r r' hok h hni
      cases e with
      | expr_path id sp =>
        simp [traverse_expr_children] at h
        exact h ▸ hni
      | expr_field id kids =>
        simp only [traverse_expr_children] at h
        simp only [h_ok_expr] at hok
        exact ihexprs _ _ _ hok h hni
      | expr_other id kids blks =>
        simp only [traverse_expr_children] at h
        simp only [h_ok_expr, Bool.and_eq_true] at hok
        rw [bind_ok] at h
        obtain ⟨r1, h1, h2⟩ := h
        exact ihblks _ _ _ hok.2 h2 (ihexprs _ _ _ hok.1 h1 hni)
    · -- traverse_exprs
      intro es r r' hok h hni
      cases es with
      | nil =>
        simp [traverse_exprs] at h
        exact h ▸ hni
      | cons e es =>
        simp only [h_ok_exprs, Bool.and_eq_true] at hok
        simp only [traverse_exprs] at h
        rw [bind_ok] at h
        obtain ⟨r1, h1, h2⟩ := h
        exact ihexprs _ _ _ hok.2 h2 (ihexpr _ _ _ hok.1 h1 hni)
    · -- traverse_blocks
      intro bs r r' hok h hni
      cases bs with
      | nil =>
        simp [traverse_blocks] at h
        exact h ▸ hni
      | cons b bs =>
        simp only [h_ok_blocks, Bool.and_eq_true] at hok
        simp only [traverse_blocks] at h
        rw [bind_ok] at h
        obtain ⟨r1, h1, h2⟩ := h
        exact ihblks _ _ _ hok.2 h2 (ihblk _ _ _ hok.1 h1 hni)

/-- The non-marking lemma for the retention sweep: under the same
unreferenced-and-shielded hypotheses, the retention visitor never adds
`hid` to the map either. -/
theorem nm_ret (cx : ctx) (hid : Nat)
    (hexp_t : cx.exp_map2.all (fun p => p.2.all (fun d => !(did_marks_h cx hid d))) = true)
    (hdef_t : cx.def_map.all (fun p => match p.2 with
      | .def_other d => !(did_marks_h cx hid d)
      | _ => true) = true)
    (hmeth_t : cx.method_map.all (fun p => match p.2 with
      | .method_static d => !(did_marks_h cx hid d)
      | _ => true) = true)
    (hnode_t : cx.items.all (fun p => h_ok_node cx hid p.2) = true) : ∀ (n : Nat),
    (∀ i r r', h_ok_item cx hid i = true →
      ret_visit_item cx n i r = .ok r' → hid ∉ r → hid ∉ r') ∧
    (∀ is r r', h_ok_items cx hid is = true →
      ret_visit_items cx n is r = .ok r' → hid ∉ r → hid ∉ r') ∧
    (∀ ms r r', h_ok_methods cx hid ms = true →
      ret_visit_methods cx n ms r = .ok r' → hid ∉ r → hid ∉ r') ∧
    (∀ b r r', h_ok_block cx hid b = true →
      ret_visit_block cx n b r = .ok r' → hid ∉ r → hid ∉ r') ∧
    (∀ ss r r', h_ok_stmts cx hid ss = true →
      ret_visit_stmts cx n ss r = .ok r' → hid ∉ r → hid ∉ r') := by
  intro n
  induction n with
  | zero =>
    refine ⟨?_, ?_, ?_, ?_, ?_⟩ <;>
      (intros; rename_i hni;
        simp [ret_visit_item, ret_visit_items, ret_visit_methods,
          ret_visit_block, ret_visit_stmts] at *)
  | succ n ih =>
    obtain ⟨ihitem, ihitems, ihmeths, ihblk, ihstmts⟩ := ih
    have hpit := (nm_all cx hid hexp_t hdef_t hmeth_t hnode_t n).2.2.2.2.2.1
    refine ⟨?_, ?_, ?_, ?_, ?_⟩
    · -- ret_visit_item
      intro i r r' hok h hni
      cases i with
      | item_mod id items =>
        simp only [ret_visit_item] at h
        rw [bind_ok] at h
        obtain ⟨r1, h1, h2⟩ := h
        simp at h2
        obtain ⟨⟨hne, hsh⟩, hitems⟩ : (_ ∧ _) ∧ _ := by
          simpa [h_ok_item, Bool.and_eq_true] using hok
        exact h2 ▸ ihitems _ _ _ hitems h1 hni
      | item_foreign_mod id fids =>
        simp [ret_visit_item, bind_ok] at h
        exact h ▸ hni
      | item_fn id tps inl blk =>
        simp only [ret_visit_item] at h
        rw [bind_ok] at h
        obtain ⟨r1, h1, h2⟩ := h
        simp at h2
        simp only [h_ok_item] at hok
        exact h2 ▸ ihblk _ _ _ hok h1 hni
      | item_impl id tps ms_opt =>
        cases ms_opt with
        | none =>
          simp only [ret_visit_item] at h
          rw [bind_ok] at h
          obtain ⟨r1, h1, h2⟩ := h
          simp at h1
          have hne : id ≠ hid := by
            simp [h_ok_item] at hok
            exact hok
          exact hpit _ _ _ hok (by simpa [Item.id] using hne) h2 (h1 ▸ hni)
        | some ms =>
          simp only [ret_visit_item] at h
          rw [bind_ok] at h
          obtain ⟨r1, h1, h2⟩ := h
          obtain ⟨hne, hms⟩ : _ ∧ _ := by
            simpa [h_ok_item, Bool.and_eq_true] using hok
          have hni1 : hid ∉ r1 := ihmeths _ _ _ hms h1 hni
          exact hpit _ _ _ hok (by simpa [Item.id] using hne) h2 hni1
      | item_class id tps dtor methods =>
        cases dtor with
        | none =>
          simp only [ret_visit_item] at h
          rw [bind_ok] at h
          obtain ⟨r1, h1, h2⟩ := h
          simp at h2
          rw [bind_ok] at h1
          obtain ⟨r2, h1a, h1b⟩ := h1
          simp at h1b
          obtain ⟨hne, hms⟩ : _ ∧ _ := by
            simpa [h_ok_item, Bool.and_eq_true] using hok
          exact h2 ▸ h1b ▸ ihmeths _ _ _ hms h1a hni
        | some d =>
          cases d with
          | mk did dinl dbody =>
            simp only [ret_visit_item] at h
            rw [bind_ok] at h
            obtain ⟨r1, h1, h2⟩ := h
            rw [bind_ok] at h1
            obtain ⟨r2, h1a, h1b⟩ := h1
            obtain ⟨⟨hne, hdne, hdb⟩, hms⟩ : (_ ∧ _ ∧ _) ∧ _ := by
              simpa [h_ok_item, Bool.and_eq_true, and_assoc] using hok
            have hni2 : hid ∉ r2 := ihmeths _ _ _ hms h1a hni
            have hni1 : hid ∉ r1 := ihblk _ _ _ hdb (by simpa [Dtor.body] using h1b) hni2
            exact hpit _ _ _ hok (by simpa [Item.id] using hne) h2 hni1
      | item_ty id t =>
        simp [ret_visit_item, bind_ok] at h
        exact h ▸ hni
      | item_const id =>
        simp [ret_visit_item, bind_ok] at h
        exact h ▸ hni
      | item_enum id =>
        simp [ret_visit_item, bind_ok] at h
        exact h ▸ hni
      | item_trait id =>
        simp [ret_visit_item, bind_ok] at h
        exact h ▸ hni
      | item_mac id =>
        simp [ret_visit_item, bind_ok] at h
        exact h ▸ hni
    · -- ret_visit_items
      intro is r r' hok h hni
      cases is with
      | nil =>
        simp [ret_visit_items] at h
        exact h ▸ hni
      | cons i is =>
        simp only [h_ok_items, Bool.and_eq_true] at hok
        simp only [ret_visit_items] at h
        rw [bind_ok] at h
        obtain ⟨r1, h1, h2⟩ := h
        exact ihitems _ _ _ hok.2 h2 (ihitem _ _ _ hok.1 h1 hni)
    · -- ret_visit_methods
      intro ms r r' hok h hni
      cases ms with
      | nil =>
        simp [ret_visit_methods] at h
        exact h ▸ hni
      | cons m ms =>
        cases m with
        | mk mid mtps minl mbody =>
          obtain ⟨⟨hne, hb⟩, hms⟩ : (_ ∧ _) ∧ _ := by
            simpa [h_ok_methods, Bool.and_eq_true] using hok
          simp only [ret_visit_methods] at h
          rw [bind_ok] at h
          obtain ⟨r1, h1, h2⟩ := h
          exact ihmeths _ _ _ hms h2 (ihblk _ _ _ hb (by simpa [Method.body] using h1) hni)
    · -- ret_visit_block
      intro b r r' hok h hni
      cases b with
      | mk stmts =>
        simp only [ret_visit_block] at h
        simp only [h_ok_block] at hok
        exact ihstmts _ _ _ hok h hni
    · -- ret_visit_stmts
      intro ss r r' hok h hni
      cases ss with
      | nil =>
        simp [ret_visit_stmts] at h
        exact h ▸ hni
      | cons s ss =>
        cases s with
        | stmt_expr e =>
          simp only [h_ok_stmts, Bool.and_eq_true] at hok
          simp only [ret_visit_stmts] at h
          exact ihstmts _ _ _ hok.2 h hni
        | stmt_item i =>
          obtain ⟨⟨hne, hiok⟩, hsok⟩ : (_ ∧ _) ∧ _ := by
            simpa [h_ok_stmts, Bool.and_eq_true] using hok
          simp only [ret_visit_stmts] at h
          rw [bind_ok] at h
          obtain ⟨r1, h1, h2⟩ := h
          exact ihstmts _ _ _ hsok h2 (ihitem _ _ _ hiok h1 hni)

/-- Claim C5: generic/inline transitivity of reachability. If an exported
function `f` (its definition reference listed in the crate's export entry,
resolving to the item `fitem`) is, wherever its id can be inserted, a
generic-or-inline function whose body holds a symbol reference `pid`
resolving to a local function item `gitem`, then a completed run of
`find_reachable` marks `gitem.id`. And a function id `hid` that nothing
references (`h_unreferenced`) and that is shielded in the crate
(`h_ok_items`, with the crate's own export entry nonempty whenever an item
with id `hid` is a direct child of the top module) is absent from the
returned set — a function's body is walked exactly when it has type
parameters or carries an inlining directive, so `g` is dragged in through
`f`'s walked body while `h` stays out. -/
theorem c5_generic_inline_transitivity (cx : ctx) (m : List Item) (fuel : Nat)
    (r : RMap) (fdid gdid : def_id) (fitem gitem : Item) (pid hid : Nat)
    (l : List def_id)
    (hfc : fdid.crate = local_crate)
    (hfit : lookupA cx.items fdid.node = some (.node_item fitem))
    (hexp : lookupA cx.exp_map2 crate_node_id = some l)
    (hmem : fdid ∈ l)
    (hdm : lookupA cx.def_map pid = some (.def_other gdid))
    (hgc : gdid.crate = local_crate)
    (hgit : lookupA cx.items gdid.node = some (.node_item gitem))
    (hshape : f_shape cx m fitem.id pid = true)
    (hunref : h_unreferenced cx hid = true)
    (hhok : h_ok_items cx hid m = true)
    (hshield : (m.any (fun c => c.id == hid)) = true →
      ∃ d ds, lookupA cx.exp_map2 crate_node_id = some (d :: ds))
    (hrun : find_reachable cx fuel m = .ok r) :
    gitem.id ∈ r ∧ hid ∉ r := by
  simp only [find_reachable] at hrun
  rw [bind_ok] at hrun
  obtain ⟨r1, hpm, hret⟩ := hrun
  cases fuel with
  | zero => simp [traverse_public_mod] at hpm
  | succ n =>
    cases n with
    | zero =>
      simp [traverse_public_mod, traverse_exports, Bind.bind, Except.bind] at hpm
    | succ n =>
      have hpm0 := hpm
      cases l with
      | nil => simp at hmem
      | cons d ds =>
        simp only [traverse_public_mod, traverse_exports, hexp] at hpm
        cases hL : traverse_exports_list cx n (d :: ds) [] with
        | error e => simp [Bind.bind, Except.bind, hL] at hpm
        | ok r2 =>
          simp [Bind.bind, Except.bind, hL] at hpm
          simp only [traverse_all_resources_and_impls] at hret
          have hfmap : cx.items.all (fun p => f_ok_node fitem.id pid p.2) = true := by
            have hs := hshape
            simp only [f_shape, Bool.and_eq_true] at hs
            exact hs.2
          have hfin : fitem.id ∈ r2 := exports_list_marks hfc hfit hmem hL
          have hg1 : gitem.id ∈ r2 :=
            (est_all cx fitem.id pid gdid gitem hdm hgc hgit hfmap n).2.1
              (d :: ds) [] r2 hL (by simp) hfin
          have hg1' : gitem.id ∈ r1 := hpm ▸ hg1
          have hg : gitem.id ∈ r := (ret_mono_all cx (n + 1)).2.1 m r1 r hret hg1'
          have hun := hunref
          simp only [h_unreferenced, Bool.and_eq_true] at hun
          obtain ⟨⟨⟨hexp_t, hdef_t⟩, hmeth_t⟩, hnode_t⟩ := hun
          have hh1 : hid ∉ r1 :=
            (nm_all cx hid hexp_t hdef_t hmeth_t hnode_t (n + 2)).2.2.2.1
              crate_node_id m [] r1 hhok hshield hpm0 (by simp)
          have hh : hid ∉ r :=
            (nm_ret cx hid hexp_t hdef_t hmeth_t hnode_t (n + 1)).2.1
              m r1 r hhok hret hh1
          exact ⟨hg, hh⟩

/-- Witness for C5 on the `f`/`g`/`h` crate: the exported generic `f`
(id 10) references `g` (id 20) in its body, `h` (id 40) is unreferenced;
the completed run returns `[20, 10]`, which holds `g` and misses `h`. -/
theorem c5_witness :
    Item.id g_item ∈ ([20, 10] : RMap) ∧ (40 : Nat) ∉ ([20, 10] : RMap) :=
  c5_generic_inline_transitivity cx_c5 crate_c5 12 [20, 10] ⟨0, 10⟩ ⟨0, 20⟩
    f_item g_item 30 40 [⟨0, 10⟩] rfl rfl rfl (by decide) rfl rfl rfl
    (by decide) (by decide) (by decide) (fun _ => ⟨⟨0, 10⟩, [], rfl⟩) rfl

/-- `ucount` as a `countP` over the universe. -/
theorem ucount_eq (u r : List Nat) :
    ucount u r = u.countP (fun x => decide (x ∉ r)) := by
  unfold ucount
  rw [← List.countP_eq_length_filter]
  congr 1
  funext x
  simp

/-- The unmarked count is antitone in the map. -/
theorem ucount_anti {u r r' : List Nat} (h : r ⊆ r') : ucount u r' ≤ ucount u r := by
  rw [ucount_eq, ucount_eq]
  apply List.countP_mono_left
  intro x _ hx
  simp at hx ⊢
  exact fun hxr => hx (h hxr)

/-- Inserting an unmarked id of the universe strictly decreases the
unmarked count. -/
theorem ucount_insert_lt {u r : List Nat} {i : Nat} (hu : i ∈ u) (hr : i ∉ r) :
    ucount u (rinsert i r) < ucount u r := by
  have hins : rinsert i r = i :: r := by simp [rinsert, hr]
  rw [hins]
  obtain ⟨s, t, rfl⟩ := List.append_of_mem hu
  rw [ucount_eq, ucount_eq]
  rw [List.countP_append, List.countP_append, List.countP_cons, List.countP_cons]
  have h1 : List.countP (fun x => decide (x ∉ (i :: r))) s ≤
      List.countP (fun x => decide (x ∉ r)) s := by
    apply List.countP_mono_left
    intro x _ hx
    simp at hx ⊢
    exact hx.2
  have h2 : List.countP (fun x => decide (x ∉ (i :: r))) t ≤
      List.countP (fun x => decide (x ∉ r)) t := by
    apply List.countP_mono_left
    intro x _ hx
    simp at hx ⊢
    exact hx.2
  rw [if_neg (show ¬(decide (i ∉ (i :: r)) = true) by simp),
    if_pos (show decide (i ∉ r) = true by simpa using hr)]
  omega

/-- Every element's value is below the running maximum of a fold. -/
theorem le_foldr_max {α : Type} (f : α → Nat) (a0 : Nat) :
    ∀ (l : List α), ∀ x ∈ l, f x ≤ l.foldr (fun p acc => max (f p) acc) a0 := by
  intro l
  induction l with
  | nil => intro x hx; exact absurd hx (List.not_mem_nil x)
  | cons a l ih =>
    intro x hx
    rcases List.mem_cons.mp hx with rfl | hx'
    · simp [List.foldr]
    · exact le_trans (ih x hx') (by simp [List.foldr])

/-- The seed is below the running maximum of a fold. -/
theorem init_le_foldr_max {α : Type} (f : α → Nat) (a0 : Nat) :
    ∀ (l : List α), a0 ≤ l.foldr (fun p acc => max (f p) acc) a0 := by
  intro l
  induction l with
  | nil => simp
  | cons a l ih => exact le_trans ih (by simp [List.foldr])

/-- The ids of every item-tree node sit inside the universe of the run. -/
theorem node_ids_subset_u_of {cx : ctx} {m : List Item} {p : Nat × ast_map_node}
    (hp : p ∈ cx.items) : node_ids p.2 ⊆ u_of cx m := by
  intro x hx
  unfold u_of
  refine List.mem_append_right _ ?_
  exact List.mem_flatMap.mpr ⟨p, hp, hx⟩

/-- The crate's insertable ids sit inside the universe of the run. -/
theorem items_ids_subset_u_of {cx : ctx} {m : List Item} : items_ids m ⊆ u_of cx m := by
  intro x hx
  unfold u_of
  exact List.mem_append_left _ hx

/-- Measure step for a subcall at the same or a larger map with a smaller
per-task component. -/
theorem meas_step {c' c K m' mm N : Nat} (h1 : c' ≤ c) (h2 : m' < mm)
    (h3 : c * K + mm < N + 1) : c' * K + m' < N := by
  have h4 : c' * K ≤ c * K := Nat.mul_le_mul_right K h1
  omega

/-- Measure step for a subcall after a strict drop of the unmarked count,
with any per-task component below the budget. -/
theorem meas_drop {c' c K m' mm N : Nat} (h1 : c' < c) (h2 : m' < K)
    (h3 : c * K + mm < N + 1) : c' * K + m' < N := by
  have h4 : (c' + 1) * K ≤ c * K := Nat.mul_le_mul_right K h1
  have h5 : (c' + 1) * K = c' * K + K := by ring
  omega

/-- Measure step into a guarded task (whose measure carries no per-task
component). -/
theorem meas_weak {c' c K mm N : Nat} (h1 : c' ≤ c) (h2 : 0 < mm)
    (h3 : c * K + mm < N + 1) : c' * K < N := by
  have h4 : c' * K ≤ c * K := Nat.mul_le_mul_right K h1
  omega

/-- Measure step out of a guarded task after a strict drop of the unmarked
count. -/
theorem meas_drop_weak {c' c K m' N : Nat} (h1 : c' < c) (h2 : m' < K)
    (h3 : c * K < N + 1) : c' * K + m' < N := by
  have h4 : (c' + 1) * K ≤ c * K := Nat.mul_le_mul_right K h1
  have h5 : (c' + 1) * K = c' * K + K := by ring
  omega

/-- Multiplying a strict inequality by a positive factor. -/
theorem mulW_lt {W a b : Nat} (hW : 0 < W) (h : a < b) : W * a < W * b := by
  have h1 : W * (a + 1) ≤ W * b := Nat.mul_le_mul_left W h
  have h2 : W * (a + 1) = W * a + W := by ring
  omega

/-- A bind never exhausts the fuel when neither side does. -/
theorem neq_oof_bind {α β : Type} {x : Except Err α} {f : α → Except Err β}
    (hx : x ≠ .error .out_of_fuel)
    (hf : ∀ a, x = .ok a → f a ≠ .error .out_of_fuel) :
    (x >>= f) ≠ .error .out_of_fuel := by
  cases x with
  | error e =>
    simp [Bind.bind, Except.bind]
    intro he
    exact hx (by rw [he])
  | ok a => simpa [Bind.bind, Except.bind] using hf a rfl

/-- Every item's structural size is positive. -/
theorem isize_pos (i : Item) : 1 ≤ isize i := by
  cases i with
  | item_impl id tps ms_opt => cases ms_opt <;> (simp only [isize]; omega)
  | item_class id tps dtor ms =>
    cases dtor with
    | none => simp only [isize]; omega
    | some d => cases d; simp only [isize]; omega
  | item_mod id items => simp only [isize]; omega
  | item_foreign_mod id fids => simp only [isize]; omega
  | item_fn id tps inl blk => simp only [isize]; omega
  | item_ty id t => simp only [isize]; omega
  | item_const id => simp only [isize]; omega
  | item_enum id => simp only [isize]; omega
  | item_trait id => simp only [isize]; omega
  | item_mac id => simp only [isize]; omega

/-- Every block's structural size is positive. -/
theorem bsize_pos (b : Block) : 1 ≤ bsize b := by
  cases b <;> (simp only [bsize]; omega)

/-- Every expression's structural size is positive. -/
theorem esize_pos (e : Expr) : 1 ≤ esize e := by
  cases e <;> (simp only [esize]; omega)

/-- Every type expression's structural size is positive. -/
theorem tysize_pos (t : Ty) : 1 ≤ tysize t := by
  cases t <;> (simp only [tysize]; omega)

set_option maxHeartbeats 2000000 in
/-- Sufficient fuel for every traversal task: under a rank certificate for
the method-node redirections and bounds on the tables, a run whose fuel
exceeds the task's measure never exhausts it. Proof by strong induction on
the fuel: every frame's subcalls run at one unit less, and their measures
drop by at least one — structurally within one marking epoch, and by a
whole `Kc` budget whenever a fresh id of the universe is marked. -/
theorem term_all (cx : ctx) (u : List Nat) (rank : Nat → Nat) (R EB SB : Nat)
    (hrank : hops_rank_ok rank R cx = true)
    (hEB : ∀ p ∈ cx.exp_map2, p.2.length ≤ EB)
    (hSB : ∀ p ∈ cx.items, nsize p.2 ≤ SB)
    (hUN : ∀ p ∈ cx.items, node_ids p.2 ⊆ u) :
    ∀ N, TermConj cx u rank R EB SB N := by
  simp only [hops_rank_ok] at hrank
  intro N
  induction N using Nat.strong_induction_on with
  | _ N ih =>
  cases N with
  | zero =>
    simp only [TermConj]
    refine ⟨?_, ?_, ?_, ?_, ?_, ?_, ?_, ?_, ?_, ?_, ?_, ?_, ?_, ?_, ?_, ?_, ?_,
      ?_, ?_, ?_, ?_, ?_⟩ <;> (intros; omega)
  | succ n =>
  have ihn := ih n (Nat.lt_succ_self n)
  simp only [TermConj] at ihn
  obtain ⟨ih1, ih2, ih3, ih4, ih5, ih6, ih7, ih8, ih9, ih10, ih11, ih12, ih13,
    ih14, ih15, ih16, ih17, ih18, ih19, ih20, ih21, ih22⟩ := ihn
  obtain ⟨mexp, mexpl, mdef, mpmod, mmi, mpi, mim, mcm, mty, mtyl, minb, mblk,
    mstmts, mexpr, mechld, mexprs, mblks⟩ := traverse_mono_all cx n
  obtain ⟨rmi, rmis, rmms, rmb, rms⟩ := ret_mono_all cx n
  have hW : 0 < R + 3 := by omega
  simp only [TermConj]
  refine ⟨?_, ?_, ?_, ?_, ?_, ?_, ?_, ?_, ?_, ?_, ?_, ?_, ?_, ?_, ?_, ?_, ?_,
    ?_, ?_, ?_, ?_, ?_⟩
  · -- traverse_exports
    intro mod_id r hμ
    simp only [traverse_exports]
    cases heq : lookupA cx.exp_map2 mod_id with
    | none => simp
    | some l =>
      apply neq_oof_bind
      · have hlen : l.length ≤ EB := by
          have h := hEB _ (lookupA_mem heq)
          simpa using h
        exact ih2 l r hlen
          (meas_step (le_refl _) (mulW_lt hW (by omega)) hμ)
      · intro r1 h1
        simp
  · -- traverse_exports_list
    intro l r hlen hμ
    cases l with
    | nil => simp [traverse_exports_list]
    | cons e2 e2s =>
      simp only [traverse_exports_list]
      apply neq_oof_bind
      · apply ih3 e2 r
        have hm : min (rank e2.node) R + 2 < (R + 3) * (4 * (e2 :: e2s).length + 1) := by
          have h1 := Nat.mul_le_mul_left (R + 3)
            (show 1 ≤ 4 * (e2 :: e2s).length + 1 by simp)
          have h2 := Nat.min_le_right (rank e2.node) R
          omega
        exact meas_step (le_refl _) hm hμ
      · intro r1 h1
        apply ih2 e2s r1 (by simp at hlen; omega)
        refine meas_step (ucount_anti (mdef _ _ _ h1)) (mulW_lt hW (by simp only [List.length_cons]; omega)) hμ
  · -- traverse_def_id
    intro did r hμ
    simp only [traverse_def_id]
    by_cases hdc : did.crate ≠ local_crate
    · simp [hdc]
    · rw [if_neg hdc]
      cases heq : lookupA cx.items did.node with
      | none => simp
      | some nd =>
        cases nd with
        | node_item item =>
          apply ih6 item r
          · have h := hUN _ (lookupA_mem heq)
            simpa [node_ids] using h
          · have h := hSB _ (lookupA_mem heq)
            simpa [nsize] using h
          · exact meas_weak (le_refl _) (by omega) hμ
        | node_method d =>
          have hent := List.all_eq_true.mp hrank _ (lookupA_mem heq)
          by_cases hd2 : d.crate = local_crate
          · simp only [hd2] at hent
            simp at hent
            obtain ⟨hlt, hle⟩ := hent
            apply ih3 d r
            have hm1 : min (rank d.node) R = rank d.node :=
              Nat.min_eq_left (by omega)
            have hm2 : min (rank did.node) R = rank did.node :=
              Nat.min_eq_left hle
            rw [hm1]
            rw [hm2] at hμ
            exact meas_step (le_refl _) (by omega) hμ
          · have hn2 : 2 ≤ n := by omega
            obtain ⟨n', rfl⟩ : ∃ n', n = n' + 1 := ⟨n - 1, by omega⟩
            simp [traverse_def_id, hd2]
        | node_foreign_item fid => simp
        | node_variant vid => simp
        | node_other => simp
  · -- traverse_public_mod
    intro mod_id ms r hcl hsz hμ
    simp only [traverse_public_mod]
    apply neq_oof_bind
    · exact ih1 mod_id r (meas_step (le_refl _) (mulW_lt hW (by omega)) hμ)
    · intro p hp
      obtain ⟨b, r1⟩ := p
      cases b with
      | true => simp
      | false =>
        simp only [Bool.not_false, if_true]
        apply ih5 ms r1 hcl hsz
        exact meas_step (ucount_anti (mexp _ _ _ _ hp)) (mulW_lt hW (by omega)) hμ
  · -- traverse_mod_items
    intro ms r hcl hsz hμ
    cases ms with
    | nil => simp [traverse_mod_items]
    | cons i is =>
      have hsz' : 1 + isize i + ilsize is ≤ SB := by
        simpa [ilsize] using hsz
      simp only [traverse_mod_items]
      apply neq_oof_bind
      · apply ih6 i r
        · intro x hx
          exact hcl (by simp [items_ids]; tauto)
        · omega
        · exact meas_weak (le_refl _) (Nat.mul_pos hW (by omega)) hμ
      · intro r1 h1
        apply ih5 is r1
        · intro x hx
          exact hcl (by simp [items_ids]; tauto)
        · omega
        · refine meas_step (ucount_anti (mpi _ _ _ h1)) (mulW_lt hW ?_) hμ
          have := isize_pos i
          simp only [ilsize]
          omega
  · -- traverse_public_item
    intro i r hcl hsz hμ
    simp only [traverse_public_item]
    by_cases hmem : i.id ∈ r
    · rw [if_pos hmem]
      simp
    · rw [if_neg hmem]
      have hid_u : i.id ∈ u := by
        apply hcl
        cases i with
        | item_impl id tps ms_opt => cases ms_opt <;> simp [item_ids, Item.id]
        | item_class id tps dtor ms =>
          rcases dtor with _ | ⟨a, b, c⟩ <;> simp [item_ids, Item.id]
        | item_mod id items => simp [item_ids, Item.id]
        | item_foreign_mod id fids => simp [item_ids, Item.id]
        | item_fn id tps inl blk => simp [item_ids, Item.id]
        | item_ty id t => simp [item_ids, Item.id]
        | item_const id => simp [item_ids, Item.id]
        | item_enum id => simp [item_ids, Item.id]
        | item_trait id => simp [item_ids, Item.id]
        | item_mac id => simp [item_ids, Item.id]
      have hdrop : ucount u (rinsert i.id r) < ucount u r := ucount_insert_lt hid_u hmem
      cases i with
      | item_mod id items =>
        simp only [Item.id] at hdrop ⊢
        have hsz' : 1 + ilsize items ≤ SB := by simpa [isize] using hsz
        apply ih4 id items (rinsert id r)
        · intro x hx
          exact hcl (by simp [item_ids]; tauto)
        · omega
        · refine meas_drop_weak hdrop ?_ hμ
          unfold Kc
          exact mulW_lt hW (by omega)
      | item_foreign_mod id fids =>
        simp only [Item.id] at hdrop ⊢
        apply neq_oof_bind
        · refine ih1 id (rinsert id r) (meas_drop_weak hdrop ?_ hμ)
          unfold Kc
          exact mulW_lt hW (by omega)
        · intro p hp
          obtain ⟨b, r1⟩ := p
          cases b <;> simp
      | item_fn id tps inl blk =>
        simp only [Item.id] at hdrop ⊢
        have hsz' : 1 + bsize blk ≤ SB := by simpa [isize] using hsz
        by_cases hgen : tps > 0 ∨ inl = true
        · rw [if_pos hgen]
          apply ih11 blk (rinsert id r)
          · intro x hx
            exact hcl (by simp [item_ids]; tauto)
          · omega
          · refine meas_drop_weak hdrop ?_ hμ
            unfold Kc
            exact mulW_lt hW (by omega)
        · rw [if_neg hgen]
          simp
      | item_impl id tps ms_opt =>
        simp only [Item.id] at hdrop ⊢
        cases ms_opt with
        | none => simp
        | some ms =>
          have hsz' : 1 + msize ms ≤ SB := by simpa [isize] using hsz
          apply ih7 tps ms (rinsert id r)
          · intro x hx
            exact hcl (by simp [item_ids]; tauto)
          · omega
          · refine meas_drop_weak hdrop ?_ hμ
            unfold Kc
            exact mulW_lt hW (by omega)
      | item_class id tps dtor methods =>
        simp only [Item.id] at hdrop ⊢
        apply neq_oof_bind
        · cases dtor with
          | none => simp
          | some d =>
            cases d with
            | mk did dinl dbody =>
              have hsz' : 1 + (1 + bsize dbody) + msize methods ≤ SB := by
                simpa [isize] using hsz
              simp only [Dtor.id, Dtor.inl, Dtor.body]
              by_cases hgen : tps > 0 ∨ dinl = true
              · rw [if_pos hgen]
                apply ih11 dbody (rinsert did (rinsert id r))
                · intro x hx
                  exact hcl (by simp [item_ids]; tauto)
                · omega
                · refine meas_drop_weak
                    (lt_of_le_of_lt (ucount_anti rinsert_subset) hdrop) ?_ hμ
                  unfold Kc
                  exact mulW_lt hW (by omega)
              · rw [if_neg hgen]
                simp
        · intro r2 h2
          have hsub : rinsert id r ⊆ r2 := by
            cases dtor with
            | none =>
              simp at h2
              exact h2 ▸ List.Subset.refl _
            | some d =>
              cases d with
              | mk did dinl dbody =>
                simp only [Dtor.id, Dtor.inl, Dtor.body] at h2
                by_cases hgen : tps > 0 ∨ dinl = true
                · rw [if_pos hgen] at h2
                  exact rinsert_subset.trans (minb _ _ _ h2)
                · rw [if_neg hgen] at h2
                  simp at h2
                  exact h2 ▸ rinsert_subset
          have hszm : msize methods ≤ SB := by
            cases dtor with
            | none =>
              have : 1 + msize methods ≤ SB := by simpa [isize] using hsz
              omega
            | some d =>
              cases d with
              | mk did dinl dbody =>
                have : 1 + (1 + bsize dbody) + msize methods ≤ SB := by
                  simpa [isize] using hsz
                omega
          apply ih8 tps methods r2
          · intro x hx
            apply hcl
            cases dtor with
            | none => simp [item_ids]; tauto
            | some d =>
              cases d with
              | mk did dinl dbody => simp [item_ids]; tauto
          · exact hszm
          · refine meas_drop_weak (lt_of_le_of_lt (ucount_anti hsub) hdrop) ?_ hμ
            unfold Kc
            exact mulW_lt hW (by omega)
      | item_ty id t =>
        simp only [Item.id] at hdrop ⊢
        have hsz' : 1 + tysize t ≤ SB := by simpa [isize] using hsz
        apply ih9 t (rinsert id r)
        · intro x hx
          exact hcl (by simp [item_ids]; tauto)
        · omega
        · have h := meas_drop_weak hdrop (show 0 < Kc R EB SB by
            unfold Kc; exact Nat.mul_pos hW (by omega)) hμ
          omega
      | item_const id => simp
      | item_enum id => simp
      | item_trait id => simp
      | item_mac id => simp
  · -- traverse_impl_methods
    intro tps ms r hcl hsz hμ
    cases ms with
    | nil => simp [traverse_impl_methods]
    | cons m ms =>
      cases m with
      | mk mid mtps minl mbody =>
        have hsz' : 1 + bsize mbody + msize ms ≤ SB := by simpa [msize] using hsz
        simp only [traverse_impl_methods, Method.tps, Method.inl, Method.id,
          Method.body]
        by_cases hgen : tps > 0 ∨ mtps > 0 ∨ minl = true
        · rw [if_pos hgen]
          apply neq_oof_bind
          · apply ih11 mbody (rinsert mid r)
            · intro x hx
              exact hcl (by simp [methods_ids]; tauto)
            · omega
            · refine meas_step (ucount_anti rinsert_subset) (mulW_lt hW ?_) hμ
              simp only [msize]
              omega
          · intro r1 h1
            apply ih7 tps ms r1
            · intro x hx
              exact hcl (by simp [methods_ids]; tauto)
            · omega
            · refine meas_step
                (ucount_anti (rinsert_subset.trans (minb _ _ _ h1)))
                (mulW_lt hW ?_) hμ
              have := bsize_pos mbody
              simp only [msize]
              omega
        · rw [if_neg hgen]
          apply ih7 tps ms r
          · intro x hx
            exact hcl (by simp [methods_ids]; tauto)
          · omega
          · refine meas_step (le_refl _) (mulW_lt hW ?_) hμ
            have := bsize_pos mbody
            simp only [msize]
            omega
  · -- traverse_class_methods
    intro tps ms r hcl hsz hμ
    cases ms with
    | nil => simp [traverse_class_methods]
    | cons m ms =>
      cases m with
      | mk mid mtps minl mbody =>
        have hsz' : 1 + bsize mbody + msize ms ≤ SB := by simpa [msize] using hsz
        simp only [traverse_class_methods, Method.tps, Method.inl, Method.id,
          Method.body]
        apply neq_oof_bind
        · by_cases hgen : tps > 0 ∨ minl = true
          · rw [if_pos hgen]
            apply ih11 mbody (rinsert mid r)
            · intro x hx
              exact hcl (by simp [methods_ids]; tauto)
            · omega
            · refine meas_step (ucount_anti rinsert_subset) (mulW_lt hW ?_) hμ
              simp only [msize]
              omega
          · rw [if_neg hgen]
            simp
        · intro r1 h1
          have hsub : r ⊆ r1 := by
            by_cases hgen : tps > 0 ∨ minl = true
            · rw [if_pos hgen] at h1
              exact rinsert_subset.trans (minb _ _ _ h1)
            · rw [if_neg hgen] at h1
              simp at h1
              exact h1 ▸ rinsert_subset
          apply ih8 tps ms r1
          · intro x hx
            exact hcl (by simp [methods_ids]; tauto)
          · omega
          · refine meas_step (ucount_anti hsub) (mulW_lt hW ?_) hμ
            have := bsize_pos mbody
            simp only [msize]
            omega
  · -- traverse_ty
    intro t r hcl hsz hμ
    simp only [traverse_ty]
    by_cases hmem : t.id ∈ r
    · rw [if_pos hmem]
      simp
    · rw [if_neg hmem]
      have hid_u : t.id ∈ u := by
        apply hcl
        cases t <;> simp [ty_ids, Ty.id]
      have hdrop : ucount u (rinsert t.id r) < ucount u r := ucount_insert_lt hid_u hmem
      cases t with
      | ty_path id types p_id =>
        simp only [Ty.id] at hdrop ⊢
        have hsz' : 1 + tylsize types ≤ SB := by simpa [tysize] using hsz
        apply neq_oof_bind
        · cases heq : lookupA cx.def_map p_id with
          | none => simp
          | some d =>
            cases d with
            | def_prim_ty => simp
            | def_other d2 =>
              simp only [def_id_of_def]
              apply ih3 d2 (rinsert id r)
              refine meas_drop_weak hdrop ?_ hμ
              have h1 := Nat.mul_le_mul_left (R + 3)
                (show 1 ≤ 4 * (SB + EB) + 20 by omega)
              have h2 := Nat.min_le_right (rank d2.node) R
              unfold Kc
              omega
        · intro r1 h1
          have hsub : rinsert id r ⊆ r1 := by
            cases heq : lookupA cx.def_map p_id with
            | none =>
              rw [heq] at h1
              simp at h1
              exact h1 ▸ List.Subset.refl _
            | some d =>
              rw [heq] at h1
              cases d with
              | def_prim_ty =>
                simp at h1
                exact h1 ▸ List.Subset.refl _
              | def_other d2 =>
                simp only [def_id_of_def] at h1
                exact mdef _ _ _ h1
          apply ih10 types r1
          · intro x hx
            exact hcl (by simp [ty_ids]; tauto)
          · omega
          · refine meas_drop_weak (lt_of_le_of_lt (ucount_anti hsub) hdrop) ?_ hμ
            unfold Kc
            exact mulW_lt hW (by omega)
      | ty_other id kids =>
        simp only [Ty.id] at hdrop ⊢
        have hsz' : 1 + tylsize kids ≤ SB := by simpa [tysize] using hsz
        apply ih10 kids (rinsert id r)
        · intro x hx
          exact hcl (by simp [ty_ids]; tauto)
        · omega
        · refine meas_drop_weak hdrop ?_ hμ
          unfold Kc
          exact mulW_lt hW (by omega)
  · -- traverse_ty_list
    intro ts r hcl hsz hμ
    cases ts with
    | nil => simp [traverse_ty_list]
    | cons t ts =>
      have hsz' : 1 + tysize t + tylsize ts ≤ SB := by simpa [tylsize] using hsz
      simp only [traverse_ty_list]
      apply neq_oof_bind
      · apply ih9 t r
        · intro x hx
          exact hcl (by simp [tys_ids]; tauto)
        · omega
        · exact meas_weak (le_refl _) (Nat.mul_pos hW (by omega)) hμ
      · intro r1 h1
        apply ih10 ts r1
        · intro x hx
          exact hcl (by simp [tys_ids]; tauto)
        · omega
        · refine meas_step (ucount_anti (mty _ _ _ h1)) (mulW_lt hW ?_) hμ
          have := tysize_pos t
          simp only [tylsize]
          omega
  · -- traverse_inline_body
    intro b r hcl hsz hμ
    simp only [traverse_inline_body]
    exact ih12 b r hcl hsz (meas_step (le_refl _) (mulW_lt hW (by omega)) hμ)
  · -- traverse_block
    intro b r hcl hsz hμ
    cases b with
    | mk stmts =>
      have hsz' : 1 + sssize stmts ≤ SB := by simpa [bsize] using hsz
      simp only [traverse_block]
      apply ih13 stmts r
      · intro x hx
        exact hcl (by simpa [block_ids] using hx)
      · omega
      · exact meas_step (le_refl _) (mulW_lt hW (by simp only [bsize]; omega)) hμ
  · -- traverse_stmts
    intro ss r hcl hsz hμ
    cases ss with
    | nil => simp [traverse_stmts]
    | cons s ss =>
      cases s with
      | stmt_expr e =>
        have hsz' : 1 + esize e + sssize ss ≤ SB := by simpa [sssize] using hsz
        simp only [traverse_stmts]
        apply neq_oof_bind
        · apply ih14 e r
          · intro x hx
            exact hcl (by simp [stmts_ids]; tauto)
          · omega
          · refine meas_step (le_refl _) (mulW_lt hW ?_) hμ
            simp only [sssize]
            omega
        · intro r1 h1
          apply ih13 ss r1
          · intro x hx
            exact hcl (by simp [stmts_ids]; tauto)
          · omega
          · refine meas_step (ucount_anti (mexpr _ _ _ h1)) (mulW_lt hW ?_) hμ
            have := esize_pos e
            simp only [sssize]
            omega
      | stmt_item i =>
        have hsz' : 1 + isize i + sssize ss ≤ SB := by simpa [sssize] using hsz
        simp only [traverse_stmts]
        apply neq_oof_bind
        · apply ih6 i r
          · intro x hx
            exact hcl (by simp [stmts_ids]; tauto)
          · omega
          · exact meas_weak (le_refl _) (Nat.mul_pos hW (by omega)) hμ
        · intro r1 h1
          apply ih13 ss r1
          · intro x hx
            exact hcl (by simp [stmts_ids]; tauto)
          · omega
          · refine meas_step (ucount_anti (mpi _ _ _ h1)) (mulW_lt hW ?_) hμ
            have := isize_pos i
            simp only [sssize]
            omega
  · -- traverse_expr
    intro e r hcl hsz hμ
    cases e with
    | expr_path id sp =>
      simp only [traverse_expr]
      apply neq_oof_bind
      · cases heq : lookupA cx.def_map id with
        | none => simp
        | some d =>
          cases d with
          | def_prim_ty => simp [def_id_of_def]
          | def_other d2 =>
            simp only [def_id_of_def]
            apply ih3 d2 r
            refine meas_step (le_refl _) ?_ hμ
            have h1 := Nat.mul_le_mul_left (R + 3)
              (show 1 ≤ 4 * esize (Expr.expr_path id sp) + 8 by omega)
            have h2 := Nat.min_le_right (rank d2.node) R
            omega
      · intro r1 h1
        have hsub : r ⊆ r1 := by
          cases heq : lookupA cx.def_map id with
          | none =>
            rw [heq] at h1
            simp at h1
          | some d =>
            rw [heq] at h1
            cases d with
            | def_prim_ty =>
              simp [def_id_of_def] at h1
              exact h1 ▸ List.Subset.refl _
            | def_other d2 =>
              simp only [def_id_of_def] at h1
              exact mdef _ _ _ h1
        apply ih15 _ r1 hcl hsz
        exact meas_step (ucount_anti hsub) (mulW_lt hW (by omega)) hμ
    | expr_field id kids =>
      simp only [traverse_expr]
      apply neq_oof_bind
      · cases heq : lookupA cx.method_map id with
        | none => simp
        | some mo =>
          cases mo with
          | method_other => simp
          | method_static d2 =>
            apply ih3 d2 r
            refine meas_step (le_refl _) ?_ hμ
            have h1 := Nat.mul_le_mul_left (R + 3)
              (show 1 ≤ 4 * esize (Expr.expr_field id kids) + 8 by
                have := esize_pos (Expr.expr_field id kids)
                omega)
            have h2 := Nat.min_le_right (rank d2.node) R
            omega
      · intro r1 h1
        have hsub : r ⊆ r1 := by
          cases heq : lookupA cx.method_map id with
          | none =>
            rw [heq] at h1
            simp at h1
            exact h1 ▸ List.Subset.refl _
          | some mo =>
            rw [heq] at h1
            cases mo with
            | method_other =>
              simp at h1
              exact h1 ▸ List.Subset.refl _
            | method_static d2 => exact mdef _ _ _ h1
        apply ih15 _ r1 hcl hsz
        exact meas_step (ucount_anti hsub) (mulW_lt hW (by omega)) hμ
    | expr_other id kids blks =>
      simp only [traverse_expr]
      apply neq_oof_bind
      · simp
      · intro r1 h1
        simp at h1
        subst h1
        apply ih15 _ r hcl hsz
        exact meas_step (le_refl _) (mulW_lt hW (by omega)) hμ
  · -- traverse_expr_children
    intro e r hcl hsz hμ
    cases e with
    | expr_path id sp => simp [traverse_expr_children]
    | expr_field id kids =>
      have hsz' : 1 + elsize kids ≤ SB := by simpa [esize] using hsz
      simp only [traverse_expr_children]
      apply ih16 kids r
      · intro x hx
        exact hcl (by simpa [expr_ids] using hx)
      · omega
      · exact meas_step (le_refl _) (mulW_lt hW (by simp only [esize]; omega)) hμ
    | expr_other id kids blks =>
      have hsz' : 1 + elsize kids + blsize blks ≤ SB := by simpa [esize] using hsz
      simp only [traverse_expr_children]
      apply neq_oof_bind
      · apply ih16 kids r
        · intro x hx
          exact hcl (by simp [expr_ids]; tauto)
        · omega
        · refine meas_step (le_refl _) (mulW_lt hW ?_) hμ
          simp only [esize]
          omega
      · intro r1 h1
        apply ih17 blks r1
        · intro x hx
          exact hcl (by simp [expr_ids]; tauto)
        · omega
        · refine meas_step (ucount_anti (mexprs _ _ _ h1)) (mulW_lt hW ?_) hμ
          simp only [esize]
          omega
  · -- traverse_exprs
    intro es r hcl hsz hμ
    cases es with
    | nil => simp [traverse_exprs]
    | cons e es =>
      have hsz' : 1 + esize e + elsize es ≤ SB := by simpa [elsize] using hsz
      simp only [traverse_exprs]
      apply neq_oof_bind
      · apply ih14 e r
        · intro x hx
          exact hcl (by simp [exprs_ids]; tauto)
        · omega
        · refine meas_step (le_refl _) (mulW_lt hW ?_) hμ
          simp only [elsize]
          omega
      · intro r1 h1
        apply ih16 es r1
        · intro x hx
          exact hcl (by simp [exprs_ids]; tauto)
        · omega
        · refine meas_step (ucount_anti (mexpr _ _ _ h1)) (mulW_lt hW ?_) hμ
          have := esize_pos e
          simp only [elsize]
          omega
  · -- traverse_blocks
    intro bs r hcl hsz hμ
    cases bs with
    | nil => simp [traverse_blocks]
    | cons b bs =>
      have hsz' : 1 + bsize b + blsize bs ≤ SB := by simpa [blsize] using hsz
      simp only [traverse_blocks]
      apply neq_oof_bind
      · apply ih12 b r
        · intro x hx
          exact hcl (by simp [blocks_ids]; tauto)
        · omega
        · refine meas_step (le_refl _) (mulW_lt hW ?_) hμ
          simp only [blsize]
          omega
      · intro r1 h1
        apply ih17 bs r1
        · intro x hx
          exact hcl (by simp [blocks_ids]; tauto)
        · omega
        · refine meas_step (ucount_anti (mblk _ _ _ h1)) (mulW_lt hW ?_) hμ
          have := bsize_pos b
          simp only [blsize]
          omega
  · -- ret_visit_item
    intro i r hcl hsz hμ
    cases i with
    | item_mod id items =>
      have hsz' : 1 + ilsize items ≤ SB := by simpa [isize] using hsz
      simp only [ret_visit_item]
      apply neq_oof_bind
      · apply ih19 items r
        · intro x hx
          exact hcl (by simp [item_ids]; tauto)
        · omega
        · refine meas_step (le_refl _) (mulW_lt hW ?_) hμ
          simp only [isize]
          omega
      · intro r1 h1
        simp
    | item_foreign_mod id fids =>
      simp only [ret_visit_item]
      apply neq_oof_bind
      · simp
      · intro r1 h1
        simp
    | item_fn id tps inl blk =>
      have hsz' : 1 + bsize blk ≤ SB := by simpa [isize] using hsz
      simp only [ret_visit_item]
      apply neq_oof_bind
      · apply ih21 blk r
        · intro x hx
          exact hcl (by simp [item_ids]; tauto)
        · omega
        · refine meas_step (le_refl _) (mulW_lt hW ?_) hμ
          simp only [isize]
          omega
      · intro r1 h1
        simp
    | item_impl id tps ms_opt =>
      cases ms_opt with
      | none =>
        simp only [ret_visit_item]
        apply neq_oof_bind
        · simp
        · intro r1 h1
          simp at h1
          subst h1
          apply ih6 _ r hcl hsz
          exact meas_weak (le_refl _) (Nat.mul_pos hW (by omega)) hμ
      | some ms =>
        have hsz' : 1 + msize ms ≤ SB := by simpa [isize] using hsz
        simp only [ret_visit_item]
        apply neq_oof_bind
        · apply ih20 ms r
          · intro x hx
            exact hcl (by simp [item_ids]; tauto)
          · omega
          · refine meas_step (le_refl _) (mulW_lt hW ?_) hμ
            simp only [isize]
            omega
        · intro r1 h1
          apply ih6 _ r1 hcl hsz
          exact meas_weak (ucount_anti (rmms _ _ _ h1))
            (Nat.mul_pos hW (by omega)) hμ
    | item_class id tps dtor methods =>
      cases dtor with
      | none =>
        have hsz' : 1 + msize methods ≤ SB := by simpa [isize] using hsz
        simp only [ret_visit_item]
        apply neq_oof_bind
        · apply neq_oof_bind
          · apply ih20 methods r
            · intro x hx
              exact hcl (by simp [item_ids]; tauto)
            · omega
            · refine meas_step (le_refl _) (mulW_lt hW ?_) hμ
              simp only [isize]
              omega
          · intro r1 h1
            simp
        · intro r1 h1
          simp
      | some d =>
        cases d with
        | mk did dinl dbody =>
          have hsz' : 1 + (1 + bsize dbody) + msize methods ≤ SB := by
            simpa [isize] using hsz
          simp only [ret_visit_item, Dtor.body]
          apply neq_oof_bind
          · apply neq_oof_bind
            · apply ih20 methods r
              · intro x hx
                exact hcl (by simp [item_ids]; tauto)
              · omega
              · refine meas_step (le_refl _) (mulW_lt hW ?_) hμ
                simp only [isize]
                omega
            · intro r1 h1
              apply ih21 dbody r1
              · intro x hx
                exact hcl (by simp [item_ids]; tauto)
              · omega
              · refine meas_step (ucount_anti (rmms _ _ _ h1)) (mulW_lt hW ?_) hμ
                simp only [isize]
                omega
          · intro r1 h1
            rw [bind_ok] at h1
            obtain ⟨r2, h2, h3⟩ := h1
            apply ih6 _ r1 hcl hsz
            refine meas_weak (ucount_anti ((rmms _ _ _ h2).trans (rmb _ _ _ h3)))
              (Nat.mul_pos hW (by omega)) hμ
    | item_ty id t =>
      simp only [ret_visit_item]
      apply neq_oof_bind
      · simp
      · intro r1 h1
        simp
    | item_const id =>
      simp only [ret_visit_item]
      apply neq_oof_bind
      · simp
      · intro r1 h1
        simp
    | item_enum id =>
      simp only [ret_visit_item]
      apply neq_oof_bind
      · simp
      · intro r1 h1
        simp
    | item_trait id =>
      simp only [ret_visit_item]
      apply neq_oof_bind
      · simp
      · intro r1 h1
        simp
    | item_mac id =>
      simp only [ret_visit_item]
      apply neq_oof_bind
      · simp
      · intro r1 h1
        simp
  · -- ret_visit_items
    intro is r hcl hsz hμ
    cases is with
    | nil => simp [ret_visit_items]
    | cons i is =>
      have hsz' : 1 + isize i + ilsize is ≤ SB := by simpa [ilsize] using hsz
      simp only [ret_visit_items]
      apply neq_oof_bind
      · apply ih18 i r
        · intro x hx
          exact hcl (by simp [items_ids]; tauto)
        · omega
        · refine meas_step (le_refl _) (mulW_lt hW ?_) hμ
          simp only [ilsize]
          omega
      · intro r1 h1
        apply ih19 is r1
        · intro x hx
          exact hcl (by simp [items_ids]; tauto)
        · omega
        · refine meas_step (ucount_anti (rmi _ _ _ h1)) (mulW_lt hW ?_) hμ
          have := isize_pos i
          simp only [ilsize]
          omega
  · -- ret_visit_methods
    intro ms r hcl hsz hμ
    cases ms with
    | nil => simp [ret_visit_methods]
    | cons m ms =>
      cases m with
      | mk mid mtps minl mbody =>
        have hsz' : 1 + bsize mbody + msize ms ≤ SB := by simpa [msize] using hsz
        simp only [ret_visit_methods, Method.body]
        apply neq_oof_bind
        · apply ih21 mbody r
          · intro x hx
            exact hcl (by simp [methods_ids]; tauto)
          · omega
          · refine meas_step (le_refl _) (mulW_lt hW ?_) hμ
            simp only [msize]
            omega
        · intro r1 h1
          apply ih20 ms r1
          · intro x hx
            exact hcl (by simp [methods_ids]; tauto)
          · omega
          · refine meas_step (ucount_anti (rmb _ _ _ h1)) (mulW_lt hW ?_) hμ
            have := bsize_pos mbody
            simp only [msize]
            omega
  · -- ret_visit_block
    intro b r hcl hsz hμ
    cases b with
    | mk stmts =>
      have hsz' : 1 + sssize stmts ≤ SB := by simpa [bsize] using hsz
      simp only [ret_visit_block]
      apply ih22 stmts r
      · intro x hx
        exact hcl (by simpa [block_ids] using hx)
      · omega
      · exact meas_step (le_refl _) (mulW_lt hW (by simp only [bsize]; omega)) hμ
  · -- ret_visit_stmts
    intro ss r hcl hsz hμ
    cases ss with
    | nil => simp [ret_visit_stmts]
    | cons s ss =>
      cases s with
      | stmt_expr e =>
        have hsz' : 1 + esize e + sssize ss ≤ SB := by simpa [sssize] using hsz
        simp only [ret_visit_stmts]
        apply ih22 ss r
        · intro x hx
          exact hcl (by simp [stmts_ids]; tauto)
        · omega
        · refine meas_step (le_refl _) (mulW_lt hW ?_) hμ
          have := esize_pos e
          simp only [sssize]
          omega
      | stmt_item i =>
        have hsz' : 1 + isize i + sssize ss ≤ SB := by simpa [sssize] using hsz
        simp only [ret_visit_stmts]
        apply neq_oof_bind
        · apply ih18 i r
          · intro x hx
            exact hcl (by simp [stmts_ids]; tauto)
          · omega
          · refine meas_step (le_refl _) (mulW_lt hW ?_) hμ
            simp only [sssize]
            omega
        · intro r1 h1
          apply ih22 ss r1
          · intro x hx
            exact hcl (by simp [stmts_ids]; tauto)
          · omega
          · refine meas_step (ucount_anti (rmi _ _ _ h1)) (mulW_lt hW ?_) hμ
            have := isize_pos i
            simp only [sssize]
            omega

/-- Claim C9, amended: the analysis terminates on every finite input whose
method-node redirections admit a bounded rank certificate — some `rank`
function that strictly decreases along every local method-to-impl
redirection and never exceeds `R` (the AST map constructor guarantees this:
a method node's impl reference names the enclosing impl item, never another
method node). The already-marked guard bounds the work of item and type
nodes — marking strictly shrinks the unmarked part of the finite id
universe — and the rank bounds the unguarded redirection chains, so some
fuel completes the run. As stated (termination on *every* finite input) the
claim is false: `traverse_def_id`'s method-node redirection has no marking
guard, so an item tree whose method nodes redirect to each other cyclically
diverges. -/
theorem c9_amended (cx : ctx) (m : List Item) (rank : Nat → Nat) (R : Nat)
    (hrank : hops_rank_ok rank R cx = true) :
    terminates cx m := by
  have hEB' : ∀ p ∈ cx.exp_map2, p.2.length ≤ EBound cx := by
    intro p hp
    exact le_foldr_max (fun q : Nat × List def_id => q.2.length) 0 cx.exp_map2 p hp
  have hSB' : ∀ p ∈ cx.items, nsize p.2 ≤ SBound cx m := by
    intro p hp
    exact le_foldr_max (fun q : Nat × ast_map_node => nsize q.2) (ilsize m) cx.items p hp
  have hil : ilsize m ≤ SBound cx m :=
    init_le_foldr_max (fun q : Nat × ast_map_node => nsize q.2) (ilsize m) cx.items
  have hUN' : ∀ p ∈ cx.items, node_ids p.2 ⊆ u_of cx m := by
    intro p hp
    exact node_ids_subset_u_of hp
  have htc := term_all cx (u_of cx m) rank R (EBound cx) (SBound cx m)
    hrank hEB' hSB' hUN'
  have hW : 0 < R + 3 := by omega
  refine ⟨ucount (u_of cx m) [] * Kc R (EBound cx) (SBound cx m) +
    (R + 3) * (4 * (EBound cx + ilsize m) + 20) + 1, ?_⟩
  have hT1 := htc (ucount (u_of cx m) [] * Kc R (EBound cx) (SBound cx m) +
    (R + 3) * (4 * (EBound cx + ilsize m) + 20) + 1)
  simp only [TermConj] at hT1
  obtain ⟨-, -, -, c4, -, -, -, -, -, -, -, -, -, -, -, -, -, -, -, -, -, -⟩ := hT1
  have hT2 := htc (ucount (u_of cx m) [] * Kc R (EBound cx) (SBound cx m) +
    (R + 3) * (4 * (EBound cx + ilsize m) + 20))
  simp only [TermConj] at hT2
  obtain ⟨-, -, -, -, -, -, -, -, -, -, -, -, -, -, -, -, -, -, c19, -, -, -⟩ := hT2
  simp only [find_reachable]
  apply neq_oof_bind
  · apply c4 crate_node_id m []
    · exact items_ids_subset_u_of
    · exact hil
    · have := mulW_lt hW (show 4 * (EBound cx + ilsize m) + 3 <
        4 * (EBound cx + ilsize m) + 20 by omega)
      omega
  · intro r1 h1
    simp only [traverse_all_resources_and_impls]
    apply c19 m r1
    · exact items_ids_subset_u_of
    · exact hil
    · have hle : ucount (u_of cx m) r1 ≤ ucount (u_of cx m) [] :=
        ucount_anti (List.nil_subset r1)
      have hmul := Nat.mul_le_mul_right (Kc R (EBound cx) (SBound cx m)) hle
      have := mulW_lt hW (show 4 * ilsize m + 16 <
        4 * (EBound cx + ilsize m) + 20 by omega)
      omega

/-- Witness for C9 amended: the method node 5 of `cx_c10` redirects to the
impl item at node 6, certified by the rank function sending 5 to 1 and
everything else to 0 with bound 1; the analysis terminates on this input. -/
theorem c9_witness : terminates cx_c10 [] :=
  c9_amended cx_c10 [] (fun i => if i = 5 then 1 else 0) 1 (by decide)
